import Mathlib

/-!
# Jaro and Jaro-Winkler similarity (`jaroWinkler.hpp`)

A shallow embedding of the two function templates of `jaroWinkler.hpp`.

Modelling conventions.

* A `std::basic_string_view<T>` is a `List α` over a symbol type with decidable
  equality; `std::vector<bool>` and `std::vector<int>` are `List Bool` and
  `List Int`.
* Every `int` of the source is an `Int` that lies in `[-2^31, 2^31)`.
  `static_cast<int>` of a size is `castInt`, the two's-complement reading of the
  low 32 bits, so a size of `2^31` or more is not the length itself.  The one
  `int` operation whose mathematical value can leave the range, the sum
  `aIndex + maxRange + 1` of line 49, is reduced by `wrapInt` (signed overflow is
  taken to wrap, as it does on two's-complement hardware; the C++ standard
  leaves it undefined).  Every other `int` operation of the source keeps its
  mathematical value: indices and counters stay between `0` and a length,
  `maxRange` lies in `[0, 2^30)`, and `aIndex - maxRange` lies in `(-2^30, 2^31)`.
* Constructing a `std::vector` with a negative `int` size converts the size to
  a `size_t` above the largest size a vector can have, and throws.
* A `double` is a rational number (`ℚ`).  The two function templates take the
  rounding of `double` operations as a parameter `fl : ℚ → ℚ`, applied to the
  exact value of every constant and after every `double` operation.  With
  `exact` no operation rounds.  With `binary64` every operation rounds to the
  nearest IEEE-754 binary64 number, ties to even; exponents are unbounded, which
  is faithful here since every non-zero intermediate value lies between `2⁻⁶⁰`
  and `2³¹`, far inside the range of normal doubles.  Every operation rounds on
  its own (no fused multiply-add), and converting an `int` to `double` is exact.
* The functions return `Option ℚ`.  `none` stands for every way the C++ can go
  wrong: a `.at()` whose index is outside the container (`std::out_of_range`),
  an `operator[]` write outside the container, a division by zero, a vector
  constructor that throws.
* A counted `for` loop is a structural recursion on the number of iterations
  that remain; `break` returns the current state.
-/

set_option linter.unusedSectionVars false

namespace JaroWinkler

/-! ## Machine integers -/

/-- The value an `int` holds after an operation whose mathematical result is
`z`: the representative of `z` modulo `2^32` in `[-2^31, 2^31)`. -/
def wrapInt (z : Int) : Int :=
  (z + 2147483648) % 4294967296 - 2147483648

/-- Conversion `static_cast<int>` of a `size_t` (lines 27-28). -/
def castInt (n : Nat) : Int :=
  wrapInt n

/-! ## Containers -/

/-- Bounds-checked read, `xs.at(i)`: fails when `i` is negative or not below the size. -/
def checkedAt {β : Type} (xs : List β) (i : Int) : Option β :=
  if 0 ≤ i then xs[i.toNat]? else none

/-- Write through `xs[i] = v`: only defined for an index inside the container. -/
def writeAt {β : Type} (xs : List β) (i : Int) (v : β) : Option (List β) :=
  if 0 ≤ i ∧ i < (xs.length : Int) then some (xs.set i.toNat v) else none

/-! ## Arithmetic on `double` -/

/-- The nearest integer, the even one of the two when `x` is half-way. -/
def roundHalfEven (x : ℚ) : Int :=
  if x - ⌊x⌋ < 1 / 2 then ⌊x⌋
  else if 1 / 2 < x - ⌊x⌋ then ⌊x⌋ + 1
  else if ⌊x⌋ % 2 = 0 then ⌊x⌋
  else ⌊x⌋ + 1

/-- Rounding to the nearest binary64 number, ties to even: 53 significant bits,
so a value in `[2^e, 2^(e+1))` is rounded to a multiple of `2^(e-52)`. -/
def binary64 (x : ℚ) : ℚ :=
  if x = 0 then 0
  else
    (if x < 0 then -1 else 1) * roundHalfEven (|x| / 2 ^ (Int.log 2 |x| - 52)) *
      2 ^ (Int.log 2 |x| - 52)

/-- Exact arithmetic: no operation rounds. -/
def exact (x : ℚ) : ℚ := x

/-- Division of doubles, defined when the divisor is not zero. -/
def divide (fl : ℚ → ℚ) (x d : ℚ) : Option ℚ :=
  if d = 0 then none else some (fl (x / d))

/-! ## Constants -/

/-- Weight of the share of matched symbols of `a`: the exact value of `1.0/3.0`. -/
def JARO_WEIGHT_STRING_A : ℚ := 1 / 3

/-- Weight of the share of matched symbols of `b`: the exact value of `1.0/3.0`. -/
def JARO_WEIGHT_STRING_B : ℚ := 1 / 3

/-- Weight of the transposition term: the exact value of `1.0/3.0`. -/
def JARO_WEIGHT_TRANSPOSITIONS : ℚ := 1 / 3

/-- Cap on the common leading run that is rewarded. -/
def JARO_WINKLER_PREFIX_SIZE : Nat := 4

/-- Scaling factor of the boost: the exact value of `0.1`. -/
def JARO_WINKLER_SCALING_FACTOR : ℚ := 1 / 10

/-- Boost threshold: the exact value of `0.7`. -/
def JARO_WINKLER_BOOST_THRESHOLD : ℚ := 7 / 10

/-! ## The matching scan -/

/-- The three variables the matching scan updates. -/
structure MatchState where
  /-- Mask over `a`: which positions have been matched. -/
  aMatch : List Bool
  /-- Mask over `b`: which positions have been consumed. -/
  bMatch : List Bool
  /-- Running number of matches. -/
  matchingCharacters : Int
deriving DecidableEq, Repr

variable {α : Type} [DecidableEq α]

/-- Inner loop of the scan (lines 57-67): `n` iterations remain, `bIndex` is the
current index into `b`.  The first free position of `b` holding `a.at(aIndex)`
is consumed and the loop is left. -/
def windowLoop (a b : List α) (aIndex : Int) : Nat → Int → MatchState → Option MatchState
  | 0, _, s => some s
  | n + 1, bIndex, s => do
    let taken ← checkedAt s.bMatch bIndex
    if taken then
      windowLoop a b aIndex n (bIndex + 1) s
    else
      let x ← checkedAt a aIndex
      let y ← checkedAt b bIndex
      if x = y then
        let aMatch ← writeAt s.aMatch aIndex true
        let bMatch ← writeAt s.bMatch bIndex true
        some ⟨aMatch, bMatch, s.matchingCharacters + 1⟩
      else
        windowLoop a b aIndex n (bIndex + 1) s

/-- Outer loop of the scan (lines 45-68): `n` iterations remain, `aIndex` is the
current index into `a`.  An empty window ends the scan. -/
def matchLoop (a b : List α) (maxRange bLength : Int) :
    Nat → Int → MatchState → Option MatchState
  | 0, _, s => some s
  | n + 1, aIndex, s =>
    let minIndex := max (aIndex - maxRange) 0
    let maxIndex := min (wrapInt (aIndex + maxRange + 1)) bLength
    if minIndex ≥ maxIndex then
      some s
    else do
      let s ← windowLoop a b aIndex (maxIndex - minIndex).toNat minIndex s
      matchLoop a b maxRange bLength n (aIndex + 1) s

/-- Position extraction (lines 80-87 and 89-96): `n` iterations remain, `index`
walks the mask, `positionIndex` is the next slot of `position` to fill. -/
def positionLoop (mask : List Bool) : Nat → Int → Int → List Int → Option (List Int)
  | 0, _, _, position => some position
  | n + 1, index, positionIndex, position => do
    let matched ← checkedAt mask index
    if matched then
      let position ← writeAt position positionIndex index
      positionLoop mask n (index + 1) (positionIndex + 1) position
    else
      positionLoop mask n (index + 1) positionIndex position

/-- Lockstep walk over the two position lists (lines 99-106), counting the
indices whose symbols differ. -/
def transpositionLoop (a b : List α) (aPosition bPosition : List Int) :
    Nat → Int → Int → Option Int
  | 0, _, transpositions => some transpositions
  | n + 1, index, transpositions => do
    let i ← checkedAt aPosition index
    let x ← checkedAt a i
    let j ← checkedAt bPosition index
    let y ← checkedAt b j
    transpositionLoop a b aPosition bPosition n (index + 1)
      (if x ≠ y then transpositions + 1 else transpositions)

/-- Half-width of the matching window (line 37), from the two `int` lengths of
lines 27-28. -/
def maxRange (a b : List α) : Int :=
  max 0 ((max (castInt a.length) (castInt b.length)).tdiv 2 - 1)

/-- Lines 36-68 of `jaroDistance`: the window size, the two fresh masks and the
matching scan over the first `aLength` positions of `a`.  The masks have
`aLength` and `bLength` entries; a negative length makes the constructor of
line 40 or 41 throw. -/
def matchScan (a b : List α) : Option MatchState :=
  let aLength := castInt a.length
  let bLength := castInt b.length
  if aLength < 0 ∨ bLength < 0 then
    none
  else
    matchLoop a b (maxRange a b) bLength aLength.toNat 0
      ⟨List.replicate aLength.toNat false, List.replicate bLength.toNat false, 0⟩

/-- What lines 76-106 compute from the masks. -/
structure Transpositions where
  /-- Matched positions of `a`, ascending. -/
  aPosition : List Int
  /-- Matched positions of `b`, ascending. -/
  bPosition : List Int
  /-- Number of lockstep mismatches. -/
  transpositions : Int
deriving DecidableEq, Repr

/-- Lines 76-106 of `jaroDistance`: the two position vectors, filled from the
masks, and the lockstep walk over them. -/
def transpositionScan (a b : List α) (s : MatchState) : Option Transpositions := do
  let aPosition ← positionLoop s.aMatch (castInt a.length).toNat 0 0
    (List.replicate s.matchingCharacters.toNat 0)
  let bPosition ← positionLoop s.bMatch (castInt b.length).toNat 0 0
    (List.replicate s.matchingCharacters.toNat 0)
  let transpositions ← transpositionLoop a b aPosition bPosition
    s.matchingCharacters.toNat 0 0
  some ⟨aPosition, bPosition, transpositions⟩

/-- The function template `jaroDistance` (lines 23-114), in the arithmetic `fl`. -/
def jaroDistance (fl : ℚ → ℚ) (a b : List α) : Option ℚ :=
  let aLength : Int := castInt a.length
  let bLength : Int := castInt b.length
  if aLength = 0 ∨ bLength = 0 then
    some 0
  else do
    let s ← matchScan a b
    if s.matchingCharacters = 0 then
      some 0
    else
      let t ← transpositionScan a b s
      let x ← divide fl (fl (fl JARO_WEIGHT_STRING_A * s.matchingCharacters)) aLength
      let y ← divide fl (fl (fl JARO_WEIGHT_STRING_B * s.matchingCharacters)) bLength
      let z ← divide fl
        (fl (fl JARO_WEIGHT_TRANSPOSITIONS *
          ((s.matchingCharacters - t.transpositions.tdiv 2 : Int) : ℚ)))
        s.matchingCharacters
      some (fl (fl (x + y) + z))

/-- Common leading run (lines 126-138): `n` iterations remain; the first
mismatch ends the loop. -/
def commonPrefixLoop (a b : List α) : Nat → Int → Int → Option Int
  | 0, _, common => some common
  | n + 1, index, common => do
    let x ← checkedAt a index
    let y ← checkedAt b index
    if x = y then
      commonPrefixLoop a b n (index + 1) (common + 1)
    else
      some common

/-- The function template `jaroWinklerDistance` (lines 116-146), in the
arithmetic `fl`. -/
def jaroWinklerDistance (fl : ℚ → ℚ) (a b : List α) : Option ℚ := do
  let distance ← jaroDistance fl a b
  if distance > fl JARO_WINKLER_BOOST_THRESHOLD then
    let indexEnd : Int := (min (min a.length b.length) JARO_WINKLER_PREFIX_SIZE : Nat)
    let common ← commonPrefixLoop a b indexEnd.toNat 0 0
    some (fl (distance +
      fl (fl (fl JARO_WINKLER_SCALING_FACTOR * common) * fl (1 - distance))))
  else
    some distance

/-! ## Specification vocabulary -/

/-- Position `k` of `b` is free in the mask `bm` and holds the symbol `x`. -/
def FreeAt (b : List α) (bm : List Bool) (x : α) (k : Nat) : Prop :=
  bm[k]? = some false ∧ b[k]? = some x

/-- The relation `P` pairs positions of `a` below row `n` with positions of `b`
the way the scan does: equal symbols, inside the window, one-to-one, and every
row takes the first position of its window that no earlier row has taken. -/
structure Greedy (a b : List α) (R n : Nat) (P : Nat → Nat → Prop) : Prop where
  row_lt : ∀ i j, P i j → i < n
  same : ∀ i j, P i j → ∃ x, a[i]? = some x ∧ b[j]? = some x
  near : ∀ i j, P i j → i ≤ j + R ∧ j ≤ i + R
  functional : ∀ i j j0, P i j → P i j0 → j = j0
  injective : ∀ i i0 j, P i j → P i0 j → i = i0
  first : ∀ i j x, i < n → a[i]? = some x → b[j]? = some x → i ≤ j + R → j ≤ i + R →
    (∀ j0, P i j0 → j < j0) → ∃ i0, i0 < i ∧ P i0 j

/-- The loop invariant of the scan: after the rows below `n`, the masks and the
counter describe the matching `P`. -/
structure ScanInv (a b : List α) (R n : Nat) (s : MatchState) (P : Nat → Nat → Prop) :
    Prop where
  greedy : Greedy a b R n P
  aLen : s.aMatch.length = a.length
  bLen : s.bMatch.length = b.length
  aMask : ∀ i, s.aMatch[i]? = some true ↔ ∃ j, P i j
  bMask : ∀ j, s.bMatch[j]? = some true ↔ ∃ i, P i j
  aCount : s.matchingCharacters = s.aMatch.count true
  bCount : s.matchingCharacters = s.bMatch.count true

/-- The window half-width as a natural number. -/
def windowRadius (a b : List α) : Nat :=
  max a.length b.length / 2 - 1

/-- Both sizes fit in an `int`, and on every row the scan reaches the sum
`aIndex + maxRange + 1` of line 49 stays below `2^31`.  The scan reaches the
rows below `min aLength (bLength + maxRange + 1)`. -/
def InRange (a b : List α) : Prop :=
  a.length < 2147483648 ∧ b.length < 2147483648 ∧
    min a.length (b.length + windowRadius a b + 1) + windowRadius a b < 2147483648

instance (a b : List α) : Decidable (InRange a b) := by
  unfold InRange
  infer_instance

/-- The indices of the `true` entries of a mask, ascending; the first entry of
the mask has index `start`. -/
def maskPositions : List Bool → Nat → List Int
  | [], _ => []
  | true :: mask, start => (start : Int) :: maskPositions mask (start + 1)
  | false :: mask, start => maskPositions mask (start + 1)

/-- The value `jaroDistance` computes, in the arithmetic `fl`, from the two
lengths, the number of matches and the number of transpositions. -/
def jaroValue (fl : ℚ → ℚ) (aLength bLength m t : Int) : ℚ :=
  fl (fl (fl (fl (fl JARO_WEIGHT_STRING_A * m) / aLength) +
        fl (fl (fl JARO_WEIGHT_STRING_B * m) / bLength)) +
    fl (fl (fl JARO_WEIGHT_TRANSPOSITIONS * ((m - t.tdiv 2 : Int) : ℚ)) / m))

/-- Length of the longest common prefix of two sequences: the leading run of
equal symbols at equal indices, stopped at the first mismatch or at the end of
the shorter sequence. -/
def commonPrefixLength : List α → List α → Nat
  | x :: a, y :: b => if x = y then commonPrefixLength a b + 1 else 0
  | _, _ => 0
/-- The outer loop of the scan with `continue` in place of `break`: an empty
window skips the index and the loop goes on to the next one. -/
def matchLoopContinue (a b : List α) (maxRange bLength : Int) :
    Nat → Int → MatchState → Option MatchState
  | 0, _, s => some s
  | n + 1, aIndex, s =>
    let minIndex := max (aIndex - maxRange) 0
    let maxIndex := min (wrapInt (aIndex + maxRange + 1)) bLength
    if minIndex ≥ maxIndex then
      matchLoopContinue a b maxRange bLength n (aIndex + 1) s
    else do
      let s ← windowLoop a b aIndex (maxIndex - minIndex).toNat minIndex s
      matchLoopContinue a b maxRange bLength n (aIndex + 1) s

/-- Lines 36-68 with `continue` in place of `break`. -/
def matchScanContinue (a b : List α) : Option MatchState :=
  let aLength := castInt a.length
  let bLength := castInt b.length
  if aLength < 0 ∨ bLength < 0 then
    none
  else
    matchLoopContinue a b (maxRange a b) bLength aLength.toNat 0
      ⟨List.replicate aLength.toNat false, List.replicate bLength.toNat false, 0⟩

/-- The symbols at the `k`-th matched positions of `a` and of `b` differ. -/
def MismatchAt (a b : List α) (p q : List Int) (k : Nat) : Prop :=
  ∃ i j x y, p[k]? = some i ∧ q[k]? = some j ∧ checkedAt a i = some x ∧
    checkedAt b j = some y ∧ x ≠ y


/-- The set `M` is a one-to-one pairing of positions of `a` with positions of
`b` that hold equal symbols at most `maxRange` apart. -/
structure WindowPairing (a b : List α) (maxRange : Int) (M : Finset (Nat × Nat)) : Prop where
  same : ∀ i j, (i, j) ∈ M → ∃ x, a[i]? = some x ∧ b[j]? = some x
  near : ∀ i j, (i, j) ∈ M → |(i : Int) - (j : Int)| ≤ maxRange
  functional : ∀ i j j0, (i, j) ∈ M → (i, j0) ∈ M → j = j0
  injective : ∀ i i0 j, (i, j) ∈ M → (i0, j) ∈ M → i = i0
/-! # Theorems -/

/-! ## Rounding -/

theorem roundHalfEven_eq (x : ℚ) (n : Int) (h : |x - n| < 1 / 2) : roundHalfEven x = n := by
  rw [abs_lt] at h
  obtain ⟨h1, h2⟩ := h
  unfold roundHalfEven
  rcases le_or_lt (n : ℚ) x with hle | hlt
  · have hf : ⌊x⌋ = n := Int.floor_eq_iff.2 ⟨hle, by linarith⟩
    rw [hf, if_pos (by linarith)]
  · have hf : ⌊x⌋ = n - 1 := Int.floor_eq_iff.2 ⟨by push_cast; linarith, by push_cast; linarith⟩
    rw [hf]
    push_cast
    rw [if_neg (by linarith), if_pos (by linarith)]
    ring

theorem roundHalfEven_nonneg (x : ℚ) (h : 0 ≤ x) : 0 ≤ roundHalfEven x := by
  have hf : 0 ≤ ⌊x⌋ := Int.floor_nonneg.2 h
  unfold roundHalfEven
  split_ifs <;> omega

/-- Rounding a positive value of the binade `[2^e, 2^(e+1))` whose nearest
multiple of `2^(e-52)` is `n * 2^(e-52)`. -/
theorem binary64_eq (x : ℚ) (e n : Int) (hlo : (2 : ℚ) ^ e ≤ x) (hhi : x < (2 : ℚ) ^ (e + 1))
    (hn : |x / (2 : ℚ) ^ (e - 52) - n| < 1 / 2) :
    binary64 x = n * (2 : ℚ) ^ (e - 52) := by
  have hx : 0 < x := lt_of_lt_of_le (zpow_pos (by norm_num) e) hlo
  have habs : |x| = x := abs_of_pos hx
  have hlog : Int.log 2 x = e := by
    have h1 : e ≤ Int.log 2 x :=
      (Int.zpow_le_iff_le_log (by norm_num) hx).1 (by exact_mod_cast hlo)
    have h2 : Int.log 2 x < e + 1 :=
      (Int.lt_zpow_iff_log_lt (by norm_num) hx).1 (by exact_mod_cast hhi)
    omega
  unfold binary64
  rw [if_neg hx.ne', if_neg (not_lt.2 hx.le), habs, hlog, roundHalfEven_eq _ n hn]
  ring

theorem binary64_nonneg (x : ℚ) (h : 0 ≤ x) : 0 ≤ binary64 x := by
  unfold binary64
  split_ifs with h0 h1
  · exact le_refl _
  · exact absurd h (not_le.2 h1)
  · have h2 : (0 : ℚ) ≤ roundHalfEven (|x| / 2 ^ (Int.log 2 |x| - 52)) := by
      exact_mod_cast roundHalfEven_nonneg _ (div_nonneg (abs_nonneg x) (zpow_pos (by norm_num) _).le)
    have h3 : (0 : ℚ) ≤ 2 ^ (Int.log 2 |x| - 52) := (zpow_pos (by norm_num) _).le
    simpa using mul_nonneg h2 h3

/-- The double `1.0/3.0`. -/
theorem binary64_third : binary64 (1 / 3) = 6004799503160661 / 2 ^ 54 := by
  rw [binary64_eq (1 / 3) (-2) 6004799503160661 (by norm_num) (by norm_num)
    (by norm_num [abs_lt])]
  norm_num

/-- The value `jaroDistance` computes in binary64 arithmetic for a sequence of
25 symbols scanned against itself: the quotient `(1.0/3.0 * 25) / 25` rounds to
the double just below `1.0/3.0`. -/
theorem jaroValue_binary64_25 : jaroValue binary64 25 25 25 0 = 1 - 1 / 2 ^ 52 := by
  have h1 : binary64 (6004799503160661 / 2 ^ 54 * 25) = 4691249611844266 / 2 ^ 49 := by
    rw [binary64_eq _ 3 4691249611844266 (by norm_num) (by norm_num) (by norm_num [abs_lt])]
    norm_num
  have h2 : binary64 (4691249611844266 / 2 ^ 49 / 25) = 6004799503160660 / 2 ^ 54 := by
    rw [binary64_eq _ (-2) 6004799503160660 (by norm_num) (by norm_num) (by norm_num [abs_lt])]
    norm_num
  have h3 : binary64 (6004799503160660 / 2 ^ 54 + 6004799503160660 / 2 ^ 54)
      = 6004799503160660 / 2 ^ 53 := by
    rw [binary64_eq _ (-1) 6004799503160660 (by norm_num) (by norm_num) (by norm_num [abs_lt])]
    norm_num
  have h4 : binary64 (6004799503160660 / 2 ^ 53 + 6004799503160660 / 2 ^ 54)
      = 1 - 1 / 2 ^ 52 := by
    rw [binary64_eq _ (-1) 9007199254740990 (by norm_num) (by norm_num) (by norm_num [abs_lt])]
    norm_num
  unfold jaroValue JARO_WEIGHT_STRING_A JARO_WEIGHT_STRING_B JARO_WEIGHT_TRANSPOSITIONS
  simp only [Int.zero_tdiv, sub_zero, Int.cast_ofNat, binary64_third, h1, h2, h3, h4]

theorem roundHalfEven_le_of_le (x : ℚ) (y : Int) (h : x ≤ y) : roundHalfEven x ≤ y := by
  have hfx : (⌊x⌋ : ℚ) ≤ x := Int.floor_le x
  have hf : ⌊x⌋ ≤ y := by exact_mod_cast le_trans hfx h
  have hstep : 1 / 2 ≤ x - ⌊x⌋ → ⌊x⌋ + 1 ≤ y := by
    intro h1
    have h2 : (⌊x⌋ : ℚ) < y := by linarith
    have h3 : ⌊x⌋ < y := by exact_mod_cast h2
    omega
  unfold roundHalfEven
  split_ifs with h1 h2 h3
  · exact hf
  · exact hstep h2.le
  · exact hf
  · exact hstep (not_lt.1 h1)

theorem le_roundHalfEven_of_le (x : ℚ) (y : Int) (h : (y : ℚ) ≤ x) : y ≤ roundHalfEven x := by
  have hf : y ≤ ⌊x⌋ := Int.le_floor.2 h
  unfold roundHalfEven
  split_ifs <;> omega

theorem roundHalfEven_le_add_half (x : ℚ) : (roundHalfEven x : ℚ) ≤ x + 1 / 2 := by
  have hfx : (⌊x⌋ : ℚ) ≤ x := Int.floor_le x
  unfold roundHalfEven
  split_ifs with h1 h2 h3
  · linarith
  · push_cast; linarith
  · linarith
  · push_cast; linarith [not_lt.1 h1]

theorem binary64_of_pos (x : ℚ) (hx : 0 < x) :
    binary64 x = roundHalfEven (x / 2 ^ (Int.log 2 x - 52)) * 2 ^ (Int.log 2 x - 52) := by
  unfold binary64
  rw [if_neg hx.ne', if_neg (not_lt.2 hx.le), abs_of_pos hx]
  ring

theorem scaled_ge (x : ℚ) (hx : 0 < x) : (2 : ℚ) ^ (52 : ℕ) ≤ x / 2 ^ (Int.log 2 x - 52) := by
  have h1 : (2 : ℚ) ^ Int.log 2 x ≤ x := by
    exact_mod_cast Int.zpow_log_le_self (by norm_num : 1 < 2) hx
  have hu : (0 : ℚ) < 2 ^ (Int.log 2 x - 52) := zpow_pos (by norm_num) _
  rw [le_div_iff₀ hu]
  calc (2 : ℚ) ^ (52 : ℕ) * 2 ^ (Int.log 2 x - 52)
      = 2 ^ Int.log 2 x := by
        rw [← zpow_natCast, ← zpow_add₀ (by norm_num : (2 : ℚ) ≠ 0)]
        congr 1
        omega
    _ ≤ x := h1

theorem binary64_pos (x : ℚ) (hx : 0 < x) : 0 < binary64 x := by
  rw [binary64_of_pos x hx]
  have hR : ((2 ^ 52 : Int)) ≤ roundHalfEven (x / 2 ^ (Int.log 2 x - 52)) :=
    le_roundHalfEven_of_le _ _ (by push_cast; exact scaled_ge x hx)
  have hR0 : (0 : ℚ) < roundHalfEven (x / 2 ^ (Int.log 2 x - 52)) := by
    have : (0 : Int) < roundHalfEven (x / 2 ^ (Int.log 2 x - 52)) :=
      lt_of_lt_of_le (by norm_num) hR
    exact_mod_cast this
  exact mul_pos hR0 (zpow_pos (by norm_num) _)

/-- Rounding never crosses a multiple of `2^k` above the value, as long as the
value has fewer than `k + 53` bits before the binary point. -/
theorem binary64_le_grid (x : ℚ) (K k : Int) (hx : 0 < x) (hle : x ≤ K * (2 : ℚ) ^ k)
    (hk : x < (2 : ℚ) ^ (k + 53)) : binary64 x ≤ K * (2 : ℚ) ^ k := by
  have hL : Int.log 2 x < k + 53 :=
    (Int.lt_zpow_iff_log_lt (by norm_num) hx).1 (by exact_mod_cast hk)
  obtain ⟨j, hj⟩ : ∃ j : ℕ, k = (Int.log 2 x - 52) + j :=
    ⟨(k - (Int.log 2 x - 52)).toNat, by omega⟩
  have hu : (0 : ℚ) < 2 ^ (Int.log 2 x - 52) := zpow_pos (by norm_num) _
  have h2k : (2 : ℚ) ^ k = 2 ^ j * 2 ^ (Int.log 2 x - 52) := by
    conv_lhs => rw [hj]
    rw [zpow_add₀ (by norm_num : (2 : ℚ) ≠ 0), zpow_natCast]
    ring
  rw [binary64_of_pos x hx]
  have hX : x / 2 ^ (Int.log 2 x - 52) ≤ ((K * 2 ^ j : Int) : ℚ) := by
    rw [div_le_iff₀ hu]
    push_cast
    calc x ≤ K * (2 : ℚ) ^ k := hle
      _ = K * 2 ^ j * 2 ^ (Int.log 2 x - 52) := by rw [h2k]; ring
  have hR := roundHalfEven_le_of_le _ _ hX
  calc (roundHalfEven (x / 2 ^ (Int.log 2 x - 52)) : ℚ) * 2 ^ (Int.log 2 x - 52)
      ≤ ((K * 2 ^ j : Int) : ℚ) * 2 ^ (Int.log 2 x - 52) :=
        mul_le_mul_of_nonneg_right (by exact_mod_cast hR) hu.le
    _ = K * (2 : ℚ) ^ k := by push_cast; rw [h2k]; ring

/-- Rounding never crosses a multiple of `2^k` below the value. -/
theorem grid_le_binary64 (x : ℚ) (K k : Int) (hx : 0 < x) (hle : K * (2 : ℚ) ^ k ≤ x)
    (hk : x < (2 : ℚ) ^ (k + 53)) : K * (2 : ℚ) ^ k ≤ binary64 x := by
  have hL : Int.log 2 x < k + 53 :=
    (Int.lt_zpow_iff_log_lt (by norm_num) hx).1 (by exact_mod_cast hk)
  obtain ⟨j, hj⟩ : ∃ j : ℕ, k = (Int.log 2 x - 52) + j :=
    ⟨(k - (Int.log 2 x - 52)).toNat, by omega⟩
  have hu : (0 : ℚ) < 2 ^ (Int.log 2 x - 52) := zpow_pos (by norm_num) _
  have h2k : (2 : ℚ) ^ k = 2 ^ j * 2 ^ (Int.log 2 x - 52) := by
    conv_lhs => rw [hj]
    rw [zpow_add₀ (by norm_num : (2 : ℚ) ≠ 0), zpow_natCast]
    ring
  rw [binary64_of_pos x hx]
  have hX : ((K * 2 ^ j : Int) : ℚ) ≤ x / 2 ^ (Int.log 2 x - 52) := by
    rw [le_div_iff₀ hu]
    push_cast
    calc (K : ℚ) * 2 ^ j * 2 ^ (Int.log 2 x - 52) = K * (2 : ℚ) ^ k := by rw [h2k]; ring
      _ ≤ x := hle
  have hR := le_roundHalfEven_of_le _ _ hX
  calc (K : ℚ) * (2 : ℚ) ^ k = ((K * 2 ^ j : Int) : ℚ) * 2 ^ (Int.log 2 x - 52) := by
        push_cast; rw [h2k]; ring
    _ ≤ (roundHalfEven (x / 2 ^ (Int.log 2 x - 52)) : ℚ) * 2 ^ (Int.log 2 x - 52) :=
        mul_le_mul_of_nonneg_right (by exact_mod_cast hR) hu.le

/-- The rounded value of a number of at least `2^(k+52)` is a multiple of `2^k`. -/
theorem binary64_on_grid (x : ℚ) (k : Int) (hx : 0 < x) (hk : (2 : ℚ) ^ (k + 52) ≤ x) :
    ∃ K : Int, binary64 x = K * (2 : ℚ) ^ k := by
  have hL : k + 52 ≤ Int.log 2 x :=
    (Int.zpow_le_iff_le_log (by norm_num) hx).1 (by exact_mod_cast hk)
  obtain ⟨j, hj⟩ : ∃ j : ℕ, Int.log 2 x - 52 = k + j :=
    ⟨(Int.log 2 x - 52 - k).toNat, by omega⟩
  have hu : (2 : ℚ) ^ (Int.log 2 x - 52) = 2 ^ k * 2 ^ j := by
    rw [hj, zpow_add₀ (by norm_num : (2 : ℚ) ≠ 0), zpow_natCast]
  refine ⟨roundHalfEven (x / 2 ^ (Int.log 2 x - 52)) * 2 ^ j, ?_⟩
  rw [binary64_of_pos x hx]
  generalize roundHalfEven (x / 2 ^ (Int.log 2 x - 52)) = R
  rw [hu]
  push_cast
  ring

/-! ## The weight `1.0/3.0` -/

theorem third_round_int (N R : Int) (h1 : 3 * 2 ^ 52 < N)
    (h2 : 3 * 2 ^ 55 * R ≤ 2 * N * (2 ^ 54 - 1) + 3 * 2 ^ 54) :
    3 * 2 ^ 55 * R < N * (2 ^ 55 + 1) := by
  have hk : N = 3 * (N / 3) + N % 3 := by omega
  have hr0 : 0 ≤ N % 3 := by omega
  have hr2 : N % 3 ≤ 2 := by omega
  generalize N / 3 = k at hk
  generalize N % 3 = r at hk hr0 hr2
  by_contra hcon
  rw [not_lt] at hcon
  have hRk : k + 1 ≤ R := by
    by_contra hlt
    have : R ≤ k := by omega
    norm_num at *
    linarith
  norm_num at *
  linarith

/-- The product `1.0/3.0 * m` rounds to less than `m * (1.0/3.0 + 2⁻⁵⁵)`: divided
by `m` again it stays closer to `1.0/3.0` than to the next double. -/
theorem binary64_third_mul_lt (m : Int) (h1 : 1 ≤ m) (h2 : m < 2 ^ 31) :
    binary64 (6004799503160661 / 2 ^ 54 * (m : ℚ))
      < (m : ℚ) * (6004799503160661 / 2 ^ 54 + 1 / 2 ^ 55) := by
  have hm1 : (1 : ℚ) ≤ m := by exact_mod_cast h1
  have hm2 : (m : ℚ) < 2 ^ 31 := by exact_mod_cast h2
  have hx : (0 : ℚ) < 6004799503160661 / 2 ^ 54 * (m : ℚ) := by positivity
  have hxlt : 6004799503160661 / 2 ^ 54 * (m : ℚ) < (2 : ℚ) ^ (30 : Int) := by
    norm_num
    linarith
  have hL : Int.log 2 (6004799503160661 / 2 ^ 54 * (m : ℚ)) < 30 :=
    (Int.lt_zpow_iff_log_lt (by norm_num) hx).1 (by exact_mod_cast hxlt)
  obtain ⟨j, hj⟩ : ∃ j : ℕ, Int.log 2 (6004799503160661 / 2 ^ 54 * (m : ℚ)) - 52 = -(j : Int) :=
    ⟨(52 - Int.log 2 (6004799503160661 / 2 ^ 54 * (m : ℚ))).toNat, by omega⟩
  have hge := scaled_ge _ hx
  have hR := roundHalfEven_le_add_half
    (6004799503160661 / 2 ^ 54 * (m : ℚ) /
      2 ^ (Int.log 2 (6004799503160661 / 2 ^ 54 * (m : ℚ)) - 52))
  rw [binary64_of_pos _ hx]
  generalize roundHalfEven (6004799503160661 / 2 ^ 54 * (m : ℚ) /
      2 ^ (Int.log 2 (6004799503160661 / 2 ^ 54 * (m : ℚ)) - 52)) = R at hR ⊢
  rw [hj, zpow_neg, zpow_natCast] at hge hR ⊢
  have hj0 : (0 : ℚ) < 2 ^ j := by positivity
  rw [div_inv_eq_mul] at hge hR
  have hN : 3 * 2 ^ 52 < m * 2 ^ j := by
    by_contra hcon
    rw [not_lt] at hcon
    have : ((m * 2 ^ j : Int) : ℚ) ≤ 3 * 2 ^ 52 := by exact_mod_cast hcon
    push_cast at this
    norm_num at hge this
    linarith
  have h2R : 3 * 2 ^ 55 * R ≤ 2 * (m * 2 ^ j) * (2 ^ 54 - 1) + 3 * 2 ^ 54 := by
    have : (3 * 2 ^ 55 * R : ℚ) ≤ 2 * ((m : ℚ) * 2 ^ j) * (2 ^ 54 - 1) + 3 * 2 ^ 54 := by
      norm_num at hR ⊢
      linarith
    exact_mod_cast this
  have key := third_round_int (m * 2 ^ j) R hN h2R
  have keyq : (3 * 2 ^ 55 * R : ℚ) < ((m : ℚ) * 2 ^ j) * (2 ^ 55 + 1) := by exact_mod_cast key
  rw [← div_eq_mul_inv, div_lt_iff₀ hj0]
  norm_num at keyq ⊢
  linarith

theorem binary64_zero : binary64 0 = 0 := by
  simp [binary64]

theorem binary64_one : binary64 1 = 1 := by
  rw [binary64_eq 1 0 (2 ^ 52) (by norm_num) (by norm_num) (by norm_num [abs_lt])]
  norm_num

theorem binary64_le_grid_nonneg (x : ℚ) (K k : Int) (hx : 0 ≤ x)
    (hle : x ≤ K * (2 : ℚ) ^ k) (hk : x < (2 : ℚ) ^ (k + 53)) :
    binary64 x ≤ K * (2 : ℚ) ^ k := by
  rcases hx.eq_or_lt with h0 | hpos
  · rw [← h0, binary64_zero]
    rw [← h0] at hle
    exact hle
  · exact binary64_le_grid x K k hpos hle hk

/-- A count `k ≤ n` weighted by `1.0/3.0` and divided by `n` is at most `1.0/3.0`
after both roundings, for every `n` that fits in an `int`. -/
theorem binary64_third_quot (k n : Int) (hk0 : 0 ≤ k) (hkn : k ≤ n) (hn1 : 1 ≤ n)
    (hn : n < 2 ^ 31) :
    0 ≤ binary64 (binary64 (6004799503160661 / 2 ^ 54 * (k : ℚ)) / (n : ℚ)) ∧
      binary64 (binary64 (6004799503160661 / 2 ^ 54 * (k : ℚ)) / (n : ℚ))
        ≤ 6004799503160661 / 2 ^ 54 := by
  have hnq : (1 : ℚ) ≤ n := by exact_mod_cast hn1
  have hn0 : (0 : ℚ) < n := by linarith
  rcases hk0.eq_or_lt with h0 | hpos
  · rw [← h0]
    simp only [Int.cast_zero, mul_zero, binary64_zero, zero_div]
    exact ⟨le_refl _, by norm_num⟩
  · have hk1 : 1 ≤ k := by omega
    have hkq : (k : ℚ) ≤ n := by exact_mod_cast hkn
    have hk1q : (1 : ℚ) ≤ k := by exact_mod_cast hk1
    have hy := binary64_third_mul_lt k hk1 (by omega)
    have hypos : 0 < binary64 (6004799503160661 / 2 ^ 54 * (k : ℚ)) :=
      binary64_pos _ (by positivity)
    generalize binary64 (6004799503160661 / 2 ^ 54 * (k : ℚ)) = y at hy hypos
    have hq0 : 0 < y / n := div_pos hypos hn0
    have hqlt : y / n < 6004799503160661 / 2 ^ 54 + 1 / 2 ^ 55 := by
      rw [div_lt_iff₀ hn0]
      have : (k : ℚ) * (6004799503160661 / 2 ^ 54 + 1 / 2 ^ 55)
          ≤ (n : ℚ) * (6004799503160661 / 2 ^ 54 + 1 / 2 ^ 55) :=
        mul_le_mul_of_nonneg_right hkq (by norm_num)
      linarith
    refine ⟨binary64_nonneg _ hq0.le, ?_⟩
    rcases le_or_lt (y / n) (6004799503160661 / 2 ^ 54) with hle | hgt
    · have := binary64_le_grid (y / n) 6004799503160661 (-54) hq0
        (by norm_num; linarith) (by norm_num; linarith)
      norm_num at this ⊢
      exact this
    · rw [binary64_eq (y / n) (-2) 6004799503160661 (by norm_num; linarith)
        (by norm_num; linarith)
        (by rw [abs_lt]; constructor <;> norm_num <;> linarith)]
      norm_num

/-- In binary64 arithmetic, for lengths that fit in an `int`, the value
`jaroDistance` computes lies between `0` and `1`. -/
theorem jaroValue_binary64_bounds (aLength bLength m t : Int) (hm : 0 < m)
    (ha : m ≤ aLength) (hb : m ≤ bLength) (ht0 : 0 ≤ t) (ht1 : t ≤ m)
    (hla : aLength < 2 ^ 31) (hlb : bLength < 2 ^ 31) :
    0 ≤ jaroValue binary64 aLength bLength m t ∧ jaroValue binary64 aLength bLength m t ≤ 1 := by
  have hh0 : 0 ≤ t.tdiv 2 := by rw [Int.tdiv_eq_ediv ht0 (by omega)]; omega
  have hh1 : t.tdiv 2 ≤ m := by rw [Int.tdiv_eq_ediv ht0 (by omega)]; omega
  obtain ⟨hA0, hA1⟩ := binary64_third_quot m aLength (by omega) ha (by omega) hla
  obtain ⟨hB0, hB1⟩ := binary64_third_quot m bLength (by omega) hb (by omega) hlb
  obtain ⟨hT0, hT1⟩ := binary64_third_quot (m - t.tdiv 2) m (by omega) (by omega)
    (by omega) (by omega)
  unfold jaroValue JARO_WEIGHT_STRING_A JARO_WEIGHT_STRING_B JARO_WEIGHT_TRANSPOSITIONS
  rw [binary64_third]
  generalize binary64 (binary64 (6004799503160661 / 2 ^ 54 * (m : ℚ)) / (aLength : ℚ)) = x
    at hA0 hA1 ⊢
  generalize binary64 (binary64 (6004799503160661 / 2 ^ 54 * (m : ℚ)) / (bLength : ℚ)) = y
    at hB0 hB1 ⊢
  generalize binary64 (binary64 (6004799503160661 / 2 ^ 54 * ((m - t.tdiv 2 : Int) : ℚ))
    / (m : ℚ)) = z at hT0 hT1 ⊢
  have hs0 : 0 ≤ binary64 (x + y) := binary64_nonneg _ (by linarith)
  have hs1 : binary64 (x + y) ≤ 6004799503160661 / 2 ^ 53 := by
    have := binary64_le_grid_nonneg (x + y) 6004799503160661 (-53) (by linarith)
      (by norm_num; linarith) (by norm_num; linarith)
    norm_num at this ⊢
    exact this
  refine ⟨binary64_nonneg _ (by linarith), ?_⟩
  have := binary64_le_grid_nonneg (binary64 (x + y) + z) (2 ^ 52) (-52) (by linarith)
    (by norm_num; linarith) (by norm_num; linarith)
  norm_num at this ⊢
  exact this

/-- In binary64 arithmetic the boost neither lowers a score `d ≤ 1` above the
threshold nor lifts it above `1`. -/
theorem boost_bounds_binary64 (x0 : ℚ) (p : Nat) (hx0 : 0 ≤ x0) (hd1 : binary64 x0 ≤ 1)
    (hp : p ≤ JARO_WINKLER_PREFIX_SIZE)
    (hgt : binary64 x0 > binary64 JARO_WINKLER_BOOST_THRESHOLD) :
    binary64 x0 ≤ binary64 (binary64 x0 + binary64 (binary64
        (binary64 JARO_WINKLER_SCALING_FACTOR * (((p : Nat) : Int) : ℚ)) *
        binary64 (1 - binary64 x0))) ∧
      binary64 (binary64 x0 + binary64 (binary64
        (binary64 JARO_WINKLER_SCALING_FACTOR * (((p : Nat) : Int) : ℚ)) *
        binary64 (1 - binary64 x0))) ≤ 1 := by
  unfold JARO_WINKLER_PREFIX_SIZE at hp
  unfold JARO_WINKLER_BOOST_THRESHOLD at hgt
  unfold JARO_WINKLER_SCALING_FACTOR
  have h7 : (1 : ℚ) / 2 ≤ binary64 (7 / 10) := by
    have := grid_le_binary64 (7 / 10) 1 (-1) (by norm_num) (by norm_num) (by norm_num)
    norm_num at this ⊢
    exact this
  have hx0half : (1 : ℚ) / 2 < x0 := by
    by_contra hcon
    rw [not_lt] at hcon
    have := binary64_le_grid_nonneg x0 1 (-1) hx0 (by norm_num; linarith) (by norm_num; linarith)
    norm_num at this
    linarith
  obtain ⟨K, hK⟩ := binary64_on_grid x0 (-53) (by linarith) (by norm_num; linarith)
  generalize binary64 x0 = d at hd1 hgt hK ⊢
  have hdhalf : (1 : ℚ) / 2 < d := by linarith
  have hJ : 1 - d = ((2 ^ 53 - K : Int) : ℚ) * (2 : ℚ) ^ (-53 : Int) := by
    rw [hK]; push_cast; norm_num; ring
  have hg0 : 0 ≤ binary64 (1 - d) := binary64_nonneg _ (by linarith)
  have hg1 : binary64 (1 - d) ≤ 1 - d := by
    have := binary64_le_grid_nonneg (1 - d) (2 ^ 53 - K) (-53) (by linarith) (le_of_eq hJ)
      (by norm_num; linarith)
    rw [← hJ] at this
    exact this
  have hc0 : 0 ≤ binary64 (1 / 10) := binary64_nonneg _ (by norm_num)
  have hc1 : binary64 (1 / 10) ≤ 1 / 8 := by
    have := binary64_le_grid (1 / 10) 1 (-3) (by norm_num) (by norm_num) (by norm_num)
    norm_num at this ⊢
    exact this
  have hp0 : (0 : ℚ) ≤ ((p : Int) : ℚ) := by exact_mod_cast Nat.zero_le p
  have hp4 : ((p : Int) : ℚ) ≤ 4 := by exact_mod_cast hp
  have hcp0 : 0 ≤ binary64 (1 / 10) * ((p : Int) : ℚ) := mul_nonneg hc0 hp0
  have hcp1 : binary64 (1 / 10) * ((p : Int) : ℚ) ≤ 1 / 2 := by
    calc binary64 (1 / 10) * ((p : Int) : ℚ) ≤ 1 / 8 * 4 :=
          mul_le_mul hc1 hp4 hp0 (by norm_num)
      _ = 1 / 2 := by norm_num
  have hC0 : 0 ≤ binary64 (binary64 (1 / 10) * ((p : Int) : ℚ)) := binary64_nonneg _ hcp0
  have hC1 : binary64 (binary64 (1 / 10) * ((p : Int) : ℚ)) ≤ 1 / 2 := by
    have := binary64_le_grid_nonneg _ 1 (-1) hcp0
      (by rw [show ((1 : Int) : ℚ) * (2 : ℚ) ^ (-1 : Int) = 1 / 2 by norm_num]; exact hcp1)
      (by rw [show (2 : ℚ) ^ ((-1 : Int) + 53) = 4503599627370496 by norm_num]; linarith)
    rw [show ((1 : Int) : ℚ) * (2 : ℚ) ^ (-1 : Int) = 1 / 2 by norm_num] at this
    exact this
  generalize binary64 (binary64 (1 / 10) * ((p : Int) : ℚ)) = c at hC0 hC1 ⊢
  generalize binary64 (1 - d) = g at hg0 hg1 ⊢
  have hcg0 : 0 ≤ c * g := mul_nonneg hC0 hg0
  have hcg1 : c * g ≤ 1 - d := by
    calc c * g ≤ 1 / 2 * (1 - d) := mul_le_mul hC1 hg1 hg0 (by norm_num)
      _ ≤ 1 - d := by linarith
  have hy0 : 0 ≤ binary64 (c * g) := binary64_nonneg _ hcg0
  have hy1 : binary64 (c * g) ≤ 1 - d := by
    have := binary64_le_grid_nonneg (c * g) (2 ^ 53 - K) (-53) hcg0 (by rw [← hJ]; exact hcg1)
      (by norm_num; linarith)
    rw [← hJ] at this
    exact this
  generalize binary64 (c * g) = y at hy0 hy1 ⊢
  constructor
  · rcases (show d + y ≤ 1 by linarith).eq_or_lt with h1 | hlt
    · rw [h1, binary64_one]; exact hd1
    · have := grid_le_binary64 (d + y) K (-53) (by linarith) (by rw [← hK]; linarith)
        (by norm_num; linarith)
      rw [← hK] at this
      exact this
  · have := binary64_le_grid (d + y) (2 ^ 52) (-52) (by linarith) (by norm_num; linarith)
      (by norm_num; linarith)
    norm_num at this ⊢
    exact this

/-! ## Rounding at a tie -/

theorem roundHalfEven_tie_even (x : ℚ) (f : Int) (h : x = f + 1 / 2) (hf : f % 2 = 0) :
    roundHalfEven x = f := by
  have hfl : ⌊x⌋ = f := Int.floor_eq_iff.2 ⟨by rw [h]; linarith, by rw [h]; linarith⟩
  unfold roundHalfEven
  rw [hfl, if_neg (by rw [h]; norm_num), if_neg (by rw [h]; norm_num), if_pos hf]

theorem roundHalfEven_tie_odd (x : ℚ) (f : Int) (h : x = f + 1 / 2) (hf : f % 2 = 1) :
    roundHalfEven x = f + 1 := by
  have hfl : ⌊x⌋ = f := Int.floor_eq_iff.2 ⟨by rw [h]; linarith, by rw [h]; linarith⟩
  unfold roundHalfEven
  rw [hfl, if_neg (by rw [h]; norm_num), if_neg (by rw [h]; norm_num), if_neg (by omega)]

theorem binary64_log (x : ℚ) (e : Int) (hlo : (2 : ℚ) ^ e ≤ x) (hhi : x < (2 : ℚ) ^ (e + 1)) :
    0 < x ∧ Int.log 2 x = e := by
  have hx : 0 < x := lt_of_lt_of_le (zpow_pos (by norm_num) e) hlo
  have h1 : e ≤ Int.log 2 x :=
    (Int.zpow_le_iff_le_log (by norm_num) hx).1 (by exact_mod_cast hlo)
  have h2 : Int.log 2 x < e + 1 :=
    (Int.lt_zpow_iff_log_lt (by norm_num) hx).1 (by exact_mod_cast hhi)
  exact ⟨hx, by omega⟩

/-- Rounding a value half-way between two neighbours, the lower one even. -/
theorem binary64_tie_even (x : ℚ) (e f : Int) (hlo : (2 : ℚ) ^ e ≤ x)
    (hhi : x < (2 : ℚ) ^ (e + 1)) (hX : x / (2 : ℚ) ^ (e - 52) = f + 1 / 2)
    (hf : f % 2 = 0) : binary64 x = f * (2 : ℚ) ^ (e - 52) := by
  obtain ⟨hx, hlog⟩ := binary64_log x e hlo hhi
  rw [binary64_of_pos x hx, hlog, roundHalfEven_tie_even _ f hX hf]

/-- Rounding a value half-way between two neighbours, the lower one odd. -/
theorem binary64_tie_odd (x : ℚ) (e f : Int) (hlo : (2 : ℚ) ^ e ≤ x)
    (hhi : x < (2 : ℚ) ^ (e + 1)) (hX : x / (2 : ℚ) ^ (e - 52) = f + 1 / 2)
    (hf : f % 2 = 1) : binary64 x = (f + 1) * (2 : ℚ) ^ (e - 52) := by
  obtain ⟨hx, hlog⟩ := binary64_log x e hlo hhi
  rw [binary64_of_pos x hx, hlog, roundHalfEven_tie_odd _ f hX hf]
  push_cast
  ring

/-! ## A sequence against itself, in binary64 -/

theorem sub_half_le_roundHalfEven (x : ℚ) : x - 1 / 2 ≤ (roundHalfEven x : ℚ) := by
  have hfx : x < (⌊x⌋ : ℚ) + 1 := Int.lt_floor_add_one x
  have hfl : (⌊x⌋ : ℚ) ≤ x := Int.floor_le x
  unfold roundHalfEven
  split_ifs with h1 h2 h3
  · linarith
  · push_cast; linarith
  · linarith [not_lt.1 h2]
  · push_cast; linarith

/-- Rounding to binary64 loses at most the fraction `2⁻⁵³` of a positive value. -/
theorem binary64_ge_rel (x : ℚ) (hx : 0 < x) : x * (1 - 1 / 2 ^ 53) ≤ binary64 x := by
  have hge := scaled_ge x hx
  have hR := sub_half_le_roundHalfEven (x / 2 ^ (Int.log 2 x - 52))
  have hu : (0 : ℚ) < 2 ^ (Int.log 2 x - 52) := zpow_pos (by norm_num) _
  rw [binary64_of_pos x hx]
  generalize roundHalfEven (x / 2 ^ (Int.log 2 x - 52)) = R at hR ⊢
  generalize (2 : ℚ) ^ (Int.log 2 x - 52) = u at hge hR hu ⊢
  rw [le_div_iff₀ hu] at hge
  have h1 : x - u / 2 ≤ (R : ℚ) * u := by
    have := mul_le_mul_of_nonneg_right hR hu.le
    rw [sub_mul, div_mul_cancel₀ _ hu.ne'] at this
    linarith
  norm_num at hge ⊢
  linarith

/-- The quotient `(1.0/3.0 * n) / n` is the double `1.0/3.0` or the double just
below it, for every `n` that fits in an `int`. -/
theorem binary64_third_quot_self (n : Int) (h1 : 1 ≤ n) (h2 : n < 2 ^ 31) :
    binary64 (binary64 (6004799503160661 / 2 ^ 54 * (n : ℚ)) / (n : ℚ))
        = 6004799503160661 / 2 ^ 54 ∨
      binary64 (binary64 (6004799503160661 / 2 ^ 54 * (n : ℚ)) / (n : ℚ))
        = 6004799503160660 / 2 ^ 54 := by
  have hnq : (1 : ℚ) ≤ n := by exact_mod_cast h1
  have hn0 : (0 : ℚ) < n := by linarith
  have hx : (0 : ℚ) < 6004799503160661 / 2 ^ 54 * (n : ℚ) := by positivity
  have hy := binary64_third_mul_lt n h1 h2
  have hy2 := binary64_ge_rel _ hx
  generalize binary64 (6004799503160661 / 2 ^ 54 * (n : ℚ)) = y at hy hy2
  have hqlt : y / n < 6004799503160661 / 2 ^ 54 + 1 / 2 ^ 55 := by
    rw [div_lt_iff₀ hn0]
    linarith
  have hqge : 6004799503160661 / 2 ^ 54 * (1 - 1 / 2 ^ 53) ≤ y / n := by
    rw [le_div_iff₀ hn0]
    linarith
  rcases lt_trichotomy (y / n) (6004799503160661 / 2 ^ 54 - 1 / 2 ^ 55) with hlt | heq | hgt
  · right
    rw [binary64_eq (y / n) (-2) 6004799503160660 (by norm_num at hqge ⊢; linarith)
      (by norm_num; linarith)
      (by rw [abs_lt]; constructor <;> norm_num at hqge hlt ⊢ <;> linarith)]
    norm_num
  · right
    rw [binary64_tie_even (y / n) (-2) 6004799503160660 (by norm_num at hqge ⊢; linarith)
      (by norm_num; linarith) (by rw [heq]; norm_num) (by decide)]
    norm_num
  · left
    rw [binary64_eq (y / n) (-2) 6004799503160661 (by norm_num at hgt ⊢; linarith)
      (by norm_num; linarith)
      (by rw [abs_lt]; constructor <;> norm_num at hgt hqlt ⊢ <;> linarith)]
    norm_num

/-- For a sequence of `n` symbols scanned against itself the value computed in
binary64 arithmetic is `1.0` or `1 - 2⁻⁵²`, the second double below `1.0`. -/
theorem jaroValue_binary64_self (n : Int) (h1 : 1 ≤ n) (h2 : n < 2 ^ 31) :
    jaroValue binary64 n n n 0 = 1 ∨ jaroValue binary64 n n n 0 = 1 - 1 / 2 ^ 52 := by
  have ht : (n - (0 : Int).tdiv 2) = n := by simp
  unfold jaroValue JARO_WEIGHT_STRING_A JARO_WEIGHT_STRING_B JARO_WEIGHT_TRANSPOSITIONS
  rw [ht, binary64_third]
  rcases binary64_third_quot_self n h1 h2 with h | h
  · left
    rw [h]
    have h3 : binary64 (6004799503160661 / 2 ^ 54 + 6004799503160661 / 2 ^ 54)
        = 6004799503160661 / 2 ^ 53 := by
      rw [binary64_eq _ (-1) 6004799503160661 (by norm_num) (by norm_num)
        (by norm_num [abs_lt])]
      norm_num
    have h4 : binary64 (6004799503160661 / 2 ^ 53 + 6004799503160661 / 2 ^ 54) = 1 := by
      rw [binary64_tie_odd _ (-1) 9007199254740991 (by norm_num) (by norm_num) (by norm_num)
        (by decide)]
      norm_num
    rw [h3, h4]
  · right
    rw [h]
    have h3 : binary64 (6004799503160660 / 2 ^ 54 + 6004799503160660 / 2 ^ 54)
        = 6004799503160660 / 2 ^ 53 := by
      rw [binary64_eq _ (-1) 6004799503160660 (by norm_num) (by norm_num)
        (by norm_num [abs_lt])]
      norm_num
    have h4 : binary64 (6004799503160660 / 2 ^ 53 + 6004799503160660 / 2 ^ 54)
        = 1 - 1 / 2 ^ 52 := by
      rw [binary64_eq _ (-1) 9007199254740990 (by norm_num) (by norm_num)
        (by norm_num [abs_lt])]
      norm_num
    rw [h3, h4]

/-! ## Machine integers -/

theorem wrapInt_eq (z : Int) (h0 : -2147483648 ≤ z) (h1 : z < 2147483648) : wrapInt z = z := by
  unfold wrapInt
  omega

theorem wrapInt_neg (z : Int) (h0 : 2147483648 ≤ z) (h1 : z < 4294967296) : wrapInt z < 0 := by
  unfold wrapInt
  omega

theorem castInt_eq (n : Nat) (h : n < 2147483648) : castInt n = (n : Int) := by
  unfold castInt
  exact wrapInt_eq _ (by omega) (by omega)

theorem castInt_zero : castInt 0 = 0 := by
  unfold castInt wrapInt
  omega

theorem castInt_eq_zero (n : Nat) (h : n < 2147483648) : castInt n = 0 ↔ n = 0 := by
  rw [castInt_eq n h]
  omega

theorem castInt_lt (n : Nat) : castInt n < 2147483648 := by
  unfold castInt wrapInt
  omega

theorem castInt_toNat_le (n : Nat) : (castInt n).toNat ≤ n := by
  unfold castInt wrapInt
  omega

theorem castInt_toNat (n : Nat) (h : 0 ≤ castInt n) : castInt (castInt n).toNat = castInt n := by
  unfold castInt wrapInt at *
  omega

/-! ## Container lemmas -/

theorem checkedAt_natCast {β : Type} (xs : List β) (n : Nat) :
    checkedAt xs (n : Int) = xs[n]? := by
  simp [checkedAt]

theorem writeAt_natCast {β : Type} (xs : List β) (n : Nat) (v : β) (h : n < xs.length) :
    writeAt xs (n : Int) v = some (xs.set n v) := by
  simp [writeAt, h]

theorem count_set_true (l : List Bool) (k : Nat) (h : l[k]? = some false) :
    (l.set k true).count true = l.count true + 1 := by
  induction l generalizing k with
  | nil => simp at h
  | cons c l ih =>
    cases k with
    | zero =>
      simp at h
      subst h
      simp
    | succ k =>
      simp at h
      simp [List.count_cons, ih k h]
      omega

/-! ## The inner loop -/

theorem windowLoop_spec (a b : List α) (i : Nat) (x : α) (hx : a[i]? = some x) :
    ∀ (n j : Nat) (s : MatchState), j + n ≤ b.length → s.bMatch.length = b.length →
      s.aMatch.length = a.length →
      (∃ k, j ≤ k ∧ k < j + n ∧ FreeAt b s.bMatch x k ∧
          (∀ k0, j ≤ k0 → k0 < k → ¬ FreeAt b s.bMatch x k0) ∧
          windowLoop a b (i : Int) n (j : Int) s =
            some ⟨s.aMatch.set i true, s.bMatch.set k true, s.matchingCharacters + 1⟩) ∨
      ((∀ k0, j ≤ k0 → k0 < j + n → ¬ FreeAt b s.bMatch x k0) ∧
          windowLoop a b (i : Int) n (j : Int) s = some s) := by
  intro n
  induction n with
  | zero =>
    intro j s _ _ _
    right
    exact ⟨fun k0 h1 h2 => by omega, rfl⟩
  | succ n ih =>
    intro j s hj hb ha
    have hi : i < a.length := by
      rcases Nat.lt_or_ge i a.length with h | h
      · exact h
      · rw [List.getElem?_eq_none h] at hx; cases hx
    have hjb : j < s.bMatch.length := by omega
    have hjl : j < b.length := by omega
    have hcast : ((j : Int) + 1) = ((j + 1 : Nat) : Int) := by push_cast; rfl
    have hrec := ih (j + 1) s (by omega) hb ha
    have hshift : ∀ (hnf : ¬ FreeAt b s.bMatch x j),
        (∃ k, j ≤ k ∧ k < j + (n + 1) ∧ FreeAt b s.bMatch x k ∧
          (∀ k0, j ≤ k0 → k0 < k → ¬ FreeAt b s.bMatch x k0) ∧
          windowLoop a b (i : Int) n ((j + 1 : Nat) : Int) s =
            some ⟨s.aMatch.set i true, s.bMatch.set k true, s.matchingCharacters + 1⟩) ∨
        ((∀ k0, j ≤ k0 → k0 < j + (n + 1) → ¬ FreeAt b s.bMatch x k0) ∧
          windowLoop a b (i : Int) n ((j + 1 : Nat) : Int) s = some s) := by
      intro hnf
      rcases hrec with ⟨k, h1, h2, h3, h4, h5⟩ | ⟨h1, h2⟩
      · left
        refine ⟨k, by omega, by omega, h3, ?_, h5⟩
        intro k0 hk0 hk0k
        rcases Nat.eq_or_lt_of_le hk0 with he | hl
        · subst he; exact hnf
        · exact h4 k0 hl hk0k
      · right
        refine ⟨?_, h2⟩
        intro k0 hk0 hk0k
        rcases Nat.eq_or_lt_of_le hk0 with he | hl
        · subst he; exact hnf
        · exact h1 k0 hl (by omega)
    rw [windowLoop, checkedAt_natCast, checkedAt_natCast, checkedAt_natCast, hx, hcast]
    rw [List.getElem?_eq_getElem hjb, List.getElem?_eq_getElem hjl]
    simp only [Option.bind_eq_bind, Option.some_bind]
    by_cases htaken : s.bMatch[j] = true
    · simp only [htaken, if_true]
      apply hshift
      rintro ⟨h1, _⟩
      rw [List.getElem?_eq_getElem hjb, htaken] at h1
      cases h1
    · simp only [htaken]
      by_cases hxy : x = b[j]
      · left
        refine ⟨j, le_refl _, by omega, ⟨?_, ?_⟩, fun k0 h1 h2 => by omega, ?_⟩
        · rw [List.getElem?_eq_getElem hjb]; simpa using htaken
        · rw [List.getElem?_eq_getElem hjl, hxy]
        · rw [writeAt_natCast _ _ _ (by omega), writeAt_natCast _ _ _ hjb]
          simp [hxy]
      · simp only [hxy, if_false]
        apply hshift
        rintro ⟨_, h2⟩
        rw [List.getElem?_eq_getElem hjl] at h2
        exact hxy (Option.some.inj h2).symm

/-! ## The matching built by the scan -/

theorem getElem?_bool_cases (l : List Bool) (k : Nat) (h : k < l.length) :
    l[k]? = some true ∨ l[k]? = some false := by
  rw [List.getElem?_eq_getElem h]
  cases l[k] <;> simp

theorem lt_length_of_getElem? {β : Type} {l : List β} {k : Nat} {x : β}
    (h : l[k]? = some x) : k < l.length := by
  rcases Nat.lt_or_ge k l.length with h1 | h1
  · exact h1
  · rw [List.getElem?_eq_none h1] at h; cases h

theorem ScanInv.advance {a b : List α} {R i n : Nat} {s : MatchState}
    {P : Nat → Nat → Prop} (h : ScanInv a b R i s P) (hin : i ≤ n)
    (hfull : ∀ i0 j x, i ≤ i0 → i0 < n → a[i0]? = some x → b[j]? = some x →
      i0 ≤ j + R → j ≤ i0 + R → ¬ s.bMatch[j]? = some false) :
    ScanInv a b R n s P := by
  refine ⟨⟨?_, h.greedy.same, h.greedy.near, h.greedy.functional, h.greedy.injective, ?_⟩,
    h.aLen, h.bLen, h.aMask, h.bMask, h.aCount, h.bCount⟩
  · intro i0 j hP
    exact lt_of_lt_of_le (h.greedy.row_lt i0 j hP) hin
  · intro i0 j x hi0 ha hb h1 h2 hbefore
    rcases Nat.lt_or_ge i0 i with hlt | hge
    · exact h.greedy.first i0 j x hlt ha hb h1 h2 hbefore
    · have hj : j < s.bMatch.length := by rw [h.bLen]; exact lt_length_of_getElem? hb
      rcases getElem?_bool_cases s.bMatch j hj with ht | hf
      · obtain ⟨i1, hi1⟩ := (h.bMask j).1 ht
        exact ⟨i1, lt_of_lt_of_le (h.greedy.row_lt i1 j hi1) hge, hi1⟩
      · exact absurd hf (hfull i0 j x hge hi0 ha hb h1 h2)

theorem ScanInv.add {a b : List α} {R i k : Nat} {s : MatchState}
    {P : Nat → Nat → Prop} {x : α} (h : ScanInv a b R i s P)
    (hx : a[i]? = some x) (hfree : FreeAt b s.bMatch x k)
    (h1 : i ≤ k + R) (h2 : k ≤ i + R)
    (hfirst : ∀ k0, i ≤ k0 + R → k0 < k → ¬ FreeAt b s.bMatch x k0) :
    ScanInv a b R (i + 1)
      ⟨s.aMatch.set i true, s.bMatch.set k true, s.matchingCharacters + 1⟩
      (fun i0 j => P i0 j ∨ (i0 = i ∧ j = k)) := by
  have hrow : ∀ j, ¬ P i j := fun j hP => lt_irrefl _ (h.greedy.row_lt i j hP)
  have hcol : ∀ i0, ¬ P i0 k := by
    intro i0 hP
    have := (h.bMask k).2 ⟨i0, hP⟩
    rw [hfree.1] at this
    cases this
  have hi : i < s.aMatch.length := by rw [h.aLen]; exact lt_length_of_getElem? hx
  have hk : k < s.bMatch.length := lt_length_of_getElem? hfree.1
  have hai : s.aMatch[i]? = some false := by
    rcases getElem?_bool_cases s.aMatch i hi with ht | hf
    · obtain ⟨j, hj⟩ := (h.aMask i).1 ht
      exact absurd hj (hrow j)
    · exact hf
  refine ⟨⟨?_, ?_, ?_, ?_, ?_, ?_⟩, ?_, ?_, ?_, ?_, ?_, ?_⟩
  · rintro i0 j (hP | ⟨rfl, rfl⟩)
    · exact Nat.lt_succ_of_lt (h.greedy.row_lt i0 j hP)
    · exact Nat.lt_succ_self _
  · rintro i0 j (hP | ⟨rfl, rfl⟩)
    · exact h.greedy.same i0 j hP
    · exact ⟨x, hx, hfree.2⟩
  · rintro i0 j (hP | ⟨rfl, rfl⟩)
    · exact h.greedy.near i0 j hP
    · exact ⟨h1, h2⟩
  · rintro i0 j j0 (hP | ⟨rfl, rfl⟩) (hP0 | ⟨h3, rfl⟩)
    · exact h.greedy.functional i0 j j0 hP hP0
    · subst h3; exact absurd hP (hrow j)
    · exact absurd hP0 (hrow j0)
    · rfl
  · rintro i0 i1 j (hP | ⟨rfl, rfl⟩) (hP0 | ⟨rfl, h3⟩)
    · exact h.greedy.injective i0 i1 j hP hP0
    · subst h3; exact absurd hP (hcol i0)
    · exact absurd hP0 (hcol i1)
    · rfl
  · intro i0 j y hi0 ha hb h3 h4 hbefore
    rcases Nat.lt_or_ge i0 i with hlt | hge
    · obtain ⟨i1, hi1, hP1⟩ := h.greedy.first i0 j y hlt ha hb h3 h4
        (fun j0 hP0 => hbefore j0 (Or.inl hP0))
      exact ⟨i1, hi1, Or.inl hP1⟩
    · have hii : i0 = i := by omega
      subst hii
      have hyx : y = x := by rw [hx] at ha; exact (Option.some.inj ha).symm
      subst hyx
      have hjk : j < k := hbefore k (Or.inr ⟨rfl, rfl⟩)
      have hj : j < s.bMatch.length := by rw [h.bLen]; exact lt_length_of_getElem? hb
      rcases getElem?_bool_cases s.bMatch j hj with ht | hf
      · obtain ⟨i1, hi1⟩ := (h.bMask j).1 ht
        exact ⟨i1, h.greedy.row_lt i1 j hi1, Or.inl hi1⟩
      · exact absurd ⟨hf, hb⟩ (hfirst j h3 hjk)
  · simpa using h.aLen
  · simpa using h.bLen
  · intro i0
    simp only [List.getElem?_set]
    by_cases he : i = i0
    · subst he
      simp [hi]
    · simp only [he, if_false]
      rw [h.aMask i0]
      constructor
      · rintro ⟨j, hj⟩; exact ⟨j, Or.inl hj⟩
      · rintro ⟨j, hj | ⟨h3, _⟩⟩
        · exact ⟨j, hj⟩
        · exact absurd h3.symm he
  · intro j
    simp only [List.getElem?_set]
    by_cases he : k = j
    · subst he
      simp [hk]
    · simp only [he, if_false]
      rw [h.bMask j]
      constructor
      · rintro ⟨i0, hj⟩; exact ⟨i0, Or.inl hj⟩
      · rintro ⟨i0, hj | ⟨_, h3⟩⟩
        · exact ⟨i0, hj⟩
        · exact absurd h3.symm he
  · show s.matchingCharacters + 1 = ((s.aMatch.set i true).count true : Int)
    rw [count_set_true _ _ hai, h.aCount]; push_cast; rfl
  · show s.matchingCharacters + 1 = ((s.bMatch.set k true).count true : Int)
    rw [count_set_true _ _ hfree.1, h.bCount]; push_cast; rfl

/-- The outer loop, row by row.  Started at row `i` with `n` rows to go, it
stops at a row `k`: every row before `k` had its true window, and if `k` is not
the last row the loop left because `b` is empty, because the window has moved
past the end of `b`, or because the sum of line 49 wrapped. -/
theorem matchLoop_raw (a b : List α) (R : Nat) (hR : R < 1073741824)
    (hla : a.length < 2147483648) :
    ∀ (n i : Nat) (s : MatchState) (P : Nat → Nat → Prop), i + n ≤ a.length →
      ScanInv a b R i s P →
      ∃ s0 P0 k, matchLoop a b (R : Int) (b.length : Int) n (i : Int) s = some s0 ∧
        ScanInv a b R k s0 P0 ∧ i ≤ k ∧ k ≤ i + n ∧
        (∀ r, i ≤ r → r < k → r < b.length + R ∧ r + R + 1 < 2147483648) ∧
        (k < i + n → b.length = 0 ∨ b.length + R ≤ k ∨ 2147483648 ≤ k + R + 1) := by
  intro n
  induction n with
  | zero =>
    intro i s P _ h
    exact ⟨s, P, i, rfl, h, le_refl _, le_refl _, fun r h1 h2 => by omega, fun h => by omega⟩
  | succ n ih =>
    intro i s P hi h
    have hia : i < a.length := by omega
    have hmin : max ((i : Int) - (R : Int)) 0 = ((i - R : Nat) : Int) := by omega
    rw [matchLoop]
    by_cases hov : i + R + 1 < 2147483648
    · have hw : wrapInt ((i : Int) + (R : Int) + 1) = (i : Int) + (R : Int) + 1 :=
        wrapInt_eq _ (by omega) (by omega)
      have hmax : min ((i : Int) + (R : Int) + 1) (b.length : Int)
          = ((min (i + R + 1) b.length : Nat) : Int) := by omega
      simp only [hmin, hw, hmax]
      by_cases hbr : ((i - R : Nat) : Int) ≥ ((min (i + R + 1) b.length : Nat) : Int)
      · simp only [hbr, if_true]
        exact ⟨s, P, i, rfl, h, le_refl _, by omega, fun r h1 h2 => by omega,
          fun _ => by omega⟩
      · simp only [hbr, if_false]
        have hcnt : (((min (i + R + 1) b.length : Nat) : Int) - ((i - R : Nat) : Int)).toNat
            = min (i + R + 1) b.length - (i - R) := by omega
        have hcast : ((i : Int) + 1) = ((i + 1 : Nat) : Int) := by push_cast; rfl
        rw [hcnt, hcast]
        have hx : a[i]? = some a[i] := List.getElem?_eq_getElem hia
        have hrow : ∀ r, i ≤ r → r < i + 1 → r < b.length + R ∧ r + R + 1 < 2147483648 := by
          intro r h1 h2
          have : r = i := by omega
          subst this
          omega
        rcases windowLoop_spec a b i a[i] hx (min (i + R + 1) b.length - (i - R)) (i - R) s
          (by omega) h.bLen h.aLen with ⟨k, h1, h2, h3, h4, h5⟩ | ⟨h1, h2⟩
        · rw [h5]
          simp only [Option.bind_eq_bind, Option.some_bind]
          obtain ⟨s0, P0, k0, e1, e2, e3, e4, e5, e6⟩ := ih (i + 1) _ _ (by omega)
            (h.add hx h3 (by omega) (by omega) (fun k0 hk0 hk0k => h4 k0 (by omega) hk0k))
          refine ⟨s0, P0, k0, e1, e2, by omega, by omega, ?_, fun hk => e6 (by omega)⟩
          intro r hr1 hr2
          rcases Nat.lt_or_ge r (i + 1) with hlt | hge
          · exact hrow r hr1 hlt
          · exact e5 r hge hr2
        · rw [h2]
          simp only [Option.bind_eq_bind, Option.some_bind]
          obtain ⟨s0, P0, k0, e1, e2, e3, e4, e5, e6⟩ := ih (i + 1) _ _ (by omega)
            (h.advance (by omega) (by
              intro i0 j x h3 h4 ha hb h5 h6 hf
              have hii : i0 = i := by omega
              subst hii
              have hxx : x = a[i0] := by rw [hx] at ha; exact (Option.some.inj ha).symm
              subst hxx
              have := lt_length_of_getElem? hb
              exact h1 j (by omega) (by omega) ⟨hf, hb⟩))
          refine ⟨s0, P0, k0, e1, e2, by omega, by omega, ?_, fun hk => e6 (by omega)⟩
          intro r hr1 hr2
          rcases Nat.lt_or_ge r (i + 1) with hlt | hge
          · exact hrow r hr1 hlt
          · exact e5 r hge hr2
    · have hw : wrapInt ((i : Int) + (R : Int) + 1) < 0 := wrapInt_neg _ (by omega) (by omega)
      have hbr : max ((i : Int) - (R : Int)) 0
          ≥ min (wrapInt ((i : Int) + (R : Int) + 1)) (b.length : Int) := by omega
      simp only [hbr, if_true]
      exact ⟨s, P, i, rfl, h, le_refl _, by omega, fun r h1 h2 => by omega, fun _ => by omega⟩

/-- When no sum of line 49 leaves the `int` range the outer loop handles every
row of `a`. -/
theorem matchLoop_spec (a b : List α) (R : Nat) (hR : R < 1073741824)
    (hla : a.length < 2147483648)
    (hov : min a.length (b.length + R + 1) + R < 2147483648) :
    ∀ (n : Nat) (s : MatchState) (P : Nat → Nat → Prop), n = a.length →
      ScanInv a b R 0 s P →
      ∃ s0 P0, matchLoop a b (R : Int) (b.length : Int) n ((0 : Nat) : Int) s = some s0 ∧
        ScanInv a b R a.length s0 P0 := by
  intro n s P hn h
  obtain ⟨s0, P0, k, e1, e2, _, e4, e5, e6⟩ := matchLoop_raw a b R hR hla n 0 s P (by omega) h
  refine ⟨s0, P0, e1, e2.advance (by omega) ?_⟩
  intro i0 j x h1 h2 _ hb h3 _ _
  have hj := lt_length_of_getElem? hb
  have hk : k < 0 + n := by omega
  have hkb : k ≤ b.length + R := by
    rcases Nat.eq_zero_or_pos k with h0 | hpos
    · omega
    · have := (e5 (k - 1) (by omega) (by omega)).1
      omega
  rcases e6 hk with h6 | h6 | h6
  · omega
  · omega
  · have : k + R + 1 ≤ min a.length (b.length + R + 1) + R := by
      have : k + 1 ≤ min a.length (b.length + R + 1) := by
        rw [Nat.le_min]; omega
      omega
    omega

theorem Greedy.le_of_agree {a b : List α} {R n : Nat} {P Q : Nat → Nat → Prop}
    (hP : Greedy a b R n P) (hQ : Greedy a b R n Q) (i : Nat)
    (ih : ∀ i0, i0 < i → ∀ j, P i0 j ↔ Q i0 j) : ∀ j, P i j → Q i j := by
  intro j hPij
  obtain ⟨x, hax, hbx⟩ := hP.same i j hPij
  obtain ⟨hn1, hn2⟩ := hP.near i j hPij
  have hin := hP.row_lt i j hPij
  by_contra hQij
  have hex : ∃ j0, Q i j0 ∧ j0 ≤ j := by
    by_contra hno
    obtain ⟨i0, hi0, hQ0⟩ := hQ.first i j x hin hax hbx hn1 hn2 (fun j0 hQ0 => by
      by_contra hlt
      exact hno ⟨j0, hQ0, by omega⟩)
    have := hP.injective i0 i j ((ih i0 hi0 j).2 hQ0) hPij
    omega
  obtain ⟨j0, hQ0, hle⟩ := hex
  have hlt : j0 < j := by
    rcases Nat.eq_or_lt_of_le hle with he | hl
    · subst he; exact absurd hQ0 hQij
    · exact hl
  obtain ⟨y, hay, hby⟩ := hQ.same i j0 hQ0
  obtain ⟨hm1, hm2⟩ := hQ.near i j0 hQ0
  obtain ⟨i0, hi0, hP0⟩ := hP.first i j0 y hin hay hby hm1 hm2 (fun j1 hP1 => by
    have := hP.functional i j j1 hPij hP1
    omega)
  have := hQ.injective i0 i j0 ((ih i0 hi0 j0).1 hP0) hQ0
  omega

/-- The scan's matching is determined by the two sequences and the window. -/
theorem Greedy.unique {a b : List α} {R n : Nat} {P Q : Nat → Nat → Prop}
    (hP : Greedy a b R n P) (hQ : Greedy a b R n Q) : ∀ i j, P i j ↔ Q i j := by
  intro i
  induction i using Nat.strong_induction_on with
  | _ i ih =>
    intro j
    exact ⟨hP.le_of_agree hQ i ih j,
      hQ.le_of_agree hP i (fun i0 h0 j0 => (ih i0 h0 j0).symm) j⟩

/-- Read from the side of `b`, the scan's matching is again the scan's matching. -/
theorem Greedy.transpose {a b : List α} {R : Nat} {P : Nat → Nat → Prop}
    (hP : Greedy a b R a.length P) : Greedy b a R b.length (fun j i => P i j) := by
  refine ⟨?_, ?_, ?_, ?_, ?_, ?_⟩
  · intro j i h
    obtain ⟨x, _, hb⟩ := hP.same i j h
    exact lt_length_of_getElem? hb
  · intro j i h
    obtain ⟨x, ha, hb⟩ := hP.same i j h
    exact ⟨x, hb, ha⟩
  · intro j i h
    exact (hP.near i j h).symm
  · intro j i i0 h h0
    exact hP.injective i i0 j h h0
  · intro j j0 i h h0
    exact hP.functional i j j0 h h0
  · intro j i x _ hb ha h1 h2 hbefore
    have hi : i < a.length := lt_length_of_getElem? ha
    by_contra hno
    obtain ⟨i0, hi0, hP0⟩ := hP.first i j x hi ha hb h2 h1 (fun j0 hP0 => by
      by_contra hlt
      rcases Nat.eq_or_lt_of_le (Nat.le_of_not_lt hlt) with he | hl
      · subst he
        have := hbefore i hP0
        omega
      · exact hno ⟨j0, hl, hP0⟩)
    have := hbefore i0 hP0
    omega

theorem maxRange_eq (a b : List α) (hla : a.length < 2147483648)
    (hlb : b.length < 2147483648) : maxRange a b = (windowRadius a b : Int) := by
  unfold maxRange windowRadius
  rw [castInt_eq _ hla, castInt_eq _ hlb, Int.tdiv_eq_ediv (by omega) (by omega)]
  omega

theorem windowRadius_lt (a b : List α) (hla : a.length < 2147483648)
    (hlb : b.length < 2147483648) : windowRadius a b < 1073741824 := by
  unfold windowRadius
  omega

theorem maxRange_nonneg (a b : List α) : 0 ≤ maxRange a b := by
  unfold maxRange
  exact le_max_left _ _

theorem maxRange_lt (a b : List α) : maxRange a b < 1073741824 := by
  have h1 := castInt_lt a.length
  have h2 := castInt_lt b.length
  unfold maxRange
  rcases Int.lt_or_le (max (castInt a.length) (castInt b.length)) 0 with h | h
  · have hneg : (max (castInt a.length) (castInt b.length)).tdiv 2
        = -((-(max (castInt a.length) (castInt b.length))).tdiv 2) := by
      rw [Int.neg_tdiv, neg_neg]
    rw [hneg, Int.tdiv_eq_ediv (by omega) (by omega)]
    omega
  · rw [Int.tdiv_eq_ediv h (by omega)]
    omega

theorem windowRadius_comm (a b : List α) : windowRadius a b = windowRadius b a := by
  unfold windowRadius
  rw [max_comm]

theorem ScanInv.init (a b : List α) (R : Nat) :
    ScanInv a b R 0 ⟨List.replicate a.length false, List.replicate b.length false, 0⟩
      (fun _ _ => False) := by
  refine ⟨⟨?_, ?_, ?_, ?_, ?_, ?_⟩, ?_, ?_, ?_, ?_, ?_, ?_⟩
  · intro i j h; exact h.elim
  · intro i j h; exact h.elim
  · intro i j h; exact h.elim
  · intro i j j0 h; exact h.elim
  · intro i i0 j h; exact h.elim
  · intro i j x h; omega
  · simp
  · simp
  · intro i; simp [List.getElem?_replicate]
  · intro j; simp [List.getElem?_replicate]
  · simp [List.count_replicate]
  · simp [List.count_replicate]

theorem matchScan_eq (a b : List α) (hla : a.length < 2147483648)
    (hlb : b.length < 2147483648) :
    matchScan a b = matchLoop a b (windowRadius a b : Int) (b.length : Int) a.length
      ((0 : Nat) : Int) ⟨List.replicate a.length false, List.replicate b.length false, 0⟩ := by
  have hneg : ¬ ((a.length : Int) < 0 ∨ (b.length : Int) < 0) := by omega
  unfold matchScan
  simp only [maxRange_eq a b hla hlb, castInt_eq _ hla, castInt_eq _ hlb, if_neg hneg,
    Int.toNat_ofNat]
  rfl

/-- For sizes that fit in an `int` the matching scan returns.  It stops at a
row `k`, after giving every earlier row its true window; it stops before the
last row only when the window has left `b` or the sum of line 49 has wrapped. -/
theorem matchScan_raw (a b : List α) (hla : a.length < 2147483648)
    (hlb : b.length < 2147483648) :
    ∃ s P k, matchScan a b = some s ∧ k ≤ a.length ∧
      ScanInv a b (windowRadius a b) k s P ∧
      (∀ r, r < k → r < b.length + windowRadius a b ∧
        r + windowRadius a b + 1 < 2147483648) ∧
      (k < a.length → b.length = 0 ∨ b.length + windowRadius a b ≤ k ∨
        2147483648 ≤ k + windowRadius a b + 1) := by
  rw [matchScan_eq a b hla hlb]
  obtain ⟨s, P, k, e1, e2, _, e4, e5, e6⟩ := matchLoop_raw a b (windowRadius a b)
    (windowRadius_lt a b hla hlb) hla a.length 0 _ _ (by omega) (ScanInv.init a b _)
  exact ⟨s, P, k, e1, by omega, e2, fun r hr => e5 r (by omega) hr, fun hk => e6 (by omega)⟩

/-- When no `int` of the scan leaves its range the matching scan returns, and
its result describes the scan's matching over all of `a`. -/
theorem matchScan_spec (a b : List α) (h : InRange a b) :
    ∃ s P, matchScan a b = some s ∧ ScanInv a b (windowRadius a b) a.length s P := by
  obtain ⟨hla, hlb, hov⟩ := h
  rw [matchScan_eq a b hla hlb]
  exact matchLoop_spec a b (windowRadius a b) (windowRadius_lt a b hla hlb) hla hov
    a.length _ _ rfl (ScanInv.init a b _)

theorem mask_ext (l1 l2 : List Bool) (hlen : l1.length = l2.length)
    (h : ∀ k : Nat, l1[k]? = some true ↔ l2[k]? = some true) : l1 = l2 := by
  apply List.ext_getElem? 
  intro k
  rcases Nat.lt_or_ge k l1.length with hk | hk
  · rcases getElem?_bool_cases l1 k hk with h1 | h1
    · rw [h1, (h k).1 h1]
    · rcases getElem?_bool_cases l2 k (by omega) with h2 | h2
      · rw [(h k).2 h2] at h1; cases h1
      · rw [h1, h2]
  · rw [List.getElem?_eq_none hk, List.getElem?_eq_none (by omega)]

/-- Scanning `b` against `a` gives the masks of scanning `a` against `b`, exchanged,
and the same number of matches. -/
theorem matchScan_swap (a b : List α) (hab : InRange a b) (hba : InRange b a)
    (s : MatchState) (h : matchScan a b = some s) :
    matchScan b a = some ⟨s.bMatch, s.aMatch, s.matchingCharacters⟩ := by
  obtain ⟨s1, P, h1, inv1⟩ := matchScan_spec a b hab
  obtain ⟨s2, Q, h2, inv2⟩ := matchScan_spec b a hba
  rw [h] at h1
  cases h1
  rw [h2]
  rw [windowRadius_comm b a] at inv2
  have hPQ := inv2.greedy.unique inv1.greedy.transpose
  have ha : s2.aMatch = s.bMatch := by
    apply mask_ext _ _ (by rw [inv2.aLen, inv1.bLen])
    intro k
    rw [inv2.aMask, inv1.bMask]
    exact exists_congr (fun i => hPQ k i)
  have hb : s2.bMatch = s.aMatch := by
    apply mask_ext _ _ (by rw [inv2.bLen, inv1.aLen])
    intro k
    rw [inv2.bMask, inv1.aMask]
    exact exists_congr (fun i => hPQ i k)
  have hm : s2.matchingCharacters = s.matchingCharacters := by
    rw [inv2.aCount, inv1.bCount, ha]
  cases s2
  simp only at ha hb hm
  rw [ha, hb, hm]

/-! ## Position extraction and the transposition count -/

theorem maskPositions_length (mask : List Bool) (start : Nat) :
    (maskPositions mask start).length = mask.count true := by
  induction mask generalizing start with
  | nil => rfl
  | cons c mask ih =>
    cases c
    · simp [maskPositions, ih]
    · simp [maskPositions, ih]

theorem maskPositions_bounds (mask : List Bool) (start : Nat) :
    ∀ p ∈ maskPositions mask start, (start : Int) ≤ p ∧ p < ((start + mask.length : Nat) : Int) := by
  induction mask generalizing start with
  | nil => intro p hp; simp [maskPositions] at hp
  | cons c mask ih =>
    intro p hp
    cases c
    · simp only [maskPositions] at hp
      have := ih (start + 1) p hp
      simp only [List.length_cons]
      omega
    · simp only [maskPositions, List.mem_cons] at hp
      rcases hp with rfl | hp
      · simp only [List.length_cons]; omega
      · have := ih (start + 1) p hp
        simp only [List.length_cons]
        omega

theorem positionLoop_spec (mask : List Bool) :
    ∀ (n index : Nat) (done : List Int), index + n = mask.length →
      positionLoop mask n (index : Int) (done.length : Int)
          (done ++ List.replicate ((mask.drop index).count true) 0)
        = some (done ++ maskPositions (mask.drop index) index) := by
  intro n
  induction n with
  | zero =>
    intro index done h
    have : mask.drop index = [] := List.drop_eq_nil_of_le (by omega)
    simp [positionLoop, this, maskPositions]
  | succ n ih =>
    intro index done h
    have hlt : index < mask.length := by omega
    have hcast : ((index : Int) + 1) = ((index + 1 : Nat) : Int) := by push_cast; rfl
    rw [positionLoop, checkedAt_natCast, List.getElem?_eq_getElem hlt,
      List.drop_eq_getElem_cons hlt, hcast]
    simp only [Option.bind_eq_bind, Option.some_bind]
    cases hm : mask[index]
    · simp only [Bool.false_eq_true, if_false, maskPositions]
      have := ih (index + 1) done (by omega)
      simpa using this
    · simp only [if_true, maskPositions, List.count_cons_self, List.replicate_succ]
      rw [writeAt_natCast _ _ _ (by simp)]
      simp only [Option.some_bind]
      have := ih (index + 1) (done ++ [(index : Int)]) (by omega)
      simp only [List.length_append, List.length_singleton, List.append_assoc,
        List.singleton_append] at this
      rw [List.set_append_right _ _ (le_refl _)]
      simp only [Nat.sub_self, List.set_cons_zero]
      rw [← this]
      push_cast
      rfl

/-- Position extraction returns the indices of the `true` entries of the mask. -/
theorem positionLoop_mask (mask : List Bool) (m : Int) (hm : m = mask.count true) :
    positionLoop mask mask.length 0 0 (List.replicate m.toNat 0)
      = some (maskPositions mask 0) := by
  have := positionLoop_spec mask mask.length 0 [] (by omega)
  subst hm
  simpa using this

theorem transpositionLoop_swap (a b : List α) (p q : List Int) :
    ∀ (n : Nat) (index t : Int),
      transpositionLoop a b p q n index t = transpositionLoop b a q p n index t := by
  intro n
  induction n with
  | zero => intro index t; rfl
  | succ n ih =>
    intro index t
    rw [transpositionLoop, transpositionLoop]
    simp only [Option.bind_eq_bind]
    cases hp : checkedAt p index with
    | none =>
      cases hq : checkedAt q index with
      | none => simp
      | some j => cases hy : checkedAt b j <;> simp
    | some i =>
      cases hq : checkedAt q index with
      | none => cases hx : checkedAt a i <;> simp
      | some j =>
        cases hx : checkedAt a i with
        | none => cases hy : checkedAt b j <;> simp [hx]
        | some x =>
          cases hy : checkedAt b j with
          | none => simp [hy]
          | some y =>
            simp only [Option.some_bind, hx, hy]
            rw [ih]
            by_cases hxy : x = y
            · subst hxy; rfl
            · have : ¬ y = x := fun h => hxy h.symm
              simp [hxy, this]

theorem transpositionLoop_spec (a b : List α) (p q : List Int)
    (hp : ∀ i ∈ p, 0 ≤ i ∧ i < (a.length : Int))
    (hq : ∀ j ∈ q, 0 ≤ j ∧ j < (b.length : Int)) :
    ∀ (n index : Nat) (t : Int), index + n ≤ p.length → index + n ≤ q.length →
      ∃ t0, transpositionLoop a b p q n (index : Int) t = some t0 ∧ t ≤ t0 ∧ t0 ≤ t + n := by
  intro n
  induction n with
  | zero =>
    intro index t _ _
    exact ⟨t, rfl, le_refl _, by simp⟩
  | succ n ih =>
    intro index t h1 h2
    have hip : index < p.length := by omega
    have hiq : index < q.length := by omega
    have hcast : ((index : Int) + 1) = ((index + 1 : Nat) : Int) := by push_cast; rfl
    obtain ⟨hi0, hi1⟩ := hp p[index] (List.getElem_mem _)
    obtain ⟨hj0, hj1⟩ := hq q[index] (List.getElem_mem _)
    have hx : checkedAt a p[index] = some a[p[index].toNat] := by
      unfold checkedAt
      rw [if_pos hi0, List.getElem?_eq_getElem (by omega)]
    have hy : checkedAt b q[index] = some b[q[index].toNat] := by
      unfold checkedAt
      rw [if_pos hj0, List.getElem?_eq_getElem (by omega)]
    rw [transpositionLoop, checkedAt_natCast, checkedAt_natCast,
      List.getElem?_eq_getElem hip, List.getElem?_eq_getElem hiq]
    simp only [Option.bind_eq_bind, Option.some_bind, hx, hy, hcast]
    obtain ⟨t0, h3, h4, h5⟩ := ih (index + 1)
      (if a[p[index].toNat] ≠ b[q[index].toNat] then t + 1 else t) (by omega) (by omega)
    refine ⟨t0, h3, ?_, ?_⟩
    · split_ifs at h4 <;> omega
    · push_cast
      split_ifs at h5 <;> omega

/-! ## The two scans inside `jaroDistance` -/

theorem transpositionScan_swap (a b : List α) (s : MatchState) :
    transpositionScan b a ⟨s.bMatch, s.aMatch, s.matchingCharacters⟩
      = (transpositionScan a b s).map
          (fun t => ⟨t.bPosition, t.aPosition, t.transpositions⟩) := by
  unfold transpositionScan
  simp only [Option.bind_eq_bind]
  cases hp : positionLoop s.aMatch (castInt a.length).toNat 0 0
      (List.replicate s.matchingCharacters.toNat 0) with
  | none =>
    cases hq : positionLoop s.bMatch (castInt b.length).toNat 0 0
      (List.replicate s.matchingCharacters.toNat 0) <;> simp
  | some p =>
    cases hq : positionLoop s.bMatch (castInt b.length).toNat 0 0
      (List.replicate s.matchingCharacters.toNat 0) with
    | none => simp
    | some q =>
      simp only [Option.some_bind]
      rw [transpositionLoop_swap b a q p]
      cases transpositionLoop a b p q s.matchingCharacters.toNat 0 0 <;> simp

/-- After the matching scan the transposition scan returns: the position lists
are the indices of the `true` entries of the masks, and the transposition count
lies between zero and the number of matches. -/
theorem transpositionScan_spec (a b : List α) (R : Nat) {k : Nat} (s : MatchState)
    (P : Nat → Nat → Prop) (inv : ScanInv a b R k s P) (hla : a.length < 2147483648)
    (hlb : b.length < 2147483648) :
    ∃ t : Int, transpositionScan a b s
        = some ⟨maskPositions s.aMatch 0, maskPositions s.bMatch 0, t⟩ ∧
      0 ≤ t ∧ t ≤ s.matchingCharacters := by
  have hp := positionLoop_mask s.aMatch s.matchingCharacters inv.aCount
  have hq := positionLoop_mask s.bMatch s.matchingCharacters inv.bCount
  rw [inv.aLen] at hp
  rw [inv.bLen] at hq
  have hm : 0 ≤ s.matchingCharacters := by rw [inv.aCount]; omega
  have hpb : ∀ i ∈ maskPositions s.aMatch 0, 0 ≤ i ∧ i < (a.length : Int) := by
    intro i hi
    have := maskPositions_bounds s.aMatch 0 i hi
    rw [inv.aLen] at this
    simpa using this
  have hqb : ∀ j ∈ maskPositions s.bMatch 0, 0 ≤ j ∧ j < (b.length : Int) := by
    intro j hj
    have := maskPositions_bounds s.bMatch 0 j hj
    rw [inv.bLen] at this
    simpa using this
  obtain ⟨t, ht, h0, h1⟩ := transpositionLoop_spec a b _ _ hpb hqb
    s.matchingCharacters.toNat 0 0
    (by rw [maskPositions_length, ← Int.toNat_ofNat (List.count true s.aMatch), ← inv.aCount]; omega)
    (by rw [maskPositions_length, ← Int.toNat_ofNat (List.count true s.bMatch), ← inv.bCount]; omega)
  refine ⟨t, ?_, h0, ?_⟩
  · unfold transpositionScan
    rw [castInt_eq _ hla, castInt_eq _ hlb, Int.toNat_ofNat, Int.toNat_ofNat, hp, hq]
    simp only [Option.bind_eq_bind, Option.some_bind]
    have h2 : ((0 : Nat) : Int) = 0 := rfl
    rw [h2] at ht
    rw [ht]
    rfl
  · have : ((s.matchingCharacters.toNat : Nat) : Int) = s.matchingCharacters :=
      Int.toNat_of_nonneg hm
    omega

theorem count_true_le (l : List Bool) : l.count true ≤ l.length := List.count_le_length _ _

/-- What `jaroDistance` returns, case by case, for sizes that fit in an `int`. -/
theorem jaroDistance_spec (fl : ℚ → ℚ) (a b : List α) (hla1 : a.length < 2147483648)
    (hlb1 : b.length < 2147483648) :
    ((a = [] ∨ b = []) ∧ jaroDistance fl a b = some 0) ∨
    (a ≠ [] ∧ b ≠ [] ∧ ∃ s, matchScan a b = some s ∧ s.matchingCharacters = 0 ∧
      jaroDistance fl a b = some 0) ∨
    (a ≠ [] ∧ b ≠ [] ∧ ∃ s t, matchScan a b = some s ∧
      transpositionScan a b s = some t ∧
      0 < s.matchingCharacters ∧ s.matchingCharacters ≤ a.length ∧
      s.matchingCharacters ≤ b.length ∧ 0 ≤ t.transpositions ∧
      t.transpositions ≤ s.matchingCharacters ∧
      jaroDistance fl a b
        = some (jaroValue fl a.length b.length s.matchingCharacters t.transpositions)) := by
  by_cases hab : a = [] ∨ b = []
  · left
    refine ⟨hab, ?_⟩
    unfold jaroDistance
    rcases hab with h | h <;> simp [h, castInt_zero]
  · right
    push_neg at hab
    obtain ⟨ha, hb⟩ := hab
    have hla : a.length ≠ 0 := fun h => ha (List.length_eq_zero.1 h)
    have hlb : b.length ≠ 0 := fun h => hb (List.length_eq_zero.1 h)
    have hca := castInt_eq _ hla1
    have hcb := castInt_eq _ hlb1
    obtain ⟨s, P, k, hs, _, inv, _, _⟩ := matchScan_raw a b hla1 hlb1
    have hm0 : 0 ≤ s.matchingCharacters := by rw [inv.aCount]; omega
    by_cases hm : s.matchingCharacters = 0
    · left
      refine ⟨ha, hb, s, hs, hm, ?_⟩
      unfold jaroDistance
      simp [hca, hcb, hla, hlb, hs, hm]
    · right
      obtain ⟨t, ht, ht0, ht1⟩ := transpositionScan_spec a b _ s P inv hla1 hlb1
      refine ⟨ha, hb, s, _, hs, ht, by omega, ?_, ?_, ht0, ht1, ?_⟩
      · rw [inv.aCount, ← inv.aLen]
        exact_mod_cast count_true_le _
      · rw [inv.bCount, ← inv.bLen]
        exact_mod_cast count_true_le _
      · unfold jaroDistance
        simp [hca, hcb, hla, hlb, hs, hm, ht, divide, jaroValue]

/-! ## Arithmetic of the score -/

theorem jaroValue_comm (fl : ℚ → ℚ) (aLength bLength m t : Int) :
    jaroValue fl aLength bLength m t = jaroValue fl bLength aLength m t := by
  unfold jaroValue JARO_WEIGHT_STRING_A JARO_WEIGHT_STRING_B
  rw [add_comm (fl (fl (fl (1 / 3) * (m : ℚ)) / (aLength : ℚ)))]

theorem jaroValue_bounds (aLength bLength m t : Int) (hm : 0 < m) (ha : m ≤ aLength)
    (hb : m ≤ bLength) (ht0 : 0 ≤ t) (ht1 : t ≤ m) :
    0 ≤ jaroValue exact aLength bLength m t ∧ jaroValue exact aLength bLength m t ≤ 1 := by
  have hh0 : 0 ≤ t.tdiv 2 := by rw [Int.tdiv_eq_ediv ht0 (by omega)]; omega
  have hh1 : t.tdiv 2 ≤ m := by rw [Int.tdiv_eq_ediv ht0 (by omega)]; omega
  have hmq : (0 : ℚ) < m := by exact_mod_cast hm
  have haq : (0 : ℚ) < aLength := by exact_mod_cast lt_of_lt_of_le hm ha
  have hbq : (0 : ℚ) < bLength := by exact_mod_cast lt_of_lt_of_le hm hb
  have hA0 : (0 : ℚ) ≤ m / aLength := div_nonneg hmq.le haq.le
  have hA1 : (m : ℚ) / aLength ≤ 1 := (div_le_one haq).2 (by exact_mod_cast ha)
  have hB0 : (0 : ℚ) ≤ m / bLength := div_nonneg hmq.le hbq.le
  have hB1 : (m : ℚ) / bLength ≤ 1 := (div_le_one hbq).2 (by exact_mod_cast hb)
  have hT0 : (0 : ℚ) ≤ ((m - t.tdiv 2 : Int) : ℚ) / m :=
    div_nonneg (by exact_mod_cast (by omega : (0 : Int) ≤ m - t.tdiv 2)) hmq.le
  have hT1 : ((m - t.tdiv 2 : Int) : ℚ) / m ≤ 1 :=
    (div_le_one hmq).2 (by exact_mod_cast (by omega : m - t.tdiv 2 ≤ m))
  have hval : jaroValue exact aLength bLength m t
      = 1 / 3 * ((m : ℚ) / aLength) + 1 / 3 * ((m : ℚ) / bLength)
        + 1 / 3 * (((m - t.tdiv 2 : Int) : ℚ) / m) := by
    unfold jaroValue JARO_WEIGHT_STRING_A JARO_WEIGHT_STRING_B JARO_WEIGHT_TRANSPOSITIONS
    simp only [exact, mul_div_assoc]
  rw [hval]
  constructor <;> linarith

theorem jaroDistance_of_scan (fl : ℚ → ℚ) (a b : List α) (s : MatchState)
    (t : Transpositions)
    (ha : a ≠ []) (hb : b ≠ []) (hla : a.length < 2147483648)
    (hlb : b.length < 2147483648) (hs : matchScan a b = some s)
    (hm : s.matchingCharacters ≠ 0) (ht : transpositionScan a b s = some t) :
    jaroDistance fl a b
      = some (jaroValue fl a.length b.length s.matchingCharacters t.transpositions) := by
  have hla0 : a.length ≠ 0 := fun h => ha (List.length_eq_zero.1 h)
  have hlb0 : b.length ≠ 0 := fun h => hb (List.length_eq_zero.1 h)
  unfold jaroDistance
  simp [castInt_eq _ hla, castInt_eq _ hlb, hla0, hlb0, hs, hm, ht, divide, jaroValue]

theorem jaroDistance_of_scan_zero (fl : ℚ → ℚ) (a b : List α) (s : MatchState)
    (hs : matchScan a b = some s) (hm : s.matchingCharacters = 0) :
    jaroDistance fl a b = some 0 := by
  unfold jaroDistance
  simp only [hs, Option.bind_eq_bind, Option.some_bind, hm, if_true]
  split_ifs <;> rfl

theorem jaroDistance_nil_left (fl : ℚ → ℚ) (b : List α) :
    jaroDistance fl [] b = some 0 := by
  simp [jaroDistance, castInt_zero]

theorem jaroDistance_nil_right (fl : ℚ → ℚ) (a : List α) :
    jaroDistance fl a [] = some 0 := by
  simp [jaroDistance, castInt_zero]

/-! ## Symmetry -/

/-- Within the `int` range `jaroDistance a b` and `jaroDistance b a` are the
same value, however `double` operations round. -/
theorem jaroDistance_comm (fl : ℚ → ℚ) (a b : List α) (hab : InRange a b)
    (hba : InRange b a) : jaroDistance fl a b = jaroDistance fl b a := by
  rcases jaroDistance_spec fl a b hab.1 hab.2.1 with ⟨h0, h⟩ | ⟨_, _, s, hs, hm, h⟩ |
    ⟨ha, hb, s, t, hs, ht, hm, _, _, _, _, h⟩
  · rw [h]
    rcases h0 with rfl | rfl
    · exact (jaroDistance_nil_right fl b).symm
    · exact (jaroDistance_nil_left fl a).symm
  · rw [h]
    exact (jaroDistance_of_scan_zero fl b a _ (matchScan_swap a b hab hba s hs) hm).symm
  · rw [h, jaroValue_comm]
    have ht2 := transpositionScan_swap a b s
    rw [ht] at ht2
    exact (jaroDistance_of_scan fl b a _ _ hb ha hab.2.1 hab.1
      (matchScan_swap a b hab hba s hs) (by simpa using hm.ne') ht2).symm

/-! ## Sizes beyond the `int` range

The scan reads `a` and `b` only below the two `int` lengths, so it cannot tell
the sequences from their prefixes of those lengths. -/

theorem checkedAt_take {β : Type} (xs : List β) (n : Nat) (i : Int) (h : i < (n : Int)) :
    checkedAt (xs.take n) i = checkedAt xs i := by
  unfold checkedAt
  by_cases h0 : 0 ≤ i
  · rw [if_pos h0, if_pos h0, List.getElem?_take_of_lt (by omega)]
  · rw [if_neg h0, if_neg h0]

theorem windowLoop_congr (a c b d : List α) (aIndex : Int)
    (ha : checkedAt a aIndex = checkedAt c aIndex) :
    ∀ (n : Nat) (bIndex : Int) (s : MatchState),
      (∀ j : Int, bIndex ≤ j → j < bIndex + n → checkedAt b j = checkedAt d j) →
      windowLoop a b aIndex n bIndex s = windowLoop c d aIndex n bIndex s := by
  intro n
  induction n with
  | zero => intro bIndex s _; rfl
  | succ n ih =>
    intro bIndex s hb
    have hrec := ih (bIndex + 1) s (fun j h1 h2 => hb j (by omega) (by push_cast; omega))
    rw [windowLoop, windowLoop, ha, hb bIndex (le_refl _) (by push_cast; omega), hrec]

theorem matchLoop_congr (a c b d : List α) (R B : Int) :
    ∀ (n : Nat) (aIndex : Int) (s : MatchState),
      (∀ i : Int, aIndex ≤ i → i < aIndex + n → checkedAt a i = checkedAt c i) →
      (∀ j : Int, j < B → checkedAt b j = checkedAt d j) →
      matchLoop a b R B n aIndex s = matchLoop c d R B n aIndex s := by
  intro n
  induction n with
  | zero => intro aIndex s _ _; rfl
  | succ n ih =>
    intro aIndex s ha hb
    rw [matchLoop, matchLoop]
    split_ifs with hbr
    · rfl
    · rw [windowLoop_congr a c b d aIndex (ha aIndex (le_refl _) (by push_cast; omega)) _ _ s
        (fun j h1 h2 => hb j (by omega))]
      exact bind_congr (fun s0 => ih (aIndex + 1) s0
        (fun i h1 h2 => ha i (by omega) (by push_cast; omega)) hb)

theorem transpositionLoop_congr (a c b d : List α) (p q : List Int)
    (ha : ∀ i ∈ p, checkedAt a i = checkedAt c i)
    (hb : ∀ j ∈ q, checkedAt b j = checkedAt d j) :
    ∀ (n : Nat) (index t : Int),
      transpositionLoop a b p q n index t = transpositionLoop c d p q n index t := by
  intro n
  induction n with
  | zero => intro index t; rfl
  | succ n ih =>
    intro index t
    rw [transpositionLoop, transpositionLoop]
    simp only [Option.bind_eq_bind]
    cases hp : checkedAt p index with
    | none => rfl
    | some i =>
      have hi : i ∈ p := by
        unfold checkedAt at hp
        split_ifs at hp
        exact List.getElem?_mem hp
      simp only [Option.some_bind, ha i hi]
      cases hx : checkedAt c i with
      | none => rfl
      | some x =>
        simp only [Option.some_bind]
        cases hq : checkedAt q index with
        | none => rfl
        | some j =>
          have hj : j ∈ q := by
            unfold checkedAt at hq
            split_ifs at hq
            exact List.getElem?_mem hq
          simp only [Option.some_bind, hb j hj]
          cases hy : checkedAt d j with
          | none => rfl
          | some y =>
            simp only [Option.some_bind]
            exact ih _ _

theorem length_take_castInt (a : List α) :
    (a.take (castInt a.length).toNat).length = (castInt a.length).toNat := by
  rw [List.length_take]
  exact Nat.min_eq_left (castInt_toNat_le _)

theorem length_take_lt (a : List α) :
    (a.take (castInt a.length).toNat).length < 2147483648 := by
  rw [length_take_castInt]
  have := castInt_lt a.length
  omega

theorem castInt_length_take (a : List α) (h : 0 ≤ castInt a.length) :
    castInt (a.take (castInt a.length).toNat).length = castInt a.length := by
  rw [length_take_castInt, castInt_toNat _ h]

theorem maxRange_take (a b : List α) (ha : 0 ≤ castInt a.length) (hb : 0 ≤ castInt b.length) :
    maxRange (a.take (castInt a.length).toNat) (b.take (castInt b.length).toNat)
      = maxRange a b := by
  unfold maxRange
  rw [castInt_length_take a ha, castInt_length_take b hb]

/-- The matching scan of `a` and `b` is the matching scan of their prefixes of
the two `int` lengths. -/
theorem matchScan_take (a b : List α) (ha : 0 ≤ castInt a.length)
    (hb : 0 ≤ castInt b.length) :
    matchScan a b
      = matchScan (a.take (castInt a.length).toNat) (b.take (castInt b.length).toNat) := by
  unfold matchScan
  simp only [castInt_length_take a ha, castInt_length_take b hb, maxRange_take a b ha hb]
  split_ifs with h
  · rfl
  · symm
    apply matchLoop_congr
    · intro i h1 h2
      exact checkedAt_take _ _ _ (by omega)
    · intro j h1
      exact checkedAt_take _ _ _ (by omega)

/-- The transposition scan of `a` and `b` is the transposition scan of their
prefixes of the two `int` lengths, for masks of those lengths. -/
theorem transpositionScan_take (a b : List α) (ha : 0 ≤ castInt a.length)
    (hb : 0 ≤ castInt b.length) (s : MatchState)
    (hal : s.aMatch.length = (castInt a.length).toNat)
    (hbl : s.bMatch.length = (castInt b.length).toNat)
    (hac : s.matchingCharacters = s.aMatch.count true)
    (hbc : s.matchingCharacters = s.bMatch.count true) :
    transpositionScan a b s
      = transpositionScan (a.take (castInt a.length).toNat)
          (b.take (castInt b.length).toNat) s := by
  have hp := positionLoop_mask s.aMatch s.matchingCharacters hac
  have hq := positionLoop_mask s.bMatch s.matchingCharacters hbc
  rw [hal] at hp
  rw [hbl] at hq
  unfold transpositionScan
  simp only [castInt_length_take a ha, castInt_length_take b hb, hp, hq, Option.bind_eq_bind,
    Option.some_bind]
  rw [transpositionLoop_congr a (a.take (castInt a.length).toNat) b
    (b.take (castInt b.length).toNat)]
  · intro i hi
    have := maskPositions_bounds s.aMatch 0 i hi
    rw [hal] at this
    exact (checkedAt_take _ _ _ (by omega)).symm
  · intro j hj
    have := maskPositions_bounds s.bMatch 0 j hj
    rw [hbl] at this
    exact (checkedAt_take _ _ _ (by omega)).symm

/-- The call `jaroDistance a b` is the call on the prefixes of the two `int`
lengths. -/
theorem jaroDistance_take (fl : ℚ → ℚ) (a b : List α) (ha : 0 ≤ castInt a.length)
    (hb : 0 ≤ castInt b.length) :
    jaroDistance fl a b
      = jaroDistance fl (a.take (castInt a.length).toNat)
          (b.take (castInt b.length).toNat) := by
  obtain ⟨s, P, k, hs, _, inv, _, _⟩ := matchScan_raw (a.take (castInt a.length).toNat)
    (b.take (castInt b.length).toNat) (length_take_lt a) (length_take_lt b)
  have hs0 := matchScan_take a b ha hb
  rw [hs] at hs0
  have ht := transpositionScan_take a b ha hb s
    (by rw [inv.aLen, length_take_castInt]) (by rw [inv.bLen, length_take_castInt])
    inv.aCount inv.bCount
  unfold jaroDistance
  simp only [castInt_length_take a ha, castInt_length_take b hb, hs, hs0, Option.bind_eq_bind,
    Option.some_bind, ht]

/-- The matching scan throws exactly when one of the two `int` lengths is
negative. -/
theorem matchScan_eq_none (a b : List α) :
    matchScan a b = none ↔ castInt a.length < 0 ∨ castInt b.length < 0 := by
  constructor
  · intro h
    by_contra hn
    push_neg at hn
    obtain ⟨s, P, k, hs, _⟩ := matchScan_raw (a.take (castInt a.length).toNat)
      (b.take (castInt b.length).toNat) (length_take_lt a) (length_take_lt b)
    rw [matchScan_take a b hn.1 hn.2, hs] at h
    cases h
  · intro h
    unfold matchScan
    simp only [h, if_true]

/-- What the matching scan returns, for sequences of any size: the masks have
the two `int` lengths and describe a matching of the two prefixes of those
lengths over the rows before some row `k`. -/
theorem matchScan_sound (a b : List α) (s : MatchState) (hs : matchScan a b = some s) :
    0 ≤ castInt a.length ∧ 0 ≤ castInt b.length ∧
      ∃ (P : Nat → Nat → Prop) (k : Nat), k ≤ (castInt a.length).toNat ∧
        ScanInv (a.take (castInt a.length).toNat) (b.take (castInt b.length).toNat)
          (maxRange a b).toNat k s P := by
  have hn : ¬ (castInt a.length < 0 ∨ castInt b.length < 0) := by
    intro h
    rw [(matchScan_eq_none a b).2 h] at hs
    cases hs
  push_neg at hn
  obtain ⟨s0, P, k, hs0, hk, inv, _, _⟩ := matchScan_raw (a.take (castInt a.length).toNat)
    (b.take (castInt b.length).toNat) (length_take_lt a) (length_take_lt b)
  rw [matchScan_take a b hn.1 hn.2, hs0] at hs
  have hse : s0 = s := Option.some.inj hs
  rw [hse] at inv
  refine ⟨hn.1, hn.2, P, k, ?_, ?_⟩
  · rw [length_take_castInt] at hk
    exact hk
  · have hR : (maxRange a b).toNat = windowRadius (a.take (castInt a.length).toNat)
        (b.take (castInt b.length).toNat) := by
      rw [← maxRange_take a b hn.1 hn.2,
        maxRange_eq _ _ (length_take_lt a) (length_take_lt b), Int.toNat_ofNat]
    rw [hR]
    exact inv

/-! ## The call, for sequences of any size -/

/-- The call `jaroDistance a b` throws exactly when neither `int` length is zero
and one of them is negative: the constructor of line 40 or 41 throws. -/
theorem jaroDistance_eq_none (fl : ℚ → ℚ) (a b : List α) :
    jaroDistance fl a b = none ↔
      castInt a.length ≠ 0 ∧ castInt b.length ≠ 0 ∧
        (castInt a.length < 0 ∨ castInt b.length < 0) := by
  by_cases h0 : castInt a.length = 0 ∨ castInt b.length = 0
  · have : jaroDistance fl a b = some 0 := by
      unfold jaroDistance
      simp only [h0, if_true]
    rw [this]
    constructor
    · intro h; cases h
    · rintro ⟨h1, h2, _⟩
      rcases h0 with h | h
      · exact absurd h h1
      · exact absurd h h2
  · have h0' := h0
    push_neg at h0
    by_cases hneg : castInt a.length < 0 ∨ castInt b.length < 0
    · have : jaroDistance fl a b = none := by
        unfold jaroDistance
        simp only [h0', if_false, (matchScan_eq_none a b).2 hneg, Option.bind_eq_bind,
          Option.none_bind]
      rw [this]
      exact ⟨fun _ => ⟨h0.1, h0.2, hneg⟩, fun _ => rfl⟩
    · have hneg' := hneg
      push_neg at hneg
      have hla := length_take_lt a
      have hlb := length_take_lt b
      rw [jaroDistance_take fl a b hneg.1 hneg.2]
      constructor
      · intro h
        rcases jaroDistance_spec fl _ _ hla hlb with ⟨_, h1⟩ | ⟨_, _, _, _, _, h1⟩ |
          ⟨_, _, _, _, _, _, _, _, _, _, _, h1⟩ <;> rw [h1] at h <;> cases h
      · rintro ⟨_, _, h⟩
        exact absurd h hneg'

/-- What `jaroDistance` returns, case by case, for sequences of any size. -/
theorem jaroDistance_cases (fl : ℚ → ℚ) (a b : List α) (d : ℚ)
    (h : jaroDistance fl a b = some d) :
    d = 0 ∨
      ∃ s t, matchScan a b = some s ∧ transpositionScan a b s = some t ∧
        0 < s.matchingCharacters ∧ s.matchingCharacters ≤ castInt a.length ∧
        s.matchingCharacters ≤ castInt b.length ∧ 0 ≤ t.transpositions ∧
        t.transpositions ≤ s.matchingCharacters ∧
        d = jaroValue fl (castInt a.length) (castInt b.length) s.matchingCharacters
          t.transpositions := by
  by_cases h0 : castInt a.length = 0 ∨ castInt b.length = 0
  · left
    unfold jaroDistance at h
    simp only [h0, if_true, Option.some.injEq] at h
    exact h.symm
  · have hnn : ¬ (castInt a.length < 0 ∨ castInt b.length < 0) := by
      intro hneg
      have hn := (jaroDistance_eq_none fl a b).2
        ⟨fun e => h0 (Or.inl e), fun e => h0 (Or.inr e), hneg⟩
      rw [hn] at h
      cases h
    push_neg at hnn
    have hla := length_take_lt a
    have hlb := length_take_lt b
    have hA : ((a.take (castInt a.length).toNat).length : Int) = castInt a.length := by
      rw [length_take_castInt]
      exact Int.toNat_of_nonneg hnn.1
    have hB : ((b.take (castInt b.length).toNat).length : Int) = castInt b.length := by
      rw [length_take_castInt]
      exact Int.toNat_of_nonneg hnn.2
    rw [jaroDistance_take fl a b hnn.1 hnn.2] at h
    rcases jaroDistance_spec fl _ _ hla hlb with ⟨_, h1⟩ | ⟨_, _, _, _, _, h1⟩ |
      ⟨_, _, s, t, hs, ht, hm, hma, hmb, ht0, ht1, h1⟩
    · rw [h1] at h
      exact Or.inl (Option.some.inj h).symm
    · rw [h1] at h
      exact Or.inl (Option.some.inj h).symm
    · right
      rw [← matchScan_take a b hnn.1 hnn.2] at hs
      obtain ⟨_, _, P, k, _, inv⟩ := matchScan_sound a b s hs
      rw [← transpositionScan_take a b hnn.1 hnn.2 s
        (by rw [inv.aLen, length_take_castInt]) (by rw [inv.bLen, length_take_castInt])
        inv.aCount inv.bCount] at ht
      rw [h1, hA, hB] at h
      rw [hA] at hma
      rw [hB] at hmb
      exact ⟨s, t, hs, ht, hm, hma, hmb, ht0, ht1, (Option.some.inj h).symm⟩

/-! ## Identity -/

theorem Greedy.diagonal (a : List α) (R : Nat) :
    Greedy a a R a.length (fun i j => i = j ∧ i < a.length) := by
  refine ⟨?_, ?_, ?_, ?_, ?_, ?_⟩
  · rintro i j ⟨_, h⟩; exact h
  · rintro i j ⟨rfl, h⟩
    exact ⟨a[i], List.getElem?_eq_getElem h, List.getElem?_eq_getElem h⟩
  · rintro i j ⟨rfl, _⟩; omega
  · rintro i j j0 ⟨rfl, _⟩ ⟨rfl, _⟩; rfl
  · rintro i i0 j ⟨rfl, _⟩ ⟨rfl, _⟩; rfl
  · intro i j x hi _ _ _ _ hbefore
    have hji : j < i := hbefore i ⟨rfl, hi⟩
    exact ⟨j, hji, rfl, by omega⟩

theorem count_true_eq_length (l : List Bool) (h : ∀ k : Nat, k < l.length → l[k]? = some true) :
    l.count true = l.length := by
  rw [List.count_eq_length]
  intro c hc
  obtain ⟨k, hk, rfl⟩ := List.getElem_of_mem hc
  have := h k hk
  rw [List.getElem?_eq_getElem hk] at this
  exact (Option.some.inj this).symm

theorem transpositionLoop_self (a : List α) (p : List Int) :
    ∀ (n : Nat) (index t t0 : Int),
      transpositionLoop a a p p n index t = some t0 → t0 = t := by
  intro n
  induction n with
  | zero =>
    intro index t t0 h
    simp only [transpositionLoop] at h
    exact (Option.some.inj h).symm
  | succ n ih =>
    intro index t t0 h
    rw [transpositionLoop] at h
    simp only [Option.bind_eq_bind] at h
    cases hp : checkedAt p index with
    | none => simp [hp] at h
    | some i =>
      cases hx : checkedAt a i with
      | none => simp [hp, hx] at h
      | some x =>
        simp only [hp, hx, Option.some_bind, ne_eq, not_true_eq_false, if_false] at h
        exact ih _ _ _ h

/-- Scanning a sequence against itself matches every position (with itself). -/
theorem matchScan_self (a : List α) (hr : InRange a a) :
    ∃ s, matchScan a a = some s ∧ s.aMatch = s.bMatch ∧
      s.matchingCharacters = a.length := by
  obtain ⟨s, P, hs, inv⟩ := matchScan_spec a a hr
  have hP := inv.greedy.unique (Greedy.diagonal a _)
  have hmask : s.aMatch = s.bMatch := by
    apply mask_ext _ _ (by rw [inv.aLen, inv.bLen])
    intro k
    rw [inv.aMask, inv.bMask]
    constructor
    · rintro ⟨j, hj⟩
      obtain ⟨rfl, _⟩ := (hP k j).1 hj
      exact ⟨k, hj⟩
    · rintro ⟨i, hi⟩
      obtain ⟨rfl, _⟩ := (hP i k).1 hi
      exact ⟨i, hi⟩
  refine ⟨s, hs, hmask, ?_⟩
  rw [inv.aCount, ← inv.aLen, count_true_eq_length]
  intro k hk
  rw [inv.aMask]
  exact ⟨k, (hP k k).2 ⟨rfl, by rw [← inv.aLen]; exact hk⟩⟩

theorem jaroValue_self (n : Int) (hn : n ≠ 0) : jaroValue exact n n n 0 = 1 := by
  have hq : (n : ℚ) ≠ 0 := by exact_mod_cast hn
  unfold jaroValue JARO_WEIGHT_STRING_A JARO_WEIGHT_STRING_B JARO_WEIGHT_TRANSPOSITIONS
  simp only [exact, Int.zero_tdiv, sub_zero]
  field_simp
  ring

/-- Scanning a sequence against itself counts no transposition. -/
theorem transpositionScan_self (a : List α) (s : MatchState) (t : Transpositions)
    (hmask : s.aMatch = s.bMatch) (ht : transpositionScan a a s = some t) :
    t.transpositions = 0 := by
  unfold transpositionScan at ht
  rw [hmask] at ht
  simp only [Option.bind_eq_bind] at ht
  cases hp : positionLoop s.bMatch (castInt a.length).toNat 0 0
      (List.replicate s.matchingCharacters.toNat 0) with
  | none => simp [hp] at ht
  | some p =>
    simp only [hp, Option.some_bind] at ht
    cases hl : transpositionLoop a a p p s.matchingCharacters.toNat 0 0 with
    | none => simp [hl] at ht
    | some t1 =>
      have := transpositionLoop_self a p _ _ _ _ hl
      simp only [hl, Option.some_bind, Option.some.injEq] at ht
      rw [← ht]
      exact this

theorem inRange_self (a : List α) (hr : a.length + a.length / 2 ≤ 2147483648) :
    InRange a a := by
  unfold InRange windowRadius
  simp only [max_self]
  omega

/-- In every arithmetic, a non-empty sequence scanned against itself has all its
positions matched and no transposition, and `jaroDistance` returns the value
computed from these counts, as long as no `int` of the scan leaves its range. -/
theorem jaroDistance_self_value (fl : ℚ → ℚ) (a : List α) (ha : a ≠ [])
    (hr : InRange a a) :
    ∃ s t, matchScan a a = some s ∧ s.matchingCharacters = a.length ∧
      transpositionScan a a s = some t ∧ t.transpositions = 0 ∧
      jaroDistance fl a a = some (jaroValue fl a.length a.length a.length 0) := by
  obtain ⟨s, hs, hmask, hm⟩ := matchScan_self a hr
  obtain ⟨s0, P, hs0, inv⟩ := matchScan_spec a a hr
  rw [hs] at hs0
  cases hs0
  obtain ⟨t, ht, _, _⟩ := transpositionScan_spec a a _ s P inv hr.1 hr.1
  have hla : (a.length : Int) ≠ 0 := by
    have : a.length ≠ 0 := fun h => ha (List.length_eq_zero.1 h)
    exact_mod_cast this
  have ht0 := transpositionScan_self a s _ hmask ht
  refine ⟨s, _, hs, hm, ht, ht0, ?_⟩
  rw [jaroDistance_of_scan fl a a s _ ha ha hr.1 hr.1 hs (by rw [hm]; exact hla) ht, hm, ht0]

/-- C2, as the code has it. Identity: for every non-empty sequence `a` of a size
`n` with `n + n / 2 ≤ 2^31` (no `int` of the scan leaves its range) the scan of
`a` against itself matches every position (`m = length`) without transposition
(`t = 0`); `jaroDistance a a` is `1` when no `double` operation rounds, and in
binary64 arithmetic it is `1.0` or `1 - 2⁻⁵²`, the second double below `1.0`. -/
theorem jaroDistance_self (a : List α) (ha : a ≠ [])
    (hr : a.length + a.length / 2 ≤ 2147483648) :
    ∃ s t, matchScan a a = some s ∧ s.matchingCharacters = a.length ∧
      transpositionScan a a s = some t ∧ t.transpositions = 0 ∧
      jaroDistance exact a a = some 1 ∧
      (jaroDistance binary64 a a = some 1 ∨
        jaroDistance binary64 a a = some (1 - 1 / 2 ^ 52)) := by
  have hin := inRange_self a hr
  obtain ⟨s, t, hs, hm, ht, ht0, h⟩ := jaroDistance_self_value exact a ha hin
  obtain ⟨_, _, _, _, _, _, hb⟩ := jaroDistance_self_value binary64 a ha hin
  have hla0 : a.length ≠ 0 := fun h => ha (List.length_eq_zero.1 h)
  have hla : (a.length : Int) ≠ 0 := by exact_mod_cast hla0
  have hl1 : (1 : Int) ≤ a.length := by omega
  have hl2 : (a.length : Int) < 2 ^ 31 := by
    have := hin.1
    norm_num
    exact_mod_cast this
  refine ⟨s, t, hs, hm, ht, ht0, by rw [h, jaroValue_self _ hla], ?_⟩
  rw [hb]
  rcases jaroValue_binary64_self _ hl1 hl2 with h1 | h1
  · left; rw [h1]
  · right; rw [h1]

/-- C2, as the code has it, at the three-symbol sequence `1, 2, 3`. -/
theorem jaroDistance_self_witness :
    ([1, 2, 3] : List Nat) ≠ [] ∧
      ([1, 2, 3] : List Nat).length + ([1, 2, 3] : List Nat).length / 2 ≤ 2147483648 ∧
      ∃ s t, matchScan ([1, 2, 3] : List Nat) [1, 2, 3] = some s ∧
        s.matchingCharacters = ([1, 2, 3] : List Nat).length ∧
        transpositionScan ([1, 2, 3] : List Nat) [1, 2, 3] s = some t ∧
        t.transpositions = 0 ∧
        jaroDistance exact ([1, 2, 3] : List Nat) [1, 2, 3] = some 1 ∧
        (jaroDistance binary64 ([1, 2, 3] : List Nat) [1, 2, 3] = some 1 ∨
          jaroDistance binary64 ([1, 2, 3] : List Nat) [1, 2, 3] = some (1 - 1 / 2 ^ 52)) :=
  ⟨by decide, by decide, jaroDistance_self _ (by decide) (by decide)⟩

theorem jaroDistance_binary64_25 :
    jaroDistance binary64 (List.replicate 25 (0 : Nat)) (List.replicate 25 0)
      = some (1 - 1 / 2 ^ 52) := by
  obtain ⟨s, t, _, _, _, _, h⟩ := jaroDistance_self_value binary64
    (List.replicate 25 (0 : Nat)) (by decide) (by decide)
  rw [h]
  simp only [List.length_replicate]
  exact congrArg some jaroValue_binary64_25

theorem castInt_two_pow_32 : castInt 4294967296 = 0 := by
  unfold castInt wrapInt
  norm_num

/-- A sequence whose size is `2^32` has the `int` length zero, and
`jaroDistance` takes the exit of line 33. -/
theorem jaroDistance_size_two_pow_32 (fl : ℚ → ℚ) (a b : List α)
    (h : a.length = 4294967296) : jaroDistance fl a b = some 0 := by
  unfold jaroDistance
  simp only [h, castInt_two_pow_32, true_or, if_true]

/-- C2 fails as stated. For a sequence of 25 equal symbols, `jaroDistance` in
binary64 arithmetic returns `1 - 2⁻⁵²`, not `1.0`; for a sequence of `2^32`
equal symbols it returns `0`, in every arithmetic, as for an empty sequence. -/
theorem jaroDistance_self_binary64_25 :
    List.replicate 25 (0 : Nat) ≠ [] ∧
      jaroDistance binary64 (List.replicate 25 (0 : Nat)) (List.replicate 25 0)
        = some (1 - 1 / 2 ^ 52) ∧
      jaroDistance binary64 (List.replicate 25 (0 : Nat)) (List.replicate 25 0) ≠ some 1 ∧
      jaroDistance exact (List.replicate 4294967296 (0 : Nat)) (List.replicate 4294967296 0)
        = some 0 ∧
      jaroDistance binary64 (List.replicate 4294967296 (0 : Nat)) (List.replicate 4294967296 0)
        = some 0 := by
  refine ⟨by decide, jaroDistance_binary64_25, ?_,
    jaroDistance_size_two_pow_32 _ _ _ (List.length_replicate _ _),
    jaroDistance_size_two_pow_32 _ _ _ (List.length_replicate _ _)⟩
  rw [jaroDistance_binary64_25]
  norm_num

/-! ## The common leading run -/

theorem commonPrefixLength_le (a b : List α) :
    commonPrefixLength a b ≤ min a.length b.length := by
  induction a generalizing b with
  | nil => simp [commonPrefixLength]
  | cons x a ih =>
    cases b with
    | nil => simp [commonPrefixLength]
    | cons y b =>
      simp only [commonPrefixLength, List.length_cons]
      have := ih b
      split_ifs <;> omega

theorem commonPrefixLoop_spec (a b : List α) :
    ∀ (n index : Nat) (common : Int), index + n ≤ a.length → index + n ≤ b.length →
      commonPrefixLoop a b n (index : Int) common
        = some (common +
            ((min n (commonPrefixLength (a.drop index) (b.drop index)) : Nat) : Int)) := by
  intro n
  induction n with
  | zero =>
    intro index common _ _
    simp [commonPrefixLoop]
  | succ n ih =>
    intro index common h1 h2
    have hia : index < a.length := by omega
    have hib : index < b.length := by omega
    have hcast : ((index : Int) + 1) = ((index + 1 : Nat) : Int) := by push_cast; rfl
    rw [commonPrefixLoop, checkedAt_natCast, checkedAt_natCast,
      List.getElem?_eq_getElem hia, List.getElem?_eq_getElem hib,
      List.drop_eq_getElem_cons hia, List.drop_eq_getElem_cons hib, hcast]
    simp only [Option.bind_eq_bind, Option.some_bind, commonPrefixLength]
    by_cases hxy : a[index] = b[index]
    · simp only [hxy, if_true]
      rw [ih (index + 1) (common + 1) (by omega) (by omega)]
      congr 1
      omega
    · simp [hxy]

/-- The common leading run the boost uses is the longest common prefix, capped
at `JARO_WINKLER_PREFIX_SIZE`. -/
theorem commonPrefixLoop_eq (a b : List α) :
    commonPrefixLoop a b
        (((min (min a.length b.length) JARO_WINKLER_PREFIX_SIZE : Nat) : Int)).toNat 0 0
      = some ((min JARO_WINKLER_PREFIX_SIZE (commonPrefixLength a b) : Nat) : Int) := by
  have h := commonPrefixLoop_spec a b (min (min a.length b.length) JARO_WINKLER_PREFIX_SIZE)
    0 0 (by omega) (by omega)
  have hle := commonPrefixLength_le a b
  simp only [Int.toNat_ofNat, List.drop_zero, zero_add] at h ⊢
  have h0 : ((0 : Nat) : Int) = 0 := rfl
  rw [h0] at h
  rw [h]
  congr 2
  omega

/-- What `jaroWinklerDistance` returns, given what `jaroDistance` returns. -/
theorem jaroWinklerDistance_eq (fl : ℚ → ℚ) (a b : List α) (d : ℚ)
    (h : jaroDistance fl a b = some d) :
    jaroWinklerDistance fl a b
      = some (if d > fl JARO_WINKLER_BOOST_THRESHOLD then
          fl (d + fl (fl (fl JARO_WINKLER_SCALING_FACTOR *
            (((min JARO_WINKLER_PREFIX_SIZE (commonPrefixLength a b) : Nat) : Int) : ℚ)) *
            fl (1 - d)))
        else d) := by
  unfold jaroWinklerDistance
  simp only [h, Option.bind_eq_bind, Option.some_bind]
  split_ifs with hd
  · rw [commonPrefixLoop_eq]
    simp
  · rfl

theorem boost_bounds (d : ℚ) (p : Nat) (hd1 : d ≤ 1)
    (hp : p ≤ JARO_WINKLER_PREFIX_SIZE) :
    d ≤ d + JARO_WINKLER_SCALING_FACTOR * (((p : Nat) : Int) : ℚ) * (1 - d) ∧
      d + JARO_WINKLER_SCALING_FACTOR * (((p : Nat) : Int) : ℚ) * (1 - d) ≤ 1 := by
  unfold JARO_WINKLER_SCALING_FACTOR
  unfold JARO_WINKLER_PREFIX_SIZE at hp
  have hp0 : (0 : ℚ) ≤ ((p : Int) : ℚ) := by exact_mod_cast Nat.zero_le p
  have hp4 : ((p : Int) : ℚ) ≤ 4 := by exact_mod_cast hp
  have h1 : 0 ≤ 1 - d := by linarith
  constructor
  · have : 0 ≤ 1 / 10 * ((p : Int) : ℚ) * (1 - d) := by positivity
    linarith
  · have : 1 / 10 * ((p : Int) : ℚ) * (1 - d) ≤ 1 / 10 * 4 * (1 - d) := by
      apply mul_le_mul_of_nonneg_right _ h1
      linarith
    linarith
/-! ## Range of the two scores -/

theorem jaroDistance_range (a b : List α) (d : ℚ) (h : jaroDistance exact a b = some d) :
    0 ≤ d ∧ d ≤ 1 := by
  rcases jaroDistance_cases exact a b d h with h0 |
    ⟨s, t, _, _, hm, hma, hmb, ht0, ht1, hd⟩
  · rw [h0]
    exact ⟨le_refl _, zero_le_one⟩
  · rw [hd]
    exact jaroValue_bounds _ _ _ _ hm hma hmb ht0 ht1

theorem jaroWinklerDistance_exact (a b : List α) (d : ℚ)
    (h : jaroDistance exact a b = some d) :
    jaroWinklerDistance exact a b
      = some (if d > JARO_WINKLER_BOOST_THRESHOLD then
          d + JARO_WINKLER_SCALING_FACTOR *
            (((min JARO_WINKLER_PREFIX_SIZE (commonPrefixLength a b) : Nat) : Int) : ℚ) *
            (1 - d)
        else d) := by
  rw [jaroWinklerDistance_eq exact a b d h]
  simp only [exact]

theorem jaroDistance_range_binary64 (a b : List α) (d : ℚ)
    (h : jaroDistance binary64 a b = some d) :
    0 ≤ d ∧ d ≤ 1 ∧ ∃ x0, 0 ≤ x0 ∧ d = binary64 x0 := by
  have hla0 : castInt a.length < 2 ^ 31 := by
    have := castInt_lt a.length
    norm_num
    exact this
  have hlb0 : castInt b.length < 2 ^ 31 := by
    have := castInt_lt b.length
    norm_num
    exact this
  rcases jaroDistance_cases binary64 a b d h with h0 |
    ⟨s, t, _, _, hm, hma, hmb, ht0, ht1, hd⟩
  · rw [h0]
    exact ⟨le_refl _, zero_le_one, 0, le_refl _, binary64_zero.symm⟩
  · obtain ⟨h0, h1⟩ := jaroValue_binary64_bounds _ _ _ _ hm hma hmb ht0 ht1 hla0 hlb0
    rw [hd]
    refine ⟨h0, h1, _, ?_, rfl⟩
    have hh0 : 0 ≤ t.transpositions.tdiv 2 := by
      rw [Int.tdiv_eq_ediv ht0 (by omega)]; omega
    have hh1 : t.transpositions.tdiv 2 ≤ s.matchingCharacters := by
      rw [Int.tdiv_eq_ediv ht0 (by omega)]; omega
    have hA := (binary64_third_quot s.matchingCharacters (castInt a.length) (by omega) hma
      (by omega) hla0).1
    have hB := (binary64_third_quot s.matchingCharacters (castInt b.length) (by omega) hmb
      (by omega) hlb0).1
    have hT := (binary64_third_quot (s.matchingCharacters - t.transpositions.tdiv 2)
      s.matchingCharacters (by omega) (by omega) (by omega) (by omega)).1
    unfold JARO_WEIGHT_STRING_A JARO_WEIGHT_STRING_B JARO_WEIGHT_TRANSPOSITIONS
    rw [binary64_third]
    exact add_nonneg (binary64_nonneg _ (add_nonneg hA hB)) hT

/-- Both scores in exact arithmetic, for sequences of any size: when
`jaroDistance` returns so does `jaroWinklerDistance`, and
`0 ≤ jaroDistance ≤ jaroWinklerDistance ≤ 1`. -/
theorem scores_exact (a b : List α) (d : ℚ) (hd : jaroDistance exact a b = some d) :
    ∃ e, jaroWinklerDistance exact a b = some e ∧ 0 ≤ d ∧ d ≤ e ∧ e ≤ 1 := by
  obtain ⟨hd0, hd1⟩ := jaroDistance_range a b d hd
  obtain ⟨hb0, hb1⟩ := boost_bounds d
    (min JARO_WINKLER_PREFIX_SIZE (commonPrefixLength a b)) hd1 (min_le_left _ _)
  refine ⟨_, jaroWinklerDistance_exact a b d hd, hd0, ?_, ?_⟩
  · split_ifs
    · exact hb0
    · exact le_refl _
  · split_ifs
    · exact hb1
    · exact hd1

/-- Both scores in binary64 arithmetic, for sequences of any size: when
`jaroDistance` returns so does `jaroWinklerDistance`, and
`0 ≤ jaroDistance ≤ jaroWinklerDistance ≤ 1`. -/
theorem scores_binary64 (a b : List α) (d : ℚ) (hd : jaroDistance binary64 a b = some d) :
    ∃ e, jaroWinklerDistance binary64 a b = some e ∧ 0 ≤ d ∧ d ≤ e ∧ e ≤ 1 := by
  obtain ⟨hd0, hd1, x0, hx0, hdx⟩ := jaroDistance_range_binary64 a b d hd
  refine ⟨_, jaroWinklerDistance_eq binary64 a b d hd, hd0, ?_, ?_⟩
  · split_ifs with hgt
    · subst hdx
      exact (boost_bounds_binary64 x0 _ hx0 hd1 (min_le_left _ _) hgt).1
    · exact le_refl _
  · split_ifs with hgt
    · subst hdx
      exact (boost_bounds_binary64 x0 _ hx0 hd1 (min_le_left _ _) hgt).2
    · exact hd1

/-- The call `jaroWinklerDistance a b` throws exactly when `jaroDistance a b` does. -/
theorem jaroWinklerDistance_eq_none (fl : ℚ → ℚ) (a b : List α) :
    jaroWinklerDistance fl a b = none ↔ jaroDistance fl a b = none := by
  cases hd : jaroDistance fl a b with
  | none =>
    unfold jaroWinklerDistance
    simp [hd]
  | some d =>
    rw [jaroWinklerDistance_eq fl a b d hd]
    simp

/-- C3. Bounded range of Jaro: for all sequences `a` and `b`, of any size, every
value `jaroDistance a b` returns lies between `0` and `1`, in exact and in
binary64 arithmetic; the call returns a value unless a constructor of line 40
or 41 throws, which is when neither `int` length is zero and one is negative. -/
theorem jaroDistance_bounded (a b : List α) :
    (∀ d, jaroDistance exact a b = some d → 0 ≤ d ∧ d ≤ 1) ∧
    (∀ d, jaroDistance binary64 a b = some d → 0 ≤ d ∧ d ≤ 1) ∧
    (∀ fl, jaroDistance fl a b = none ↔
      castInt a.length ≠ 0 ∧ castInt b.length ≠ 0 ∧
        (castInt a.length < 0 ∨ castInt b.length < 0)) := by
  refine ⟨fun d h => jaroDistance_range a b d h, fun d h => ?_,
    fun fl => jaroDistance_eq_none fl a b⟩
  obtain ⟨h0, h1, _⟩ := jaroDistance_range_binary64 a b d h
  exact ⟨h0, h1⟩

/-- C4. Bounded range of Jaro-Winkler: for all sequences `a` and `b`, of any
size, every value `jaroWinklerDistance a b` returns lies between `0` and `1`,
the boost over a common leading run of at most `JARO_WINKLER_PREFIX_SIZE`
symbols never lifting it above `1`, in exact and in binary64 arithmetic; the
call returns a value whenever `jaroDistance a b` does. -/
theorem jaroWinklerDistance_bounded (a b : List α) :
    (∀ e, jaroWinklerDistance exact a b = some e → 0 ≤ e ∧ e ≤ 1) ∧
    (∀ e, jaroWinklerDistance binary64 a b = some e → 0 ≤ e ∧ e ≤ 1) ∧
    (∀ fl, jaroWinklerDistance fl a b = none ↔ jaroDistance fl a b = none) := by
  refine ⟨fun e he => ?_, fun e he => ?_, fun fl => jaroWinklerDistance_eq_none fl a b⟩
  · cases hd : jaroDistance exact a b with
    | none => rw [(jaroWinklerDistance_eq_none exact a b).2 hd] at he; cases he
    | some d =>
      obtain ⟨e0, he0, hd0, hde, he1⟩ := scores_exact a b d hd
      rw [he0] at he
      cases he
      exact ⟨le_trans hd0 hde, he1⟩
  · cases hd : jaroDistance binary64 a b with
    | none => rw [(jaroWinklerDistance_eq_none binary64 a b).2 hd] at he; cases he
    | some d =>
      obtain ⟨e0, he0, hd0, hde, he1⟩ := scores_binary64 a b d hd
      rw [he0] at he
      cases he
      exact ⟨le_trans hd0 hde, he1⟩

/-- C5. The boost never decreases the score: for all sequences `a` and `b`, of
any size, whenever `jaroDistance a b` returns a value so does
`jaroWinklerDistance a b`, and its value is at least that of `jaroDistance`, in
exact and in binary64 arithmetic. -/
theorem jaroWinklerDistance_ge_jaroDistance (a b : List α) :
    (∀ d, jaroDistance exact a b = some d →
      ∃ e, jaroWinklerDistance exact a b = some e ∧ d ≤ e) ∧
    (∀ d, jaroDistance binary64 a b = some d →
      ∃ e, jaroWinklerDistance binary64 a b = some e ∧ d ≤ e) := by
  constructor
  · intro d hd
    obtain ⟨e, he, _, hde, _⟩ := scores_exact a b d hd
    exact ⟨e, he, hde⟩
  · intro d hd
    obtain ⟨e, he, _, hde, _⟩ := scores_binary64 a b d hd
    exact ⟨e, he, hde⟩

/-- C6. Threshold gating: in every arithmetic, when `jaroDistance a b` is at
most the boost threshold `0.7`, `jaroWinklerDistance a b` is that same value,
whatever the common prefix. -/
theorem jaroWinklerDistance_gated (fl : ℚ → ℚ) (a b : List α) (d : ℚ)
    (hd : jaroDistance fl a b = some d) (hle : d ≤ fl JARO_WINKLER_BOOST_THRESHOLD) :
    jaroWinklerDistance fl a b = some d := by
  rw [jaroWinklerDistance_eq fl a b d hd, if_neg (not_lt.2 hle)]

/-- C7. Boost formula: when `d = jaroDistance a b` exceeds `0.7`,
`jaroWinklerDistance a b` is `d + 0.1 * p * (1 - d)` with `p` the smaller of `4`
and the length of the longest common prefix of `a` and `b`; the formula is
evaluated in the arithmetic of the call, so in exact arithmetic it is the
rational number `d + 1/10 * p * (1 - d)`. -/
theorem jaroWinklerDistance_boosted (fl : ℚ → ℚ) (a b : List α) (d : ℚ)
    (hd : jaroDistance fl a b = some d) (hgt : d > fl (7 / 10)) :
    jaroWinklerDistance fl a b
        = some (fl (d + fl (fl (fl (1 / 10) *
            ((min 4 (commonPrefixLength a b) : Nat) : ℚ)) * fl (1 - d)))) ∧
      (fl = exact → jaroWinklerDistance fl a b
        = some (d + 1 / 10 * ((min 4 (commonPrefixLength a b) : Nat) : ℚ) * (1 - d))) := by
  have h : jaroWinklerDistance fl a b
      = some (fl (d + fl (fl (fl (1 / 10) *
          ((min 4 (commonPrefixLength a b) : Nat) : ℚ)) * fl (1 - d)))) := by
    rw [jaroWinklerDistance_eq fl a b d hd,
      if_pos (by unfold JARO_WINKLER_BOOST_THRESHOLD; exact hgt)]
    unfold JARO_WINKLER_SCALING_FACTOR JARO_WINKLER_PREFIX_SIZE
    simp
  refine ⟨h, ?_⟩
  intro hfl
  rw [h]
  subst hfl
  simp only [exact]

theorem threshold_nonneg_exact : ¬ ((0 : ℚ) > exact JARO_WINKLER_BOOST_THRESHOLD) := by
  unfold JARO_WINKLER_BOOST_THRESHOLD exact; norm_num

theorem threshold_nonneg_binary64 : ¬ ((0 : ℚ) > binary64 JARO_WINKLER_BOOST_THRESHOLD) := by
  apply not_lt.2
  apply binary64_nonneg
  unfold JARO_WINKLER_BOOST_THRESHOLD; norm_num

/-- C8. Empty input: against the empty sequence every sequence, empty or not,
scores `0` under both functions, on either side, in exact and in binary64
arithmetic. -/
theorem empty_input (a : List α) :
    (jaroDistance exact a [] = some 0 ∧ jaroDistance exact [] a = some 0 ∧
      jaroWinklerDistance exact a [] = some 0 ∧
      jaroWinklerDistance exact [] a = some 0) ∧
    (jaroDistance binary64 a [] = some 0 ∧ jaroDistance binary64 [] a = some 0 ∧
      jaroWinklerDistance binary64 a [] = some 0 ∧
      jaroWinklerDistance binary64 [] a = some 0) := by
  refine ⟨⟨jaroDistance_nil_right _ a, jaroDistance_nil_left _ a, ?_, ?_⟩,
    ⟨jaroDistance_nil_right _ a, jaroDistance_nil_left _ a, ?_, ?_⟩⟩
  · rw [jaroWinklerDistance_eq _ a [] 0 (jaroDistance_nil_right _ a),
      if_neg threshold_nonneg_exact]
  · rw [jaroWinklerDistance_eq _ [] a 0 (jaroDistance_nil_left _ a),
      if_neg threshold_nonneg_exact]
  · rw [jaroWinklerDistance_eq _ a [] 0 (jaroDistance_nil_right _ a),
      if_neg threshold_nonneg_binary64]
  · rw [jaroWinklerDistance_eq _ [] a 0 (jaroDistance_nil_left _ a),
      if_neg threshold_nonneg_binary64]

theorem castInt_two_pow_31 : castInt 2147483648 = -2147483648 := by
  unfold castInt wrapInt
  norm_num

theorem castInt_one : castInt 1 = 1 := by
  unfold castInt wrapInt
  norm_num

/-- C9 at a sequence of `2^31` symbols against a sequence of one symbol:
`static_cast<int>` turns the size `2^31` into `-2^31`, the constructor of line 40
throws, and neither function returns a value, in exact and in binary64
arithmetic. -/
theorem throws_at_size_two_pow_31 :
    jaroDistance exact (List.replicate 2147483648 'a') ['a'] = none ∧
      jaroWinklerDistance exact (List.replicate 2147483648 'a') ['a'] = none ∧
      jaroDistance binary64 (List.replicate 2147483648 'a') ['a'] = none ∧
      jaroWinklerDistance binary64 (List.replicate 2147483648 'a') ['a'] = none := by
  have h : ∀ fl : ℚ → ℚ, jaroDistance fl (List.replicate 2147483648 'a') ['a'] = none := by
    intro fl
    rw [jaroDistance_eq_none]
    simp only [List.length_replicate, List.length_singleton, castInt_two_pow_31, castInt_one]
    norm_num
  exact ⟨h _, (jaroWinklerDistance_eq_none _ _ _).2 (h _), h _,
    (jaroWinklerDistance_eq_none _ _ _).2 (h _)⟩

/-! ## The window -/

theorem count_true_eq_zero (l : List Bool) (h : ∀ k : Nat, ¬ l[k]? = some true) :
    l.count true = 0 := by
  rw [List.count_eq_zero]
  intro hmem
  obtain ⟨k, hk, hk1⟩ := List.getElem_of_mem hmem
  apply h k
  rw [List.getElem?_eq_getElem hk, hk1]

theorem getElem?_of_take {β : Type} {l : List β} {n i : Nat} {x : β}
    (h : (l.take n)[i]? = some x) : l[i]? = some x := by
  rcases Nat.lt_or_ge i n with hlt | hge
  · rw [List.getElem?_take_of_lt hlt] at h
    exact h
  · rw [List.getElem?_take_eq_none hge] at h
    cases h

/-- C10. Window boundary: for non-empty `a` and `b`, of any size, when every pair
of positions holding the same symbol is more than `maxRange a b` apart, every
state the scan returns has matched nothing and every value `jaroDistance a b`
returns is `0`, in every arithmetic; the call returns a value unless a
constructor of line 40 or 41 throws. -/
theorem window_boundary (fl : ℚ → ℚ) (a b : List α) (_ha : a ≠ []) (_hb : b ≠ [])
    (hfar : ∀ (i j : Nat) (x : α), a[i]? = some x → b[j]? = some x →
      maxRange a b < |(i : Int) - (j : Int)|) :
    (∀ s, matchScan a b = some s → s.matchingCharacters = 0) ∧
    (∀ d, jaroDistance fl a b = some d → d = 0) ∧
    (jaroDistance fl a b = none ↔
      castInt a.length ≠ 0 ∧ castInt b.length ≠ 0 ∧
        (castInt a.length < 0 ∨ castInt b.length < 0)) := by
  have hscan : ∀ s, matchScan a b = some s → s.matchingCharacters = 0 := by
    intro s hs
    obtain ⟨_, _, P, k, _, inv⟩ := matchScan_sound a b s hs
    have hno : ∀ i j, ¬ P i j := by
      intro i j hP
      obtain ⟨x, hax, hbx⟩ := inv.greedy.same i j hP
      obtain ⟨h1, h2⟩ := inv.greedy.near i j hP
      have := hfar i j x (getElem?_of_take hax) (getElem?_of_take hbx)
      have hR := maxRange_nonneg a b
      have habs : |(i : Int) - (j : Int)| ≤ maxRange a b := by
        rw [abs_le]; constructor <;> omega
      omega
    rw [inv.aCount, count_true_eq_zero]
    · rfl
    · intro k0 hk
      obtain ⟨j, hj⟩ := (inv.aMask k0).1 hk
      exact hno k0 j hj
  refine ⟨hscan, ?_, jaroDistance_eq_none fl a b⟩
  intro d hd
  rcases jaroDistance_cases fl a b d hd with h0 | ⟨s, t, hs, _, hm, _⟩
  · exact h0
  · rw [hscan s hs] at hm
    exact absurd hm (lt_irrefl _)


/-! ## Worked inputs -/

theorem jaroDistance_gated_input :
    jaroDistance exact ([1, 2, 3, 4] : List Nat) [1, 5, 6, 7] = some (1 / 2) := by
  have hs : matchScan ([1, 2, 3, 4] : List Nat) [1, 5, 6, 7]
      = some ⟨[true, false, false, false], [true, false, false, false], 1⟩ := by decide
  have ht : transpositionScan ([1, 2, 3, 4] : List Nat) [1, 5, 6, 7]
      ⟨[true, false, false, false], [true, false, false, false], 1⟩
      = some ⟨[0], [0], 0⟩ := by decide
  rw [jaroDistance_of_scan _ _ _ _ _ (by decide) (by decide) (by decide) (by decide) hs
    (by decide) ht]
  norm_num [jaroValue, exact, JARO_WEIGHT_STRING_A, JARO_WEIGHT_STRING_B, JARO_WEIGHT_TRANSPOSITIONS]

/-- C6, at `1, 2, 3, 4` against `1, 5, 6, 7`: one match, a common prefix of
length one, and a score of `1/2` that the boost leaves alone. -/
theorem jaroWinklerDistance_gated_witness :
    jaroDistance exact ([1, 2, 3, 4] : List Nat) [1, 5, 6, 7] = some (1 / 2) ∧
      (1 / 2 : ℚ) ≤ exact JARO_WINKLER_BOOST_THRESHOLD ∧
      jaroWinklerDistance exact ([1, 2, 3, 4] : List Nat) [1, 5, 6, 7] = some (1 / 2) :=
  ⟨jaroDistance_gated_input, by norm_num [JARO_WINKLER_BOOST_THRESHOLD, exact],
    jaroWinklerDistance_gated exact _ _ _ jaroDistance_gated_input
      (by norm_num [JARO_WINKLER_BOOST_THRESHOLD, exact])⟩

theorem jaroDistance_martha :
    jaroDistance exact ['M', 'A', 'R', 'T', 'H', 'A'] ['M', 'A', 'R', 'H', 'T', 'A']
      = some (17 / 18) := by
  have hs : matchScan ['M', 'A', 'R', 'T', 'H', 'A'] ['M', 'A', 'R', 'H', 'T', 'A']
      = some ⟨[true, true, true, true, true, true], [true, true, true, true, true, true], 6⟩ := by
    decide
  have ht : transpositionScan ['M', 'A', 'R', 'T', 'H', 'A'] ['M', 'A', 'R', 'H', 'T', 'A']
      ⟨[true, true, true, true, true, true], [true, true, true, true, true, true], 6⟩
      = some ⟨[0, 1, 2, 3, 4, 5], [0, 1, 2, 3, 4, 5], 2⟩ := by decide
  rw [jaroDistance_of_scan _ _ _ _ _ (by decide) (by decide) (by decide) (by decide) hs
    (by decide) ht]
  norm_num [jaroValue, exact, JARO_WEIGHT_STRING_A, JARO_WEIGHT_STRING_B, JARO_WEIGHT_TRANSPOSITIONS]

/-- C7, at `MARTHA` against `MARHTA` in exact arithmetic: the score `17/18`
exceeds `0.7`, the common prefix `MAR` has length three, and the boosted score
is `17/18 + 1/10 * 3 * (1 - 17/18) = 173/180`. -/
theorem jaroWinklerDistance_boosted_witness :
    jaroDistance exact ['M', 'A', 'R', 'T', 'H', 'A'] ['M', 'A', 'R', 'H', 'T', 'A']
        = some (17 / 18) ∧
      (17 / 18 : ℚ) > exact (7 / 10) ∧
      commonPrefixLength ['M', 'A', 'R', 'T', 'H', 'A'] ['M', 'A', 'R', 'H', 'T', 'A'] = 3 ∧
      jaroWinklerDistance exact ['M', 'A', 'R', 'T', 'H', 'A'] ['M', 'A', 'R', 'H', 'T', 'A']
        = some (17 / 18 + 1 / 10 *
            ((min 4 (commonPrefixLength ['M', 'A', 'R', 'T', 'H', 'A']
              ['M', 'A', 'R', 'H', 'T', 'A']) : Nat) : ℚ) * (1 - 17 / 18)) :=
  ⟨jaroDistance_martha, by norm_num [exact], by decide,
    (jaroWinklerDistance_boosted exact _ _ _ jaroDistance_martha
      (by norm_num [exact])).2 rfl⟩

theorem far_apart_input (i j : Nat) (x : Char)
    (hi : ['A', 'w', 'x', 'y', 'z'][i]? = some x)
    (hj : ['p', 'q', 'r', 's', 'A'][j]? = some x) :
    maxRange ['A', 'w', 'x', 'y', 'z'] ['p', 'q', 'r', 's', 'A']
      < |(i : Int) - (j : Int)| := by
  have hmr : maxRange ['A', 'w', 'x', 'y', 'z'] ['p', 'q', 'r', 's', 'A'] = 1 := by decide
  have hi5 : i < 5 := lt_length_of_getElem? hi
  have hj5 : j < 5 := lt_length_of_getElem? hj
  rw [hmr]
  interval_cases i <;> interval_cases j <;> simp at hi hj <;> subst hi <;>
    first | exact absurd hj (by decide) | norm_num

theorem far_apart_scan :
    matchScan ['A', 'w', 'x', 'y', 'z'] ['p', 'q', 'r', 's', 'A']
      = some ⟨[false, false, false, false, false], [false, false, false, false, false], 0⟩ := by
  decide

/-- C10, at `Awxyz` against `pqrsA`: the window half-width is one and the only
shared symbol sits four positions apart; the scan returns with no match and
`jaroDistance` returns `0`. -/
theorem window_boundary_witness :
    ['A', 'w', 'x', 'y', 'z'] ≠ [] ∧ ['p', 'q', 'r', 's', 'A'] ≠ [] ∧
      (∀ (i j : Nat) (x : Char), ['A', 'w', 'x', 'y', 'z'][i]? = some x →
        ['p', 'q', 'r', 's', 'A'][j]? = some x →
        maxRange ['A', 'w', 'x', 'y', 'z'] ['p', 'q', 'r', 's', 'A']
          < |(i : Int) - (j : Int)|) ∧
      matchScan ['A', 'w', 'x', 'y', 'z'] ['p', 'q', 'r', 's', 'A']
        = some ⟨[false, false, false, false, false],
            [false, false, false, false, false], 0⟩ ∧
      (⟨[false, false, false, false, false], [false, false, false, false, false], 0⟩ :
        MatchState).matchingCharacters = 0 ∧
      jaroDistance binary64 ['A', 'w', 'x', 'y', 'z'] ['p', 'q', 'r', 's', 'A'] = some 0 :=
  ⟨by decide, by decide, far_apart_input, far_apart_scan,
    (window_boundary binary64 _ _ (by decide) (by decide) far_apart_input).1 _ far_apart_scan,
    jaroDistance_of_scan_zero binary64 _ _ _ far_apart_scan rfl⟩

theorem jaroWinklerDistance_martha :
    jaroWinklerDistance exact ['M', 'A', 'R', 'T', 'H', 'A'] ['M', 'A', 'R', 'H', 'T', 'A']
      = some (173 / 180) := by
  have hlcp : min JARO_WINKLER_PREFIX_SIZE
      (commonPrefixLength ['M', 'A', 'R', 'T', 'H', 'A'] ['M', 'A', 'R', 'H', 'T', 'A']) = 3 := by
    decide
  rw [jaroWinklerDistance_exact _ _ _ jaroDistance_martha, hlcp]
  norm_num [JARO_WINKLER_BOOST_THRESHOLD, JARO_WINKLER_SCALING_FACTOR]

/-- C3, at `MARTHA` against `MARHTA`: the call returns `17/18`, between `0` and `1`. -/
theorem jaroDistance_bounded_witness :
    jaroDistance exact ['M', 'A', 'R', 'T', 'H', 'A'] ['M', 'A', 'R', 'H', 'T', 'A']
        = some (17 / 18) ∧
      (0 : ℚ) ≤ 17 / 18 ∧ (17 / 18 : ℚ) ≤ 1 :=
  ⟨jaroDistance_martha, (jaroDistance_bounded _ _).1 _ jaroDistance_martha⟩

/-- C4, at `MARTHA` against `MARHTA`: the score `17/18` exceeds `0.7`, the boost
over the common prefix `MAR` lifts it to `173/180`, still at most `1`. -/
theorem jaroWinklerDistance_bounded_witness :
    jaroDistance exact ['M', 'A', 'R', 'T', 'H', 'A'] ['M', 'A', 'R', 'H', 'T', 'A']
        = some (17 / 18) ∧
      (17 / 18 : ℚ) > exact JARO_WINKLER_BOOST_THRESHOLD ∧
      jaroWinklerDistance exact ['M', 'A', 'R', 'T', 'H', 'A'] ['M', 'A', 'R', 'H', 'T', 'A']
        = some (173 / 180) ∧
      (0 : ℚ) ≤ 173 / 180 ∧ (173 / 180 : ℚ) ≤ 1 :=
  ⟨jaroDistance_martha, by norm_num [exact, JARO_WINKLER_BOOST_THRESHOLD],
    jaroWinklerDistance_martha, (jaroWinklerDistance_bounded _ _).1 _ jaroWinklerDistance_martha⟩

/-- C5, at `MARTHA` against `MARHTA`: the score `17/18` exceeds `0.7` and the
boosted score `173/180` is larger. -/
theorem jaroWinklerDistance_ge_jaroDistance_witness :
    jaroDistance exact ['M', 'A', 'R', 'T', 'H', 'A'] ['M', 'A', 'R', 'H', 'T', 'A']
        = some (17 / 18) ∧
      (17 / 18 : ℚ) > exact JARO_WINKLER_BOOST_THRESHOLD ∧
      (17 / 18 : ℚ) < 173 / 180 ∧
      ∃ e, jaroWinklerDistance exact ['M', 'A', 'R', 'T', 'H', 'A']
          ['M', 'A', 'R', 'H', 'T', 'A'] = some e ∧ (17 / 18 : ℚ) ≤ e :=
  ⟨jaroDistance_martha, by norm_num [exact, JARO_WINKLER_BOOST_THRESHOLD], by norm_num,
    (jaroWinklerDistance_ge_jaroDistance _ _).1 _ jaroDistance_martha⟩

/-! ## Literal values in binary64 arithmetic -/

theorem jaroValue_binary64_martha : jaroValue binary64 6 6 6 2 = 8506799296144270 / 2 ^ 53 := by
  have h1 : binary64 (6004799503160661 / 2 ^ 54 * 6) = 9007199254740992 / 2 ^ 52 := by
    rw [binary64_tie_odd _ (0) 9007199254740991 (by norm_num) (by norm_num) (by norm_num) (by decide)]
    norm_num
  have h2 : binary64 (9007199254740992 / 2 ^ 52 / 6) = 6004799503160661 / 2 ^ 54 := by
    rw [binary64_eq _ (-2) 6004799503160661 (by norm_num) (by norm_num) (by norm_num [abs_lt])]
    norm_num
  have h3 : binary64 (6004799503160661 / 2 ^ 54 * 5) = 7505999378950826 / 2 ^ 52 := by
    rw [binary64_eq _ (0) 7505999378950826 (by norm_num) (by norm_num) (by norm_num [abs_lt])]
    norm_num
  have h4 : binary64 (7505999378950826 / 2 ^ 52 / 6) = 5003999585967217 / 2 ^ 54 := by
    rw [binary64_eq _ (-2) 5003999585967217 (by norm_num) (by norm_num) (by norm_num [abs_lt])]
    norm_num
  have h5 : binary64 (6004799503160661 / 2 ^ 54 + 6004799503160661 / 2 ^ 54) = 6004799503160661 / 2 ^ 53 := by
    rw [binary64_eq _ (-1) 6004799503160661 (by norm_num) (by norm_num) (by norm_num [abs_lt])]
    norm_num
  have h6 : binary64 (6004799503160661 / 2 ^ 53 + 5003999585967217 / 2 ^ 54) = 8506799296144270 / 2 ^ 53 := by
    rw [binary64_tie_odd _ (-1) 8506799296144269 (by norm_num) (by norm_num) (by norm_num) (by decide)]
    norm_num
  have ht : ((6 : Int) - (2 : Int).tdiv 2) = 5 := by decide
  unfold jaroValue JARO_WEIGHT_STRING_A JARO_WEIGHT_STRING_B JARO_WEIGHT_TRANSPOSITIONS
  rw [ht]
  simp only [Int.cast_ofNat, binary64_third, h1, h2, h3, h4, h5, h6]

theorem jaroValue_binary64_dixon : jaroValue binary64 5 8 4 0 = 6905519428634760 / 2 ^ 53 := by
  have h1 : binary64 (6004799503160661 / 2 ^ 54 * 4) = 6004799503160661 / 2 ^ 52 := by
    rw [binary64_eq _ (0) 6004799503160661 (by norm_num) (by norm_num) (by norm_num [abs_lt])]
    norm_num
  have h2 : binary64 (6004799503160661 / 2 ^ 52 / 5) = 4803839602528529 / 2 ^ 54 := by
    rw [binary64_eq _ (-2) 4803839602528529 (by norm_num) (by norm_num) (by norm_num [abs_lt])]
    norm_num
  have h3 : binary64 (6004799503160661 / 2 ^ 54 * 4) = 6004799503160661 / 2 ^ 52 := by
    rw [binary64_eq _ (0) 6004799503160661 (by norm_num) (by norm_num) (by norm_num [abs_lt])]
    norm_num
  have h4 : binary64 (6004799503160661 / 2 ^ 52 / 8) = 6004799503160661 / 2 ^ 55 := by
    rw [binary64_eq _ (-3) 6004799503160661 (by norm_num) (by norm_num) (by norm_num [abs_lt])]
    norm_num
  have h5 : binary64 (6004799503160661 / 2 ^ 54 * 4) = 6004799503160661 / 2 ^ 52 := by
    rw [binary64_eq _ (0) 6004799503160661 (by norm_num) (by norm_num) (by norm_num [abs_lt])]
    norm_num
  have h6 : binary64 (6004799503160661 / 2 ^ 52 / 4) = 6004799503160661 / 2 ^ 54 := by
    rw [binary64_eq _ (-2) 6004799503160661 (by norm_num) (by norm_num) (by norm_num [abs_lt])]
    norm_num
  have h7 : binary64 (4803839602528529 / 2 ^ 54 + 6004799503160661 / 2 ^ 55) = 7806239354108860 / 2 ^ 54 := by
    rw [binary64_tie_odd _ (-2) 7806239354108859 (by norm_num) (by norm_num) (by norm_num) (by decide)]
    norm_num
  have h8 : binary64 (7806239354108860 / 2 ^ 54 + 6004799503160661 / 2 ^ 54) = 6905519428634760 / 2 ^ 53 := by
    rw [binary64_tie_even _ (-1) 6905519428634760 (by norm_num) (by norm_num) (by norm_num) (by decide)]
    norm_num
  have ht : ((4 : Int) - (0 : Int).tdiv 2) = 4 := by decide
  unfold jaroValue JARO_WEIGHT_STRING_A JARO_WEIGHT_STRING_B JARO_WEIGHT_TRANSPOSITIONS
  rw [ht]
  simp only [Int.cast_ofNat, binary64_third, h1, h2, h3, h4, h5, h6, h7, h8]

theorem jaroValue_binary64_abc : jaroValue binary64 6 6 3 3 = 5003999585967218 / 2 ^ 53 := by
  have h1 : binary64 (6004799503160661 / 2 ^ 54 * 3) = 9007199254740992 / 2 ^ 53 := by
    rw [binary64_tie_odd _ (-1) 9007199254740991 (by norm_num) (by norm_num) (by norm_num) (by decide)]
    norm_num
  have h2 : binary64 (9007199254740992 / 2 ^ 53 / 6) = 6004799503160661 / 2 ^ 55 := by
    rw [binary64_eq _ (-3) 6004799503160661 (by norm_num) (by norm_num) (by norm_num [abs_lt])]
    norm_num
  have h3 : binary64 (6004799503160661 / 2 ^ 54 * 2) = 6004799503160661 / 2 ^ 53 := by
    rw [binary64_eq _ (-1) 6004799503160661 (by norm_num) (by norm_num) (by norm_num [abs_lt])]
    norm_num
  have h4 : binary64 (6004799503160661 / 2 ^ 53 / 3) = 8006399337547548 / 2 ^ 55 := by
    rw [binary64_eq _ (-3) 8006399337547548 (by norm_num) (by norm_num) (by norm_num [abs_lt])]
    norm_num
  have h5 : binary64 (6004799503160661 / 2 ^ 55 + 6004799503160661 / 2 ^ 55) = 6004799503160661 / 2 ^ 54 := by
    rw [binary64_eq _ (-2) 6004799503160661 (by norm_num) (by norm_num) (by norm_num [abs_lt])]
    norm_num
  have h6 : binary64 (6004799503160661 / 2 ^ 54 + 8006399337547548 / 2 ^ 55) = 5003999585967218 / 2 ^ 53 := by
    rw [binary64_tie_odd _ (-1) 5003999585967217 (by norm_num) (by norm_num) (by norm_num) (by decide)]
    norm_num
  have ht : ((3 : Int) - (3 : Int).tdiv 2) = 2 := by decide
  unfold jaroValue JARO_WEIGHT_STRING_A JARO_WEIGHT_STRING_B JARO_WEIGHT_TRANSPOSITIONS
  rw [ht]
  simp only [Int.cast_ofNat, binary64_third, h1, h2, h3, h4, h5, h6]

/-! ## The literal inputs -/

theorem scan_martha :
    matchScan ['M', 'A', 'R', 'T', 'H', 'A'] ['M', 'A', 'R', 'H', 'T', 'A']
        = some ⟨[true, true, true, true, true, true], [true, true, true, true, true, true], 6⟩ ∧
      transpositionScan ['M', 'A', 'R', 'T', 'H', 'A'] ['M', 'A', 'R', 'H', 'T', 'A']
          ⟨[true, true, true, true, true, true], [true, true, true, true, true, true], 6⟩
        = some ⟨[0, 1, 2, 3, 4, 5], [0, 1, 2, 3, 4, 5], 2⟩ := by
  constructor <;> decide

theorem scan_dixon :
    matchScan ['D', 'I', 'X', 'O', 'N'] ['D', 'I', 'C', 'K', 'S', 'O', 'N', 'X']
        = some ⟨[true, true, false, true, true],
            [true, true, false, false, false, true, true, false], 4⟩ ∧
      transpositionScan ['D', 'I', 'X', 'O', 'N'] ['D', 'I', 'C', 'K', 'S', 'O', 'N', 'X']
          ⟨[true, true, false, true, true],
            [true, true, false, false, false, true, true, false], 4⟩
        = some ⟨[0, 1, 3, 4], [0, 1, 5, 6], 0⟩ := by
  constructor <;> decide

theorem scan_abc :
    matchScan ['A', 'B', 'C', 'x', 'y', 'z'] ['B', 'C', 'A', 'u', 'v', 'w']
        = some ⟨[true, true, true, false, false, false],
            [true, true, true, false, false, false], 3⟩ ∧
      transpositionScan ['A', 'B', 'C', 'x', 'y', 'z'] ['B', 'C', 'A', 'u', 'v', 'w']
          ⟨[true, true, true, false, false, false],
            [true, true, true, false, false, false], 3⟩
        = some ⟨[0, 1, 2], [0, 1, 2], 3⟩ := by
  constructor <;> decide

theorem jaroDistance_binary64_martha :
    jaroDistance binary64 ['M', 'A', 'R', 'T', 'H', 'A'] ['M', 'A', 'R', 'H', 'T', 'A']
      = some (8506799296144270 / 2 ^ 53) := by
  rw [jaroDistance_of_scan _ _ _ _ _ (by decide) (by decide) (by decide) (by decide)
    scan_martha.1 (by decide) scan_martha.2]
  exact congrArg some jaroValue_binary64_martha

theorem jaroDistance_binary64_dixon :
    jaroDistance binary64 ['D', 'I', 'X', 'O', 'N'] ['D', 'I', 'C', 'K', 'S', 'O', 'N', 'X']
      = some (6905519428634760 / 2 ^ 53) := by
  rw [jaroDistance_of_scan _ _ _ _ _ (by decide) (by decide) (by decide) (by decide)
    scan_dixon.1 (by decide) scan_dixon.2]
  exact congrArg some jaroValue_binary64_dixon

theorem jaroDistance_exact_dixon :
    jaroDistance exact ['D', 'I', 'X', 'O', 'N'] ['D', 'I', 'C', 'K', 'S', 'O', 'N', 'X']
      = some (23 / 30) := by
  rw [jaroDistance_of_scan _ _ _ _ _ (by decide) (by decide) (by decide) (by decide)
    scan_dixon.1 (by decide) scan_dixon.2]
  norm_num [jaroValue, exact, JARO_WEIGHT_STRING_A, JARO_WEIGHT_STRING_B,
    JARO_WEIGHT_TRANSPOSITIONS]

theorem jaroDistance_exact_abc :
    jaroDistance exact ['A', 'B', 'C', 'x', 'y', 'z'] ['B', 'C', 'A', 'u', 'v', 'w']
      = some (5 / 9) := by
  rw [jaroDistance_of_scan _ _ _ _ _ (by decide) (by decide) (by decide) (by decide)
    scan_abc.1 (by decide) scan_abc.2]
  norm_num [jaroValue, exact, JARO_WEIGHT_STRING_A, JARO_WEIGHT_STRING_B,
    JARO_WEIGHT_TRANSPOSITIONS, show (3 : Int).tdiv 2 = 1 by decide]

theorem jaroDistance_binary64_abc :
    jaroDistance binary64 ['A', 'B', 'C', 'x', 'y', 'z'] ['B', 'C', 'A', 'u', 'v', 'w']
      = some (5003999585967218 / 2 ^ 53) := by
  rw [jaroDistance_of_scan _ _ _ _ _ (by decide) (by decide) (by decide) (by decide)
    scan_abc.1 (by decide) scan_abc.2]
  exact congrArg some jaroValue_binary64_abc

theorem jaroDistance_exact_self (a : List α) (ha : a ≠ []) (hr : InRange a a) :
    jaroDistance exact a a = some 1 := by
  obtain ⟨s, t, _, _, _, _, h⟩ := jaroDistance_self_value exact a ha hr
  have hla : (a.length : Int) ≠ 0 := by
    have : a.length ≠ 0 := fun h => ha (List.length_eq_zero.1 h)
    exact_mod_cast this
  rw [h, jaroValue_self _ hla]

theorem jaroWinklerDistance_binary64_martha :
    jaroWinklerDistance binary64 ['M', 'A', 'R', 'T', 'H', 'A'] ['M', 'A', 'R', 'H', 'T', 'A']
      = some (8656919283723287 / 2 ^ 53) := by
  have k1 : binary64 (7 / 10) = 6305039478318694 / 2 ^ 53 := by
    rw [binary64_eq _ (-1) 6305039478318694 (by norm_num) (by norm_num) (by norm_num [abs_lt])]
    norm_num
  have k2 : binary64 (1 / 10) = 7205759403792794 / 2 ^ 56 := by
    rw [binary64_eq _ (-4) 7205759403792794 (by norm_num) (by norm_num) (by norm_num [abs_lt])]
    norm_num
  have k3 : binary64 (7205759403792794 / 2 ^ 56 * 3) = 5404319552844596 / 2 ^ 54 := by
    rw [binary64_tie_odd _ (-2) 5404319552844595 (by norm_num) (by norm_num) (by norm_num) (by decide)]
    norm_num
  have k4 : binary64 (1 - 8506799296144270 / 2 ^ 53) = 8006399337547552 / 2 ^ 57 := by
    rw [binary64_eq _ (-5) 8006399337547552 (by norm_num) (by norm_num) (by norm_num [abs_lt])]
    norm_num
  have k5 : binary64 (5404319552844596 / 2 ^ 54 * (8006399337547552 / 2 ^ 57)) = 4803839602528532 / 2 ^ 58 := by
    rw [binary64_eq _ (-6) 4803839602528532 (by norm_num) (by norm_num) (by norm_num [abs_lt])]
    norm_num
  have k6 : binary64 (8506799296144270 / 2 ^ 53 + 4803839602528532 / 2 ^ 58) = 8656919283723287 / 2 ^ 53 := by
    rw [binary64_eq _ (-1) 8656919283723287 (by norm_num) (by norm_num) (by norm_num [abs_lt])]
    norm_num

  have hlcp : min JARO_WINKLER_PREFIX_SIZE (commonPrefixLength ['M', 'A', 'R', 'T', 'H', 'A'] ['M', 'A', 'R', 'H', 'T', 'A']) = 3 := by decide
  rw [jaroWinklerDistance_eq binary64 _ _ _ jaroDistance_binary64_martha, hlcp]
  unfold JARO_WINKLER_BOOST_THRESHOLD JARO_WINKLER_SCALING_FACTOR
  rw [k1, if_pos (by norm_num)]
  simp only [Int.cast_ofNat, Nat.cast_ofNat, Int.cast_natCast, k2, k3, k4, k5, k6]

theorem jaroWinklerDistance_binary64_25 :
    jaroWinklerDistance binary64 (List.replicate 25 (0 : Nat)) (List.replicate 25 (0 : Nat))
      = some (9007199254740991 / 2 ^ 53) := by
  have k1 : binary64 (7 / 10) = 6305039478318694 / 2 ^ 53 := by
    rw [binary64_eq _ (-1) 6305039478318694 (by norm_num) (by norm_num) (by norm_num [abs_lt])]
    norm_num
  have k2 : binary64 (1 / 10) = 7205759403792794 / 2 ^ 56 := by
    rw [binary64_eq _ (-4) 7205759403792794 (by norm_num) (by norm_num) (by norm_num [abs_lt])]
    norm_num
  have k3 : binary64 (7205759403792794 / 2 ^ 56 * 4) = 7205759403792794 / 2 ^ 54 := by
    rw [binary64_eq _ (-2) 7205759403792794 (by norm_num) (by norm_num) (by norm_num [abs_lt])]
    norm_num
  have k4 : binary64 (1 - (1 - 1 / 2 ^ 52)) = 4503599627370496 / 2 ^ 104 := by
    rw [binary64_eq _ (-52) 4503599627370496 (by norm_num) (by norm_num) (by norm_num [abs_lt])]
    norm_num
  have k5 : binary64 (7205759403792794 / 2 ^ 54 * (4503599627370496 / 2 ^ 104)) = 7205759403792794 / 2 ^ 106 := by
    rw [binary64_eq _ (-54) 7205759403792794 (by norm_num) (by norm_num) (by norm_num [abs_lt])]
    norm_num
  have k6 : binary64 (1 - 1 / 2 ^ 52 + 7205759403792794 / 2 ^ 106) = 9007199254740991 / 2 ^ 53 := by
    rw [binary64_eq _ (-1) 9007199254740991 (by norm_num) (by norm_num) (by norm_num [abs_lt])]
    norm_num

  have hlcp : min JARO_WINKLER_PREFIX_SIZE (commonPrefixLength (List.replicate 25 (0 : Nat)) (List.replicate 25 (0 : Nat))) = 4 := by decide
  rw [jaroWinklerDistance_eq binary64 _ _ _ jaroDistance_binary64_25, hlcp]
  unfold JARO_WINKLER_BOOST_THRESHOLD JARO_WINKLER_SCALING_FACTOR
  rw [k1, if_pos (by norm_num)]
  simp only [Int.cast_ofNat, Nat.cast_ofNat, Int.cast_natCast, k2, k3, k4, k5, k6]

/-! ## The lockstep walk -/

theorem transpositionLoop_mono (a b : List α) (p q : List Int) :
    ∀ (n : Nat) (index t t0 : Int),
      transpositionLoop a b p q n index t = some t0 → t ≤ t0 := by
  intro n
  induction n with
  | zero =>
    intro index t t0 h
    simp only [transpositionLoop, Option.some.injEq] at h
    omega
  | succ n ih =>
    intro index t t0 h
    rw [transpositionLoop] at h
    simp only [Option.bind_eq_bind] at h
    cases hp : checkedAt p index with
    | none => simp [hp] at h
    | some i =>
      cases hx : checkedAt a i with
      | none => simp [hp, hx] at h
      | some x =>
        cases hq : checkedAt q index with
        | none => simp [hp, hx, hq] at h
        | some j =>
          cases hy : checkedAt b j with
          | none => simp [hp, hx, hq, hy] at h
          | some y =>
            simp only [hp, hx, hq, hy, Option.some_bind] at h
            have := ih _ _ _ h
            split_ifs at this <;> omega

theorem transpositionLoop_agree (a b : List α) (p q : List Int) :
    ∀ (n index : Nat) (t t0 : Int),
      (∀ k, index ≤ k → ¬ MismatchAt a b p q k) →
      transpositionLoop a b p q n (index : Int) t = some t0 → t0 = t := by
  intro n
  induction n with
  | zero =>
    intro index t t0 _ h
    simp only [transpositionLoop, Option.some.injEq] at h
    omega
  | succ n ih =>
    intro index t t0 hno h
    have hcast : ((index : Int) + 1) = ((index + 1 : Nat) : Int) := by push_cast; rfl
    rw [transpositionLoop, checkedAt_natCast, checkedAt_natCast, hcast] at h
    simp only [Option.bind_eq_bind] at h
    cases hp : p[index]? with
    | none => simp [hp] at h
    | some i =>
      cases hx : checkedAt a i with
      | none => simp [hp, hx] at h
      | some x =>
        cases hq : q[index]? with
        | none => simp [hp, hx, hq] at h
        | some j =>
          cases hy : checkedAt b j with
          | none => simp [hp, hx, hq, hy] at h
          | some y =>
            simp only [hp, hx, hq, hy, Option.some_bind] at h
            have hxy : x = y := by
              by_contra hne
              exact hno index (le_refl _) ⟨i, j, x, y, hp, hq, hx, hy, hne⟩
            rw [if_neg (by simpa using hxy)] at h
            exact ih (index + 1) t t0 (fun k hk => hno k (by omega)) h

theorem transpositionLoop_one (a b : List α) (p q : List Int) :
    ∀ (n index : Nat) (t t0 : Int) (k : Nat), index ≤ k → k < index + n →
      MismatchAt a b p q k →
      transpositionLoop a b p q n (index : Int) t = some t0 → t + 1 ≤ t0 := by
  intro n
  induction n with
  | zero => intro index t t0 k h1 h2; omega
  | succ n ih =>
    intro index t t0 k h1 h2 hk h
    have hcast : ((index : Int) + 1) = ((index + 1 : Nat) : Int) := by push_cast; rfl
    rw [transpositionLoop, checkedAt_natCast, checkedAt_natCast, hcast] at h
    simp only [Option.bind_eq_bind] at h
    cases hp : p[index]? with
    | none => simp [hp] at h
    | some i =>
      cases hx : checkedAt a i with
      | none => simp [hp, hx] at h
      | some x =>
        cases hq : q[index]? with
        | none => simp [hp, hx, hq] at h
        | some j =>
          cases hy : checkedAt b j with
          | none => simp [hp, hx, hq, hy] at h
          | some y =>
            simp only [hp, hx, hq, hy, Option.some_bind] at h
            rcases Nat.eq_or_lt_of_le h1 with he | hlt
            · subst he
              obtain ⟨i0, j0, x0, y0, hp0, hq0, hx0, hy0, hne⟩ := hk
              rw [hp] at hp0; cases hp0
              rw [hq] at hq0; cases hq0
              rw [hx] at hx0; cases hx0
              rw [hy] at hy0; cases hy0
              rw [if_pos (by simpa using hne)] at h
              exact transpositionLoop_mono a b p q _ _ _ _ h
            · have := ih (index + 1) _ t0 k (by omega) (by omega) hk h
              split_ifs at this <;> omega

theorem transpositionLoop_two (a b : List α) (p q : List Int) :
    ∀ (n index : Nat) (t t0 : Int) (k1 k2 : Nat), index ≤ k1 → k1 < k2 → k2 < index + n →
      MismatchAt a b p q k1 → MismatchAt a b p q k2 →
      transpositionLoop a b p q n (index : Int) t = some t0 → t + 2 ≤ t0 := by
  intro n
  induction n with
  | zero => intro index t t0 k1 k2 h1 h2 h3; omega
  | succ n ih =>
    intro index t t0 k1 k2 h1 h2 h3 hk1 hk2 h
    have hcast : ((index : Int) + 1) = ((index + 1 : Nat) : Int) := by push_cast; rfl
    have h0 := h
    rw [transpositionLoop, checkedAt_natCast, checkedAt_natCast, hcast] at h
    simp only [Option.bind_eq_bind] at h
    cases hp : p[index]? with
    | none => simp [hp] at h
    | some i =>
      cases hx : checkedAt a i with
      | none => simp [hp, hx] at h
      | some x =>
        cases hq : q[index]? with
        | none => simp [hp, hx, hq] at h
        | some j =>
          cases hy : checkedAt b j with
          | none => simp [hp, hx, hq, hy] at h
          | some y =>
            simp only [hp, hx, hq, hy, Option.some_bind] at h
            rcases Nat.eq_or_lt_of_le h1 with he | hlt
            · subst he
              obtain ⟨i0, j0, x0, y0, hp0, hq0, hx0, hy0, hne⟩ := hk1
              rw [hp] at hp0; cases hp0
              rw [hq] at hq0; cases hq0
              rw [hx] at hx0; cases hx0
              rw [hy] at hy0; cases hy0
              rw [if_pos (by simpa using hne)] at h
              have := transpositionLoop_one a b p q n (index + 1) (t + 1) t0 k2 (by omega)
                (by omega) hk2 h
              omega
            · have := ih (index + 1) _ t0 k1 k2 (by omega) h2 (by omega) hk1 hk2 h
              split_ifs at this <;> omega

/-- For masks of the two `int` lengths, the transposition scan is the lockstep
walk over the positions of the `true` entries of the two masks. -/
theorem transpositionScan_walk (a b : List α) (s : MatchState)
    (hal : s.aMatch.length = (castInt a.length).toNat)
    (hbl : s.bMatch.length = (castInt b.length).toNat)
    (hac : s.matchingCharacters = s.aMatch.count true)
    (hbc : s.matchingCharacters = s.bMatch.count true) (t : Transpositions)
    (ht : transpositionScan a b s = some t) :
    t.aPosition = maskPositions s.aMatch 0 ∧ t.bPosition = maskPositions s.bMatch 0 ∧
      transpositionLoop a b (maskPositions s.aMatch 0) (maskPositions s.bMatch 0)
        s.matchingCharacters.toNat ((0 : Nat) : Int) 0 = some t.transpositions := by
  have hp := positionLoop_mask s.aMatch s.matchingCharacters hac
  have hq := positionLoop_mask s.bMatch s.matchingCharacters hbc
  rw [hal] at hp
  rw [hbl] at hq
  unfold transpositionScan at ht
  rw [hp, hq] at ht
  simp only [Option.bind_eq_bind, Option.some_bind] at ht
  cases hl : transpositionLoop a b (maskPositions s.aMatch 0) (maskPositions s.bMatch 0)
      s.matchingCharacters.toNat 0 0 with
  | none => simp [hl] at ht
  | some t0 =>
    simp only [hl, Option.some_bind, Option.some.injEq] at ht
    subst ht
    exact ⟨rfl, rfl, rfl⟩

/-- After the matching scan, the transposition scan is the lockstep walk over
the positions of the `true` entries of the two masks. -/
theorem transpositionScan_loop (a b : List α) (R : Nat) {k : Nat} (s : MatchState)
    (P : Nat → Nat → Prop) (inv : ScanInv a b R k s P) (hla : a.length < 2147483648)
    (hlb : b.length < 2147483648) (t : Transpositions)
    (ht : transpositionScan a b s = some t) :
    t.aPosition = maskPositions s.aMatch 0 ∧ t.bPosition = maskPositions s.bMatch 0 ∧
      transpositionLoop a b (maskPositions s.aMatch 0) (maskPositions s.bMatch 0)
        s.matchingCharacters.toNat ((0 : Nat) : Int) 0 = some t.transpositions :=
  transpositionScan_walk a b s (by rw [inv.aLen, castInt_eq _ hla, Int.toNat_ofNat])
    (by rw [inv.bLen, castInt_eq _ hlb, Int.toNat_ofNat]) inv.aCount inv.bCount t ht

/-- Whatever the sizes, once the matching scan has returned the transposition
scan returns too: the position lists are the indices of the `true` entries of
the masks, and the transposition count lies between zero and the number of
matches. -/
theorem transpositionScan_sound (a b : List α) (s : MatchState)
    (hs : matchScan a b = some s) :
    ∃ t : Int, transpositionScan a b s
        = some ⟨maskPositions s.aMatch 0, maskPositions s.bMatch 0, t⟩ ∧
      0 ≤ t ∧ t ≤ s.matchingCharacters := by
  obtain ⟨hA, hB, P, k, _, inv⟩ := matchScan_sound a b s hs
  obtain ⟨t, ht, h0, h1⟩ := transpositionScan_spec _ _ _ s P inv (length_take_lt a)
    (length_take_lt b)
  refine ⟨t, ?_, h0, h1⟩
  rw [transpositionScan_take a b hA hB s (by rw [inv.aLen, length_take_castInt])
    (by rw [inv.bLen, length_take_castInt]) inv.aCount inv.bCount]
  exact ht

/-- Whatever the sizes, the masks the matching scan returns have the two `int`
lengths, both positive when something matched. -/
theorem matchScan_lengths (a b : List α) (s : MatchState) (hs : matchScan a b = some s) :
    s.aMatch.length = (castInt a.length).toNat ∧
      s.bMatch.length = (castInt b.length).toNat ∧
      s.matchingCharacters = s.aMatch.count true ∧
      s.matchingCharacters = s.bMatch.count true ∧
      0 ≤ s.matchingCharacters ∧
      s.matchingCharacters ≤ castInt a.length ∧ s.matchingCharacters ≤ castInt b.length := by
  obtain ⟨hA, hB, P, k, _, inv⟩ := matchScan_sound a b s hs
  have h1 : s.aMatch.length = (castInt a.length).toNat := by
    rw [inv.aLen, length_take_castInt]
  have h2 : s.bMatch.length = (castInt b.length).toNat := by
    rw [inv.bLen, length_take_castInt]
  have h3 := count_true_le s.aMatch
  have h4 := count_true_le s.bMatch
  refine ⟨h1, h2, inv.aCount, inv.bCount, ?_, ?_, ?_⟩
  · rw [inv.aCount]; omega
  · rw [inv.aCount]; omega
  · rw [inv.bCount]; omega

/-- What `jaroDistance` returns once both scans have returned and something
matched, whatever the sizes. -/
theorem jaroDistance_of_scans (fl : ℚ → ℚ) (a b : List α) (s : MatchState)
    (t : Transpositions) (hs : matchScan a b = some s) (hm : s.matchingCharacters ≠ 0)
    (ht : transpositionScan a b s = some t) :
    jaroDistance fl a b
      = some (jaroValue fl (castInt a.length) (castInt b.length) s.matchingCharacters
          t.transpositions) := by
  obtain ⟨_, _, _, _, h0, hA, hB⟩ := matchScan_lengths a b s hs
  have hla0 : castInt a.length ≠ 0 := by omega
  have hlb0 : castInt b.length ≠ 0 := by omega
  have hqa : ((castInt a.length : Int) : ℚ) ≠ 0 := by exact_mod_cast hla0
  have hqb : ((castInt b.length : Int) : ℚ) ≠ 0 := by exact_mod_cast hlb0
  unfold jaroDistance
  simp [hla0, hlb0, hs, hm, ht, divide, jaroValue]

/-! ## Literal values -/

/-- C12. Literal Jaro values: for `MARTHA` against `MARHTA` the scan gives
`m = 6`, `t = 2` and `jaroDistance` is `17/18` in exact arithmetic; for `DIXON`
against `DICKSONX` it gives `m = 4`, `t = 0` and `23/30`.  The doubles returned
in binary64 arithmetic are `0.944` and `0.767` to three decimals. -/
theorem literal_jaro_values :
    (∃ s t, matchScan ['M', 'A', 'R', 'T', 'H', 'A'] ['M', 'A', 'R', 'H', 'T', 'A'] = some s ∧
        transpositionScan ['M', 'A', 'R', 'T', 'H', 'A'] ['M', 'A', 'R', 'H', 'T', 'A'] s
          = some t ∧
        s.matchingCharacters = 6 ∧ t.transpositions = 2) ∧
      jaroDistance exact ['M', 'A', 'R', 'T', 'H', 'A'] ['M', 'A', 'R', 'H', 'T', 'A']
        = some (17 / 18) ∧
      (∃ v, jaroDistance binary64 ['M', 'A', 'R', 'T', 'H', 'A'] ['M', 'A', 'R', 'H', 'T', 'A']
          = some v ∧ |v - 944 / 1000| < 1 / 2000) ∧
      (∃ s t, matchScan ['D', 'I', 'X', 'O', 'N'] ['D', 'I', 'C', 'K', 'S', 'O', 'N', 'X']
          = some s ∧
        transpositionScan ['D', 'I', 'X', 'O', 'N'] ['D', 'I', 'C', 'K', 'S', 'O', 'N', 'X'] s
          = some t ∧
        s.matchingCharacters = 4 ∧ t.transpositions = 0) ∧
      jaroDistance exact ['D', 'I', 'X', 'O', 'N'] ['D', 'I', 'C', 'K', 'S', 'O', 'N', 'X']
        = some (23 / 30) ∧
      (∃ v, jaroDistance binary64 ['D', 'I', 'X', 'O', 'N']
          ['D', 'I', 'C', 'K', 'S', 'O', 'N', 'X'] = some v ∧ |v - 767 / 1000| < 1 / 2000) := by
  refine ⟨⟨_, _, scan_martha.1, scan_martha.2, rfl, rfl⟩, jaroDistance_martha,
    ⟨_, jaroDistance_binary64_martha, ?_⟩,
    ⟨_, _, scan_dixon.1, scan_dixon.2, rfl, rfl⟩, jaroDistance_exact_dixon,
    ⟨_, jaroDistance_binary64_dixon, ?_⟩⟩
  · rw [abs_lt]; constructor <;> norm_num
  · rw [abs_lt]; constructor <;> norm_num

/-- C13. Literal Jaro-Winkler value: for `MARTHA` against `MARHTA` the common
prefix has length `3` and `jaroWinklerDistance` is `173/180` in exact
arithmetic (from `d = 17/18`); the double returned in binary64 arithmetic is
`0.961` to three decimals. -/
theorem literal_jaroWinkler_value :
    commonPrefixLength ['M', 'A', 'R', 'T', 'H', 'A'] ['M', 'A', 'R', 'H', 'T', 'A'] = 3 ∧
      jaroWinklerDistance exact ['M', 'A', 'R', 'T', 'H', 'A'] ['M', 'A', 'R', 'H', 'T', 'A']
        = some (173 / 180) ∧
      (∃ v, jaroWinklerDistance binary64 ['M', 'A', 'R', 'T', 'H', 'A']
          ['M', 'A', 'R', 'H', 'T', 'A'] = some v ∧ |v - 961 / 1000| < 1 / 2000) := by
  refine ⟨by decide, ?_, ⟨_, jaroWinklerDistance_binary64_martha, ?_⟩⟩
  · have hlcp : min JARO_WINKLER_PREFIX_SIZE
        (commonPrefixLength ['M', 'A', 'R', 'T', 'H', 'A'] ['M', 'A', 'R', 'H', 'T', 'A'])
        = 3 := by decide
    rw [jaroWinklerDistance_exact _ _ _ jaroDistance_martha, hlcp]
    norm_num [JARO_WINKLER_BOOST_THRESHOLD, JARO_WINKLER_SCALING_FACTOR]
  · rw [abs_lt]; constructor <;> norm_num

/-! ## Halving the transposition count -/

/-- The Jaro value in exact arithmetic, written out. -/
theorem jaroValue_exact (aLength bLength m t : Int) :
    jaroValue exact aLength bLength m t
      = 1 / 3 * (m : ℚ) / aLength + 1 / 3 * (m : ℚ) / bLength
        + 1 / 3 * ((m - t.tdiv 2 : Int) : ℚ) / m := rfl

/-- C16. Integer-division halving on odd counts: when the lockstep mismatch
count `t` is odd, `jaroDistance` (exact arithmetic) is
`(m/lenA + m/lenB + (m - (t - 1)/2)/m) / 3`, which uses `floor(t / 2)` and
differs from the value `(m/lenA + m/lenB + (m - t/2)/m) / 3` of a real-valued
halving; `lenA` and `lenB` are the two `int` lengths of lines 27-28. -/
theorem odd_transpositions_floor (a b : List α) (s : MatchState) (t : Transpositions)
    (_ha : a ≠ []) (_hb : b ≠ []) (hs : matchScan a b = some s)
    (hm : s.matchingCharacters ≠ 0) (ht : transpositionScan a b s = some t)
    (hodd : t.transpositions % 2 = 1) :
    jaroDistance exact a b
        = some (((s.matchingCharacters : ℚ) / castInt a.length
            + (s.matchingCharacters : ℚ) / castInt b.length
            + ((s.matchingCharacters : ℚ) - ((t.transpositions : ℚ) - 1) / 2)
              / s.matchingCharacters) / 3) ∧
      ((s.matchingCharacters : ℚ) / castInt a.length
            + (s.matchingCharacters : ℚ) / castInt b.length
            + ((s.matchingCharacters : ℚ) - ((t.transpositions : ℚ) - 1) / 2)
              / s.matchingCharacters) / 3
        ≠ ((s.matchingCharacters : ℚ) / castInt a.length
            + (s.matchingCharacters : ℚ) / castInt b.length
            + ((s.matchingCharacters : ℚ) - (t.transpositions : ℚ) / 2)
              / s.matchingCharacters) / 3 := by
  have hmq : (s.matchingCharacters : ℚ) ≠ 0 := by exact_mod_cast hm
  obtain ⟨t0, ht0, hnn, _⟩ := transpositionScan_sound a b s hs
  have hte : t = ⟨maskPositions s.aMatch 0, maskPositions s.bMatch 0, t0⟩ :=
    Option.some.inj (ht.symm.trans ht0)
  have hnonneg : 0 ≤ t.transpositions := by rw [hte]; exact hnn
  have hhalf : ((t.transpositions.tdiv 2 : Int) : ℚ) = ((t.transpositions : ℚ) - 1) / 2 := by
    have h1 : t.transpositions.tdiv 2 = t.transpositions / 2 :=
      Int.tdiv_eq_ediv hnonneg (by omega)
    have h2 : t.transpositions = 2 * (t.transpositions / 2) + 1 := by omega
    rw [h1]
    have h3 : (t.transpositions : ℚ) = 2 * ((t.transpositions / 2 : Int) : ℚ) + 1 := by
      exact_mod_cast h2
    rw [h3]
    ring_nf
  constructor
  · rw [jaroDistance_of_scans exact a b s t hs hm ht]
    refine congrArg some ?_
    rw [jaroValue_exact]
    push_cast
    rw [hhalf]
    ring
  · intro h
    have h2 : ((s.matchingCharacters : ℚ) - ((t.transpositions : ℚ) - 1) / 2)
        / s.matchingCharacters
        = ((s.matchingCharacters : ℚ) - (t.transpositions : ℚ) / 2) / s.matchingCharacters := by
      linarith
    rw [div_left_inj' hmq] at h2
    linarith

/-- C16, at `ABCxyz` against `BCAuvw`: `m = 3`, `t = 3`, and `jaroDistance` is
`(3/6 + 3/6 + (3 - 1)/3) / 3 = 5/9`, not `(3/6 + 3/6 + (3 - 3/2)/3) / 3 = 1/2`. -/
theorem odd_transpositions_floor_witness :
    (['A', 'B', 'C', 'x', 'y', 'z'] ≠ [] ∧ ['B', 'C', 'A', 'u', 'v', 'w'] ≠ [] ∧
      matchScan ['A', 'B', 'C', 'x', 'y', 'z'] ['B', 'C', 'A', 'u', 'v', 'w']
        = some ⟨[true, true, true, false, false, false],
            [true, true, true, false, false, false], 3⟩ ∧
      (3 : Int) ≠ 0 ∧
      transpositionScan ['A', 'B', 'C', 'x', 'y', 'z'] ['B', 'C', 'A', 'u', 'v', 'w']
          ⟨[true, true, true, false, false, false],
            [true, true, true, false, false, false], 3⟩
        = some ⟨[0, 1, 2], [0, 1, 2], 3⟩ ∧
      (3 : Int) % 2 = 1) ∧
    jaroDistance exact ['A', 'B', 'C', 'x', 'y', 'z'] ['B', 'C', 'A', 'u', 'v', 'w']
      = some (5 / 9) ∧
    ((3 : ℚ) / 6 + 3 / 6 + (3 - 1) / 3) / 3 = 5 / 9 ∧
    ((3 : ℚ) / 6 + 3 / 6 + (3 - 3 / 2) / 3) / 3 = 1 / 2 := by
  refine ⟨⟨by decide, by decide, scan_abc.1, by decide, scan_abc.2, by decide⟩, ?_,
    by norm_num, by norm_num⟩
  rw [(odd_transpositions_floor _ _ _ _ (by decide) (by decide) scan_abc.1 (by decide)
    scan_abc.2 (by decide)).1]
  have h6 : castInt (['A', 'B', 'C', 'x', 'y', 'z'] : List Char).length = 6 := castInt_eq 6 (by decide)
  have h6b : castInt (['B', 'C', 'A', 'u', 'v', 'w'] : List Char).length = 6 := castInt_eq 6 (by decide)
  rw [h6, h6b]
  norm_num

/-! ## Jaro-Winkler: symmetry and identity -/

theorem commonPrefixLoop_swap (a b : List α) :
    ∀ (n : Nat) (index common : Int),
      commonPrefixLoop a b n index common = commonPrefixLoop b a n index common := by
  intro n
  induction n with
  | zero => intro index common; rfl
  | succ n ih =>
    intro index common
    rw [commonPrefixLoop, commonPrefixLoop]
    simp only [Option.bind_eq_bind]
    cases hx : checkedAt a index with
    | none => cases hy : checkedAt b index <;> simp
    | some x =>
      cases hy : checkedAt b index with
      | none => simp
      | some y =>
        simp only [Option.some_bind]
        by_cases hxy : x = y
        · subst hxy
          simp only [if_true]
          exact ih _ _
        · have : ¬ y = x := fun h => hxy h.symm
          simp [hxy, this]

/-- Within the `int` range, exchanging the two sequences does not change what
`jaroWinklerDistance` returns, however `double` operations round. -/
theorem jaroWinklerDistance_comm (fl : ℚ → ℚ) (a b : List α) (hab : InRange a b)
    (hba : InRange b a) : jaroWinklerDistance fl a b = jaroWinklerDistance fl b a := by
  unfold jaroWinklerDistance
  rw [jaroDistance_comm fl a b hab hba, min_comm a.length b.length]
  simp only [commonPrefixLoop_swap a b]

/-- C19, as the code has it. Jaro-Winkler identity: for every non-empty sequence
`a` of a size `n` with `n + n / 2 ≤ 2^31` (no `int` of the scan leaves its
range), `jaroWinklerDistance a a` is `1` when no `double` operation rounds, and
in binary64 arithmetic it returns a double between `1 - 2⁻⁵²` and `1.0`. -/
theorem jaroWinklerDistance_self (a : List α) (ha : a ≠ [])
    (hr : a.length + a.length / 2 ≤ 2147483648) :
    jaroWinklerDistance exact a a = some 1 ∧
      ∃ e, jaroWinklerDistance binary64 a a = some e ∧ 1 - 1 / 2 ^ 52 ≤ e ∧ e ≤ 1 := by
  have hin := inRange_self a hr
  have hx := jaroDistance_exact_self a ha hin
  constructor
  · rw [jaroWinklerDistance_exact a a 1 hx]
    split_ifs <;> norm_num
  · obtain ⟨_, _, _, _, _, _, hb⟩ := jaroDistance_self_value binary64 a ha hin
    obtain ⟨e, he, _, hde, he1⟩ := scores_binary64 a a _ hb
    have hla0 : a.length ≠ 0 := fun h => ha (List.length_eq_zero.1 h)
    have hl1 : (1 : Int) ≤ a.length := by omega
    have hl2 : (a.length : Int) < 2 ^ 31 := by
      have := hin.1
      norm_num
      exact_mod_cast this
    refine ⟨e, he, ?_, he1⟩
    rcases jaroValue_binary64_self _ hl1 hl2 with h1 | h1
    · rw [h1] at hde
      linarith
    · rw [h1] at hde
      exact hde

/-- C19, as the code has it, at the three-symbol sequence `1, 2, 3`. -/
theorem jaroWinklerDistance_self_witness :
    ([1, 2, 3] : List Nat) ≠ [] ∧
      ([1, 2, 3] : List Nat).length + ([1, 2, 3] : List Nat).length / 2 ≤ 2147483648 ∧
      jaroWinklerDistance exact ([1, 2, 3] : List Nat) [1, 2, 3] = some 1 ∧
      ∃ e, jaroWinklerDistance binary64 ([1, 2, 3] : List Nat) [1, 2, 3] = some e ∧
        1 - 1 / 2 ^ 52 ≤ e ∧ e ≤ 1 :=
  ⟨by decide, by decide, jaroWinklerDistance_self _ (by decide) (by decide)⟩

/-- A sequence whose size is `2^32` has the `int` length zero, and
`jaroWinklerDistance` returns the `0` of `jaroDistance`. -/
theorem jaroWinklerDistance_size_two_pow_32 (a b : List α) (h : a.length = 4294967296) :
    jaroWinklerDistance exact a b = some 0 ∧ jaroWinklerDistance binary64 a b = some 0 := by
  constructor
  · rw [jaroWinklerDistance_eq _ a b 0 (jaroDistance_size_two_pow_32 _ a b h),
      if_neg threshold_nonneg_exact]
  · rw [jaroWinklerDistance_eq _ a b 0 (jaroDistance_size_two_pow_32 _ a b h),
      if_neg threshold_nonneg_binary64]

/-- C19 fails as stated. For a sequence of 25 equal symbols, `jaroDistance` in
binary64 arithmetic is `1 - 2⁻⁵²`, and `jaroWinklerDistance` returns
`1 - 2⁻⁵³`, the double just below `1.0`, not `1.0`; for a sequence of `2^32`
equal symbols `jaroWinklerDistance` returns `0`, as for an empty sequence. -/
theorem jaroWinklerDistance_self_binary64_25 :
    List.replicate 25 (0 : Nat) ≠ [] ∧
      jaroWinklerDistance binary64 (List.replicate 25 (0 : Nat)) (List.replicate 25 0)
        = some (1 - 1 / 2 ^ 53) ∧
      jaroWinklerDistance binary64 (List.replicate 25 (0 : Nat)) (List.replicate 25 0)
        ≠ some 1 ∧
      jaroWinklerDistance exact (List.replicate 4294967296 (0 : Nat))
        (List.replicate 4294967296 0) = some 0 ∧
      jaroWinklerDistance binary64 (List.replicate 4294967296 (0 : Nat))
        (List.replicate 4294967296 0) = some 0 := by
  have hv : jaroWinklerDistance binary64 (List.replicate 25 (0 : Nat)) (List.replicate 25 0)
      = some (1 - 1 / 2 ^ 53) := by
    rw [jaroWinklerDistance_binary64_25]
    norm_num
  refine ⟨by decide, hv, ?_,
    (jaroWinklerDistance_size_two_pow_32 _ _ (List.length_replicate _ _)).1,
    (jaroWinklerDistance_size_two_pow_32 _ _ (List.length_replicate _ _)).2⟩
  rw [hv]
  norm_num

/-! ## Early exit of the scan -/

theorem window_empty_mono (R B : Int) (hR0 : 0 ≤ R) (hR1 : R < 1073741824) (i j : Nat)
    (h : max ((i : Int) - R) 0 ≥ min (wrapInt ((i : Int) + R + 1)) B)
    (hij : i ≤ j) (hj : j < 2147483648) :
    max ((j : Int) - R) 0 ≥ min (wrapInt ((j : Int) + R + 1)) B := by
  unfold wrapInt at *
  omega

theorem matchLoopContinue_empty (a b : List α) (R B : Int) (hR0 : 0 ≤ R)
    (hR1 : R < 1073741824) :
    ∀ (n i : Nat) (s : MatchState), i + n ≤ 2147483647 →
      max ((i : Int) - R) 0 ≥ min (wrapInt ((i : Int) + R + 1)) B →
      matchLoopContinue a b R B n (i : Int) s = some s := by
  intro n
  induction n with
  | zero => intro i s _ _; rfl
  | succ n ih =>
    intro i s hn h
    have hcast : ((i : Int) + 1) = ((i + 1 : Nat) : Int) := by push_cast; rfl
    rw [matchLoopContinue]
    simp only [h, if_true, hcast]
    exact ih (i + 1) s (by omega)
      (window_empty_mono R B hR0 hR1 i (i + 1) h (by omega) (by omega))

theorem matchLoopContinue_eq (a b : List α) (R B : Int) (hR0 : 0 ≤ R)
    (hR1 : R < 1073741824) :
    ∀ (n i : Nat) (s : MatchState), i + n ≤ 2147483647 →
      matchLoopContinue a b R B n (i : Int) s = matchLoop a b R B n (i : Int) s := by
  intro n
  induction n with
  | zero => intro i s _; rfl
  | succ n ih =>
    intro i s hn
    have hcast : ((i : Int) + 1) = ((i + 1 : Nat) : Int) := by push_cast; rfl
    rw [matchLoopContinue, matchLoop]
    by_cases h : max ((i : Int) - R) 0 ≥ min (wrapInt ((i : Int) + R + 1)) B
    · simp only [h, if_true, hcast]
      exact matchLoopContinue_empty a b R B hR0 hR1 n (i + 1) s (by omega)
        (window_empty_mono R B hR0 hR1 i (i + 1) h (by omega) (by omega))
    · simp only [h, if_false, hcast]
      cases windowLoop a b (i : Int)
          (min (wrapInt ((i : Int) + R + 1)) B - max ((i : Int) - R) 0).toNat
          (max ((i : Int) - R) 0) s with
      | none => rfl
      | some s0 =>
        simp only [Option.bind_eq_bind, Option.some_bind]
        exact ih (i + 1) s0 (by omega)

/-- C14. Early exit is sound: once the window
`[max(i - maxRange, 0), min(i + maxRange + 1, lenB))` the code computes is empty
for an index `i` of `a` it is empty for every larger index of `a`, and the
scan with `break` returns the same masks and the same count as the scan that
`continue`s over every index of `a`, for sequences of any size. -/
theorem early_exit_sound (a b : List α) :
    (∀ i j : Nat, i ≤ j → (j : Int) < castInt a.length →
      max ((i : Int) - maxRange a b) 0
        ≥ min (wrapInt ((i : Int) + maxRange a b + 1)) (castInt b.length) →
      max ((j : Int) - maxRange a b) 0
        ≥ min (wrapInt ((j : Int) + maxRange a b + 1)) (castInt b.length)) ∧
    matchScan a b = matchScanContinue a b := by
  have hA := castInt_lt a.length
  constructor
  · intro i j hij hj h
    exact window_empty_mono _ _ (maxRange_nonneg a b) (maxRange_lt a b) i j h hij (by omega)
  · unfold matchScan matchScanContinue
    simp only
    split_ifs
    · rfl
    · have h0 : ((0 : Nat) : Int) = 0 := rfl
      rw [← h0]
      exact (matchLoopContinue_eq a b _ _ (maxRange_nonneg a b) (maxRange_lt a b) _ 0 _
        (by omega)).symm

/-- C14, at `abcdef` against `a`: the window half-width is two, the window is
empty from index three on, and both scans return the same state. -/
theorem early_exit_sound_witness :
    (3 : Nat) ≤ 5 ∧
      ((5 : Nat) : Int) < castInt (['a', 'b', 'c', 'd', 'e', 'f'] : List Char).length ∧
      max (((3 : Nat) : Int) - maxRange ['a', 'b', 'c', 'd', 'e', 'f'] ['a']) 0
        ≥ min (wrapInt (((3 : Nat) : Int) + maxRange ['a', 'b', 'c', 'd', 'e', 'f'] ['a'] + 1))
            (castInt (['a'] : List Char).length) ∧
      max (((5 : Nat) : Int) - maxRange ['a', 'b', 'c', 'd', 'e', 'f'] ['a']) 0
        ≥ min (wrapInt (((5 : Nat) : Int) + maxRange ['a', 'b', 'c', 'd', 'e', 'f'] ['a'] + 1))
            (castInt (['a'] : List Char).length) ∧
      matchScan ['a', 'b', 'c', 'd', 'e', 'f'] ['a']
        = matchScanContinue ['a', 'b', 'c', 'd', 'e', 'f'] ['a'] :=
  ⟨by decide, by decide, by decide,
    (early_exit_sound ['a', 'b', 'c', 'd', 'e', 'f'] ['a']).1 3 5 (by decide) (by decide)
      (by decide),
    (early_exit_sound ['a', 'b', 'c', 'd', 'e', 'f'] ['a']).2⟩

/-! ## The position lists -/

theorem maskPositions_mem (mask : List Bool) (start : Nat) (p : Int) :
    p ∈ maskPositions mask start ↔
      ∃ k : Nat, p = ((start + k : Nat) : Int) ∧ mask[k]? = some true := by
  induction mask generalizing start with
  | nil => simp [maskPositions]
  | cons c mask ih =>
    have hshift : (∃ k : Nat, p = ((start + 1 + k : Nat) : Int) ∧ mask[k]? = some true) ↔
        ∃ k : Nat, p = ((start + (k + 1) : Nat) : Int) ∧ mask[k]? = some true := by
      constructor
      · rintro ⟨k, h1, h2⟩; exact ⟨k, by rw [h1]; congr 1; omega, h2⟩
      · rintro ⟨k, h1, h2⟩; exact ⟨k, by rw [h1]; congr 1; omega, h2⟩
    cases c
    · simp only [maskPositions, ih (start + 1), hshift]
      constructor
      · rintro ⟨k, h1, h2⟩
        exact ⟨k + 1, h1, by simpa using h2⟩
      · rintro ⟨k, h1, h2⟩
        cases k with
        | zero => simp at h2
        | succ k => exact ⟨k, h1, by simpa using h2⟩
    · simp only [maskPositions, List.mem_cons, ih (start + 1), hshift]
      constructor
      · rintro (h | ⟨k, h1, h2⟩)
        · exact ⟨0, by simpa using h, by simp⟩
        · exact ⟨k + 1, h1, by simpa using h2⟩
      · rintro ⟨k, h1, h2⟩
        cases k with
        | zero => left; simpa using h1
        | succ k => right; exact ⟨k, h1, by simpa using h2⟩

theorem maskPositions_sorted (mask : List Bool) (start : Nat) :
    (maskPositions mask start).Pairwise (· < ·) := by
  induction mask generalizing start with
  | nil => simp [maskPositions]
  | cons c mask ih =>
    cases c
    · simpa [maskPositions] using ih (start + 1)
    · simp only [maskPositions, List.pairwise_cons]
      refine ⟨?_, ih (start + 1)⟩
      intro p hp
      have := (maskPositions_bounds mask (start + 1) p hp).1
      omega

/-- The positions extracted from a mask are exactly the indices of its `true`
entries. -/
theorem maskPositions_mem_zero (mask : List Bool) (i : Nat) :
    (i : Int) ∈ maskPositions mask 0 ↔ mask[i]? = some true := by
  rw [maskPositions_mem]
  constructor
  · rintro ⟨k, h1, h2⟩
    have : i = k := by omega
    rw [this]; exact h2
  · intro h
    exact ⟨i, by simp, h⟩

/-! ## The scan, row by row -/

/-- The first `k` rows of the scan of `a` and `b` are the first `k` rows of the
scan of their prefixes of the two `int` lengths. -/
theorem matchLoop_take (a b : List α)
    (hb : 0 ≤ castInt b.length) (k : Nat) (hk : k ≤ (castInt a.length).toNat) :
    matchLoop a b (maxRange a b) (castInt b.length) k 0
        ⟨List.replicate (castInt a.length).toNat false,
          List.replicate (castInt b.length).toNat false, 0⟩
      = matchLoop (a.take (castInt a.length).toNat) (b.take (castInt b.length).toNat)
          ((maxRange a b).toNat : Int)
          ((b.take (castInt b.length).toNat).length : Int) k ((0 : Nat) : Int)
          ⟨List.replicate (a.take (castInt a.length).toNat).length false,
            List.replicate (b.take (castInt b.length).toNat).length false, 0⟩ := by
  have hR : (((maxRange a b).toNat : Nat) : Int) = maxRange a b :=
    Int.toNat_of_nonneg (maxRange_nonneg a b)
  have hB : (((castInt b.length).toNat : Nat) : Int) = castInt b.length :=
    Int.toNat_of_nonneg hb
  have h0 : ((0 : Nat) : Int) = 0 := rfl
  rw [length_take_castInt a, length_take_castInt b, hR, hB, h0]
  apply matchLoop_congr
  · intro i h1 h2
    exact (checkedAt_take _ _ _ (by omega)).symm
  · intro j h1
    exact (checkedAt_take _ _ _ (by omega)).symm

/-- C15. Match-mask invariant, for sequences of any size.  The matching scan
fails only by throwing at the allocation of a mask, when one of the two `int`
lengths is negative.  Whenever it returns: throughout the scan, after any
number `k` of iterations of the outer loop, the marks of the two masks are
paired one-to-one (no position of `b` is marked by more than one position of
`a`) and both masks hold as many `true` entries as `matchingCharacters` counts;
after the scan, when something matched, the two position lists have length
`matchingCharacters`, hold exactly the marked indices, and are strictly
increasing. -/
theorem match_mask_invariant (a b : List α) :
    (matchScan a b = none ↔ castInt a.length < 0 ∨ castInt b.length < 0) ∧
    ∀ sf, matchScan a b = some sf →
      (∀ k : Nat, k ≤ (castInt a.length).toNat → ∃ (s : MatchState) (P : Nat → Nat → Prop),
        matchLoop a b (maxRange a b) (castInt b.length) k 0
            ⟨List.replicate (castInt a.length).toNat false,
              List.replicate (castInt b.length).toNat false, 0⟩ = some s ∧
          (∀ i j j0, P i j → P i j0 → j = j0) ∧ (∀ i i0 j, P i j → P i0 j → i = i0) ∧
          (∀ i : Nat, s.aMatch[i]? = some true ↔ ∃ j, P i j) ∧
          (∀ j : Nat, s.bMatch[j]? = some true ↔ ∃ i, P i j) ∧
          (s.aMatch.count true : Int) = s.matchingCharacters ∧
          (s.bMatch.count true : Int) = s.matchingCharacters) ∧
      (sf.aMatch.count true : Int) = sf.matchingCharacters ∧
      (sf.bMatch.count true : Int) = sf.matchingCharacters ∧
      (sf.matchingCharacters ≠ 0 → ∃ t, transpositionScan a b sf = some t ∧
        (t.aPosition.length : Int) = sf.matchingCharacters ∧
        (t.bPosition.length : Int) = sf.matchingCharacters ∧
        (∀ p ∈ t.aPosition, 0 ≤ p ∧ p < castInt a.length) ∧
        (∀ p ∈ t.bPosition, 0 ≤ p ∧ p < castInt b.length) ∧
        (∀ i : Nat, (i : Int) ∈ t.aPosition ↔ sf.aMatch[i]? = some true) ∧
        (∀ j : Nat, (j : Int) ∈ t.bPosition ↔ sf.bMatch[j]? = some true) ∧
        t.aPosition.Pairwise (· < ·) ∧ t.bPosition.Pairwise (· < ·)) := by
  refine ⟨matchScan_eq_none a b, ?_⟩
  intro sf hs
  obtain ⟨ha, hb, P, k0, _, inv⟩ := matchScan_sound a b sf hs
  have hA : (((castInt a.length).toNat : Nat) : Int) = castInt a.length :=
    Int.toNat_of_nonneg ha
  have hB : (((castInt b.length).toNat : Nat) : Int) = castInt b.length :=
    Int.toNat_of_nonneg hb
  refine ⟨?_, inv.aCount.symm, inv.bCount.symm, ?_⟩
  · intro k hk
    have hR : (maxRange a b).toNat < 1073741824 := by
      have h1 := maxRange_lt a b
      have h2 := maxRange_nonneg a b
      omega
    obtain ⟨s, Q, k1, e1, e2, _⟩ := matchLoop_raw (a.take (castInt a.length).toNat)
      (b.take (castInt b.length).toNat) (maxRange a b).toNat hR (length_take_lt a) k 0 _ _
      (by rw [length_take_castInt]; omega) (ScanInv.init _ _ _)
    refine ⟨s, Q, ?_, e2.greedy.functional, e2.greedy.injective, e2.aMask, e2.bMask,
      e2.aCount.symm, e2.bCount.symm⟩
    rw [matchLoop_take a b hb k hk]
    exact e1
  · intro _
    obtain ⟨t, ht, _, _⟩ := transpositionScan_sound a b sf hs
    refine ⟨_, ht, ?_, ?_, ?_, ?_, maskPositions_mem_zero _, maskPositions_mem_zero _,
      maskPositions_sorted _ _, maskPositions_sorted _ _⟩
    · show ((maskPositions sf.aMatch 0).length : Int) = sf.matchingCharacters
      rw [maskPositions_length, inv.aCount]
    · show ((maskPositions sf.bMatch 0).length : Int) = sf.matchingCharacters
      rw [maskPositions_length, inv.bCount]
    · intro p hp
      have := maskPositions_bounds sf.aMatch 0 p hp
      rw [inv.aLen, length_take_castInt] at this
      omega
    · intro p hp
      have := maskPositions_bounds sf.bMatch 0 p hp
      rw [inv.bLen, length_take_castInt] at this
      omega

/-- C15, at `1, 2, 3, 4` against `2, 1, 3, 4`: the scan returns with four
matches; two iterations are within the scan and leave a one-to-one marking;
the two position lists have four entries each in increasing order. -/
theorem match_mask_invariant_witness :
    ∃ s t, matchScan ([1, 2, 3, 4] : List Nat) [2, 1, 3, 4] = some s ∧
      (2 ≤ (castInt ([1, 2, 3, 4] : List Nat).length).toNat ∧
        ∃ (s2 : MatchState) (P : Nat → Nat → Prop),
          matchLoop ([1, 2, 3, 4] : List Nat) [2, 1, 3, 4]
              (maxRange ([1, 2, 3, 4] : List Nat) [2, 1, 3, 4])
              (castInt ([2, 1, 3, 4] : List Nat).length) 2 0
              ⟨List.replicate (castInt ([1, 2, 3, 4] : List Nat).length).toNat false,
                List.replicate (castInt ([2, 1, 3, 4] : List Nat).length).toNat false, 0⟩
            = some s2 ∧
          (∀ i i0 j, P i j → P i0 j → i = i0) ∧
          (s2.bMatch.count true : Int) = s2.matchingCharacters) ∧
      s.matchingCharacters = 4 ∧
      transpositionScan ([1, 2, 3, 4] : List Nat) [2, 1, 3, 4] s = some t ∧
      (t.aPosition.length : Int) = s.matchingCharacters ∧
      (t.bPosition.length : Int) = s.matchingCharacters ∧
      t.aPosition.Pairwise (· < ·) ∧ t.bPosition.Pairwise (· < ·) := by
  have hs0 : matchScan ([1, 2, 3, 4] : List Nat) [2, 1, 3, 4]
      = some ⟨[true, true, true, true], [true, true, true, true], 4⟩ := by decide
  obtain ⟨hrows, _, _, h⟩ :=
    (match_mask_invariant ([1, 2, 3, 4] : List Nat) [2, 1, 3, 4]).2 _ hs0
  have h2 : 2 ≤ (castInt ([1, 2, 3, 4] : List Nat).length).toNat := by decide
  obtain ⟨s2, P, hs2, _, hinj, _, _, _, hcnt⟩ := hrows 2 h2
  obtain ⟨t, ht, h1, h3, _, _, _, _, h4, h5⟩ := h (by decide)
  exact ⟨_, t, hs0, ⟨h2, s2, P, hs2, hinj, hcnt⟩, rfl, ht, h1, h3, h4, h5⟩

/-! ## Order-preserving matchings -/

theorem index_unique_of_count_le_one (l : List α) (x : α) (h : l.count x ≤ 1) :
    ∀ (j k : Nat), l[j]? = some x → l[k]? = some x → j = k := by
  induction l with
  | nil => intro j k hj; simp at hj
  | cons y l ih =>
    have hmem : ∀ k : Nat, l[k]? = some x → 1 ≤ l.count x := fun k hk =>
      List.count_pos_iff.2 (List.getElem?_mem hk)
    intro j k hj hk
    cases j with
    | zero =>
      cases k with
      | zero => rfl
      | succ k =>
        simp only [List.getElem?_cons_zero, Option.some.injEq] at hj
        simp only [List.getElem?_cons_succ] at hk
        have := hmem k hk
        rw [hj, List.count_cons_self] at h
        omega
    | succ j =>
      simp only [List.getElem?_cons_succ] at hj
      cases k with
      | zero =>
        simp only [List.getElem?_cons_zero, Option.some.injEq] at hk
        have := hmem j hj
        rw [hk, List.count_cons_self] at h
        omega
      | succ k =>
        simp only [List.getElem?_cons_succ] at hk
        have hle : l.count x ≤ 1 := le_trans (List.count_le_count_cons _ _ _) h
        rw [ih hle j k hj hk]

/-- When the marks of the second mask are the images of the marks of the first
under a strictly increasing map, the second position list is the image of the
first. -/
theorem maskPositions_map (am bm : List Bool) (f : Nat → Nat) (hf : StrictMono f)
    (h1 : ∀ i : Nat, am[i]? = some true → bm[f i]? = some true)
    (h2 : ∀ j : Nat, bm[j]? = some true → ∃ i : Nat, am[i]? = some true ∧ f i = j) :
    maskPositions bm 0 = (maskPositions am 0).map (fun p => ((f p.toNat : Nat) : Int)) := by
  have hsa := maskPositions_sorted am 0
  have hsb := maskPositions_sorted bm 0
  have hsm : ((maskPositions am 0).map (fun p => ((f p.toNat : Nat) : Int))).Pairwise
      (· < ·) := by
    rw [List.pairwise_map]
    refine hsa.imp_of_mem ?_
    intro p q hp hq hpq
    have hp0 := (maskPositions_bounds am 0 p hp).1
    have hq0 := (maskPositions_bounds am 0 q hq).1
    have : p.toNat < q.toNat := by omega
    exact_mod_cast hf this
  refine List.eq_of_perm_of_sorted ?_ hsb hsm
  rw [List.perm_ext_iff_of_nodup (List.Sorted.nodup hsb) (List.Sorted.nodup hsm)]
  intro x
  rw [maskPositions_mem, List.mem_map]
  constructor
  · rintro ⟨j, hx, hj⟩
    obtain ⟨i, hi, hfi⟩ := h2 j hj
    refine ⟨(i : Int), (maskPositions_mem_zero am i).2 hi, ?_⟩
    simp only [Int.toNat_ofNat, hfi]
    rw [hx]; congr 1; omega
  · rintro ⟨p, hp, hx⟩
    obtain ⟨i, rfl, hi⟩ := (maskPositions_mem am 0 p).1 hp
    refine ⟨f i, ?_, ?_⟩
    · rw [← hx]; simp
    · have := h1 i hi
      simpa using this

/-- When every pair of the scan's matching is `(i, f i)` for a strictly
increasing map `f`, the `k`-th matched symbols of `a` and of `b` never differ. -/
theorem no_mismatch_of_embedding (a b : List α) (s : MatchState) (P : Nat → Nat → Prop)
    (aMask : ∀ i : Nat, s.aMatch[i]? = some true ↔ ∃ j, P i j)
    (bMask : ∀ j : Nat, s.bMatch[j]? = some true ↔ ∃ i, P i j)
    (same : ∀ i j, P i j →
      ∃ x, checkedAt a ((i : Nat) : Int) = some x ∧ checkedAt b ((j : Nat) : Int) = some x)
    (f : Nat → Nat) (hf : StrictMono f) (hP : ∀ i j, P i j → j = f i) (k : Nat) :
    ¬ MismatchAt a b (maskPositions s.aMatch 0) (maskPositions s.bMatch 0) k := by
  have hmap := maskPositions_map s.aMatch s.bMatch f hf
    (by
      intro i hi
      obtain ⟨j, hj⟩ := (aMask i).1 hi
      have := hP i j hj
      subst this
      exact (bMask _).2 ⟨i, hj⟩)
    (by
      intro j hj
      obtain ⟨i, hi⟩ := (bMask j).1 hj
      exact ⟨i, (aMask i).2 ⟨j, hi⟩, (hP i j hi).symm⟩)
  rintro ⟨i, j, x, y, hp, hq, hx, hy, hne⟩
  rw [hmap, List.getElem?_map, hp] at hq
  simp only [Option.map_some', Option.some.injEq] at hq
  have hi0 := (maskPositions_bounds s.aMatch 0 i (List.getElem?_mem hp)).1
  obtain ⟨n, rfl⟩ := Int.eq_ofNat_of_zero_le hi0
  obtain ⟨j0, hj0⟩ := (aMask n).1 ((maskPositions_mem_zero s.aMatch n).1 (List.getElem?_mem hp))
  have hj0f := hP n j0 hj0
  obtain ⟨z, hz1, hz2⟩ := same n j0 hj0
  rw [Int.toNat_ofNat, ← hj0f] at hq
  rw [← hq, hz2] at hy
  rw [hz1] at hx
  exact hne ((Option.some.inj hx).symm.trans (Option.some.inj hy))

/-- When every pair of the scan's matching is `(g j, j)` for a strictly
increasing map `g`, the `k`-th matched symbols of `a` and of `b` never differ. -/
theorem no_mismatch_of_coembedding (a b : List α) (s : MatchState) (P : Nat → Nat → Prop)
    (aMask : ∀ i : Nat, s.aMatch[i]? = some true ↔ ∃ j, P i j)
    (bMask : ∀ j : Nat, s.bMatch[j]? = some true ↔ ∃ i, P i j)
    (same : ∀ i j, P i j →
      ∃ x, checkedAt a ((i : Nat) : Int) = some x ∧ checkedAt b ((j : Nat) : Int) = some x)
    (g : Nat → Nat) (hg : StrictMono g) (hP : ∀ i j, P i j → i = g j) (k : Nat) :
    ¬ MismatchAt a b (maskPositions s.aMatch 0) (maskPositions s.bMatch 0) k := by
  have hmap := maskPositions_map s.bMatch s.aMatch g hg
    (by
      intro j hj
      obtain ⟨i, hi⟩ := (bMask j).1 hj
      have := hP i j hi
      subst this
      exact (aMask _).2 ⟨j, hi⟩)
    (by
      intro i hi
      obtain ⟨j, hj⟩ := (aMask i).1 hi
      exact ⟨j, (bMask j).2 ⟨i, hj⟩, (hP i j hj).symm⟩)
  rintro ⟨i, j, x, y, hp, hq, hx, hy, hne⟩
  rw [hmap, List.getElem?_map, hq] at hp
  simp only [Option.map_some', Option.some.injEq] at hp
  have hj0 := (maskPositions_bounds s.bMatch 0 j (List.getElem?_mem hq)).1
  obtain ⟨n, rfl⟩ := Int.eq_ofNat_of_zero_le hj0
  obtain ⟨i0, hi0⟩ := (bMask n).1 ((maskPositions_mem_zero s.bMatch n).1 (List.getElem?_mem hq))
  have hi0g := hP i0 n hi0
  obtain ⟨z, hz1, hz2⟩ := same i0 n hi0
  rw [Int.toNat_ofNat, ← hi0g] at hp
  rw [← hp, hz1] at hx
  rw [hz2] at hy
  exact hne ((Option.some.inj hx).symm.trans (Option.some.inj hy))

/-- When `a` and `b` hold the same symbol at every index they share, the scan
pairs every matched position with itself. -/
theorem Greedy.on_diagonal {a b : List α} {R n : Nat} {P : Nat → Nat → Prop}
    (g : Greedy a b R n P)
    (hag : ∀ (i : Nat) (x y : α), a[i]? = some x → b[i]? = some y → x = y) :
    ∀ i j, P i j → j = i := by
  intro i
  induction i using Nat.strong_induction_on with
  | _ i ih =>
    intro j hP
    obtain ⟨x, hax, hbx⟩ := g.same i j hP
    have hin := g.row_lt i j hP
    have hnear := g.near i j hP
    rcases Nat.lt_trichotomy j i with hlt | heq | hgt
    · exfalso
      have hia := lt_length_of_getElem? hax
      have hja : j < a.length := by omega
      have hay : a[j]? = some a[j] := List.getElem?_eq_getElem hja
      have hxy : a[j] = x := hag j _ _ hay hbx
      by_cases hrow : ∃ j0, P j j0 ∧ j0 ≤ j
      · obtain ⟨j0, hj0, _⟩ := hrow
        have h1 := ih j hlt j0 hj0
        rw [h1] at hj0
        have := g.injective _ _ _ hP hj0
        omega
      · push_neg at hrow
        obtain ⟨i0, hi0, hP0⟩ := g.first j j x (by omega) (by rw [hay, hxy]) hbx (by omega)
          (by omega) (fun j0 h0 => hrow j0 h0)
        have := g.injective _ _ _ hP hP0
        omega
    · exact heq
    · exfalso
      have hjb := lt_length_of_getElem? hbx
      have hib : i < b.length := by omega
      have hby : b[i]? = some b[i] := List.getElem?_eq_getElem hib
      have hxy : x = b[i] := hag i _ _ hax hby
      obtain ⟨i0, hi0, hP0⟩ := g.first i i x hin hax (by rw [hby, hxy]) (by omega) (by omega)
        (fun j0 h0 => by have := g.functional _ _ _ hP h0; omega)
      have := ih i0 hi0 i hP0
      omega

/-- A sequence and a prefix of it hold the same symbol at every index they
share. -/
theorem agree_of_leading_part {a b : List α} (h : a <+: b) (i : Nat) (x y : α)
    (hx : a[i]? = some x) (hy : b[i]? = some y) : x = y := by
  obtain ⟨c, rfl⟩ := h
  rw [List.getElem?_append_left (lt_length_of_getElem? hx), hx] at hy
  exact Option.some.inj hy

/-- The positions at which a subsequence sits in the longer sequence. -/
theorem embedding_of_sublist {a b : List α} (h : a.Sublist b) :
    ∃ f : Nat → Nat, StrictMono f ∧ ∀ i : Nat, a[i]? = b[f i]? := by
  obtain ⟨f, hf⟩ := List.sublist_iff_exists_orderEmbedding_get?_eq.1 h
  refine ⟨f, f.strictMono, ?_⟩
  intro i
  have := hf i
  simpa using this

/-- C11, as the code has it. No-transpositions case, for sequences of any size.
Once the matching scan has returned, the transposition scan returns a count
`t`, and `t` is `0` exactly when at no index `k` the `k`-th matched symbol of
`a` differs from the `k`-th matched symbol of `b`.  That is so whenever one
sequence is a prefix of the other, and whenever one is a subsequence of the
other and none of its symbols occurs more than once in the other. -/
theorem no_transpositions (a b : List α) (s : MatchState) (hs : matchScan a b = some s) :
    ∃ t, transpositionScan a b s = some t ∧
      (t.transpositions = 0 ↔ ∀ k, ¬ MismatchAt a b t.aPosition t.bPosition k) ∧
      (a <+: b ∨ b <+: a → t.transpositions = 0) ∧
      ((a.Sublist b ∧ ∀ x ∈ a, b.count x = 1) ∨ (b.Sublist a ∧ ∀ x ∈ b, a.count x = 1) →
        t.transpositions = 0) := by
  obtain ⟨t0, ht, _, _⟩ := transpositionScan_sound a b s hs
  refine ⟨_, ht, ?_⟩
  obtain ⟨hal, hbl, hac, hbc, hm0, _, _⟩ := matchScan_lengths a b s hs
  obtain ⟨_, _, hloop⟩ := transpositionScan_walk a b s hal hbl hac hbc _ ht
  have hiff : t0 = 0 ↔
      ∀ k, ¬ MismatchAt a b (maskPositions s.aMatch 0) (maskPositions s.bMatch 0) k := by
    constructor
    · intro h k hk
      have hlen : k < s.matchingCharacters.toNat := by
        obtain ⟨i, _, _, _, hp, _⟩ := hk
        have h1 := lt_length_of_getElem? hp
        rw [maskPositions_length] at h1
        omega
      have := transpositionLoop_one a b _ _ _ 0 0 t0 k (by omega) (by omega) hk hloop
      omega
    · intro h
      exact transpositionLoop_agree a b _ _ _ 0 0 t0 (fun k _ => h k) hloop
  obtain ⟨_, _, P, k0, _, inv⟩ := matchScan_sound a b s hs
  have same : ∀ i j, P i j →
      ∃ x, checkedAt a ((i : Nat) : Int) = some x ∧ checkedAt b ((j : Nat) : Int) = some x := by
    intro i j h
    obtain ⟨x, h1, h2⟩ := inv.greedy.same i j h
    exact ⟨x, by rw [checkedAt_natCast]; exact getElem?_of_take h1,
      by rw [checkedAt_natCast]; exact getElem?_of_take h2⟩
  have hdiag : (∀ (i : Nat) (x y : α), a[i]? = some x → b[i]? = some y → x = y) → t0 = 0 := by
    intro hag
    have hP := inv.greedy.on_diagonal
      (fun i x y hx hy => hag i x y (getElem?_of_take hx) (getElem?_of_take hy))
    exact hiff.2 (no_mismatch_of_embedding a b s P inv.aMask inv.bMask same id strictMono_id
      (fun i j h => hP i j h))
  refine ⟨hiff, ?_, ?_⟩
  · rintro (h | h)
    · exact hdiag (agree_of_leading_part h)
    · exact hdiag (fun i x y hx hy => (agree_of_leading_part h i y x hy hx).symm)
  · rintro (⟨hsub, huniq⟩ | ⟨hsub, huniq⟩)
    · obtain ⟨f, hf, hab⟩ := embedding_of_sublist hsub
      refine hiff.2 (no_mismatch_of_embedding a b s P inv.aMask inv.bMask same f hf ?_)
      intro i j hP
      obtain ⟨x, hax, hbx⟩ := inv.greedy.same i j hP
      have hax0 := getElem?_of_take hax
      have hfi : b[f i]? = some x := by rw [← hab, hax0]
      exact index_unique_of_count_le_one b x (le_of_eq (huniq x (List.getElem?_mem hax0))) j
        (f i) (getElem?_of_take hbx) hfi
    · obtain ⟨g, hg, hba⟩ := embedding_of_sublist hsub
      refine hiff.2 (no_mismatch_of_coembedding a b s P inv.aMask inv.bMask same g hg ?_)
      intro i j hP
      obtain ⟨x, hax, hbx⟩ := inv.greedy.same i j hP
      have hbx0 := getElem?_of_take hbx
      have hgj : a[g j]? = some x := by rw [← hba, hbx0]
      exact index_unique_of_count_le_one a x (le_of_eq (huniq x (List.getElem?_mem hbx0))) i
        (g j) (getElem?_of_take hax) hgj

/-- C11, as the code has it, at `hello` against `hello world`, a prefix with a
repeated letter: the scan matches the five symbols of `hello` and the
transposition count is zero. -/
theorem no_transpositions_witness :
    matchScan ['h', 'e', 'l', 'l', 'o'] ['h', 'e', 'l', 'l', 'o', ' ', 'w', 'o', 'r', 'l', 'd']
        = some ⟨[true, true, true, true, true],
          [true, true, true, true, true, false, false, false, false, false, false], 5⟩ ∧
      (['h', 'e', 'l', 'l', 'o'] : List Char)
        <+: ['h', 'e', 'l', 'l', 'o', ' ', 'w', 'o', 'r', 'l', 'd'] ∧
      ∃ t, transpositionScan ['h', 'e', 'l', 'l', 'o']
          ['h', 'e', 'l', 'l', 'o', ' ', 'w', 'o', 'r', 'l', 'd']
          ⟨[true, true, true, true, true],
            [true, true, true, true, true, false, false, false, false, false, false], 5⟩
          = some t ∧ t.transpositions = 0 := by
  have hs : matchScan ['h', 'e', 'l', 'l', 'o']
      ['h', 'e', 'l', 'l', 'o', ' ', 'w', 'o', 'r', 'l', 'd']
      = some ⟨[true, true, true, true, true],
        [true, true, true, true, true, false, false, false, false, false, false], 5⟩ := by
    decide
  have hpre : (['h', 'e', 'l', 'l', 'o'] : List Char)
      <+: ['h', 'e', 'l', 'l', 'o', ' ', 'w', 'o', 'r', 'l', 'd'] :=
    ⟨[' ', 'w', 'o', 'r', 'l', 'd'], rfl⟩
  obtain ⟨t, ht, _, h, _⟩ := no_transpositions _ _ _ hs
  exact ⟨hs, hpre, t, ht, h (Or.inl hpre)⟩

/-- C11 fails as stated. `ab` is a subsequence of the longer `baab`, yet the scan
pairs `a` with the first `a` of `baab` and `b` with the `b` before it, and the
lockstep walk counts `t = 2`. -/
theorem no_transpositions_fails :
    (['a', 'b'] : List Char).length ≠ (['b', 'a', 'a', 'b'] : List Char).length ∧
      (['a', 'b'] : List Char).Sublist ['b', 'a', 'a', 'b'] ∧
      matchScan ['a', 'b'] ['b', 'a', 'a', 'b']
        = some ⟨[true, true], [true, true, false, false], 2⟩ ∧
      transpositionScan ['a', 'b'] ['b', 'a', 'a', 'b']
          ⟨[true, true], [true, true, false, false], 2⟩
        = some ⟨[0, 1], [0, 1], 2⟩ ∧
      (⟨[0, 1], [0, 1], 2⟩ : Transpositions).transpositions ≠ 0 :=
  ⟨by decide, by decide, by decide, by decide, by decide⟩

/-! ## Perfect scores -/

theorem maskPositions_getElem_all (mask : List Bool) (hall : ∀ c ∈ mask, c = true) :
    ∀ (start k : Nat), k < mask.length →
      (maskPositions mask start)[k]? = some ((start + k : Nat) : Int) := by
  induction mask with
  | nil => intro start k hk; simp at hk
  | cons c mask ih =>
    intro start k hk
    have hc : c = true := hall c (List.mem_cons_self _ _)
    subst hc
    cases k with
    | zero => simp [maskPositions]
    | succ k =>
      simp only [maskPositions, List.getElem?_cons_succ]
      rw [ih (fun c hc => hall c (List.mem_cons_of_mem _ hc)) (start + 1) k
        (by simpa using hk)]
      congr 2
      omega

theorem all_true_of_count (l : List Bool) (h : l.count true = l.length) :
    ∀ c ∈ l, c = true := by
  intro c hc
  exact ((List.count_eq_length.1 h) c hc).symm

/-- When the scan has matched every position of two sequences of the same
length and the lockstep walk finds at most one mismatch, the sequences are
equal: the matching pairs equal symbols one-to-one, so a single differing
position is impossible. -/
theorem eq_of_perfect_scan (a b : List α) (R : Nat) {k : Nat} (s : MatchState)
    (P : Nat → Nat → Prop) (inv : ScanInv a b R k s P) (hla : a.length < 2147483648)
    (hlb : b.length < 2147483648) (t : Transpositions)
    (ht : transpositionScan a b s = some t) (hma : s.matchingCharacters = a.length)
    (hmb : s.matchingCharacters = b.length) (ht1 : t.transpositions ≤ 1) : a = b := by
  have hlen : a.length = b.length := by
    have : (a.length : Int) = b.length := by rw [← hma, ← hmb]
    exact_mod_cast this
  have hca : s.aMatch.count true = s.aMatch.length := by
    have : (s.aMatch.count true : Int) = a.length := by rw [← inv.aCount, hma]
    rw [inv.aLen]; exact_mod_cast this
  have hcb : s.bMatch.count true = s.bMatch.length := by
    have : (s.bMatch.count true : Int) = b.length := by rw [← inv.bCount, hmb]
    rw [inv.bLen]; exact_mod_cast this
  have hpa := maskPositions_getElem_all s.aMatch (all_true_of_count _ hca) 0
  have hpb := maskPositions_getElem_all s.bMatch (all_true_of_count _ hcb) 0
  have hrow : ∀ i : Nat, i < a.length → ∃ j, P i j := by
    intro i hi
    apply (inv.aMask i).1
    rw [List.getElem?_eq_getElem (by rw [inv.aLen]; exact hi)]
    exact congrArg some (all_true_of_count _ hca _ (List.getElem_mem _))
  obtain ⟨_, _, hloop⟩ := transpositionScan_loop a b R s P inv hla hlb t ht
  have hm : s.matchingCharacters.toNat = a.length := by rw [hma]; simp
  rw [hm] at hloop
  have hmis : ∀ k : Nat, k < a.length → a[k]? ≠ b[k]? →
      MismatchAt a b (maskPositions s.aMatch 0) (maskPositions s.bMatch 0) k := by
    intro k hk hne
    have hkb : k < b.length := by omega
    refine ⟨(k : Int), (k : Int), a[k], b[k], ?_, ?_, ?_, ?_, ?_⟩
    · rw [hpa k (by rw [inv.aLen]; exact hk)]; simp
    · rw [hpb k (by rw [inv.bLen]; exact hkb)]; simp
    · rw [checkedAt_natCast, List.getElem?_eq_getElem hk]
    · rw [checkedAt_natCast, List.getElem?_eq_getElem hkb]
    · intro h
      apply hne
      rw [List.getElem?_eq_getElem hk, List.getElem?_eq_getElem hkb, h]
  by_contra hab
  have hex : ∃ k : Nat, k < a.length ∧ a[k]? ≠ b[k]? := by
    by_contra hno
    apply hab
    apply List.ext_getElem?
    intro k
    rcases Nat.lt_or_ge k a.length with hk | hk
    · by_contra hne
      exact hno ⟨k, hk, hne⟩
    · rw [List.getElem?_eq_none hk, List.getElem?_eq_none (by omega)]
  obtain ⟨k, hk, hne⟩ := hex
  have hkb : k < b.length := by omega
  have hother : ∃ k0 : Nat, k0 ≠ k ∧ k0 < a.length ∧ a[k0]? ≠ b[k0]? := by
    by_contra hno
    have hsame : ∀ j : Nat, j ≠ k → a[j]? = b[j]? := by
      intro j hj
      rcases Nat.lt_or_ge j a.length with hja | hja
      · by_contra hne0
        exact hno ⟨j, hj, hja, hne0⟩
      · rw [List.getElem?_eq_none hja, List.getElem?_eq_none (by omega)]
    have hle : ((Finset.range a.length).filter (fun i => a[i]? = some a[k])).card
        ≤ ((Finset.range a.length).filter (fun j => b[j]? = some a[k])).card := by
      apply Finset.card_le_card_of_forall_subsingleton P
      · intro i hi
        rw [Finset.mem_filter, Finset.mem_range] at hi
        obtain ⟨j, hj⟩ := hrow i hi.1
        obtain ⟨x, hax, hbx⟩ := inv.greedy.same i j hj
        refine ⟨j, ?_, hj⟩
        rw [Finset.mem_filter, Finset.mem_range]
        refine ⟨by rw [hlen]; exact lt_length_of_getElem? hbx, ?_⟩
        rw [hbx, ← hax, hi.2]
      · intro j _ i1 h1 i2 h2
        exact inv.greedy.injective i1 i2 j h1.2 h2.2
    have hlt : ((Finset.range a.length).filter (fun j => b[j]? = some a[k])).card
        < ((Finset.range a.length).filter (fun i => a[i]? = some a[k])).card := by
      apply Finset.card_lt_card
      rw [Finset.ssubset_iff_of_subset]
      · refine ⟨k, ?_, ?_⟩
        · rw [Finset.mem_filter, Finset.mem_range]
          exact ⟨hk, List.getElem?_eq_getElem hk⟩
        · rw [Finset.mem_filter, Finset.mem_range]
          rintro ⟨_, hbk⟩
          exact hne (by rw [hbk, List.getElem?_eq_getElem hk])
      · intro j hj
        rw [Finset.mem_filter, Finset.mem_range] at hj ⊢
        refine ⟨hj.1, ?_⟩
        have hjk : j ≠ k := by
          rintro rfl
          exact hne (by rw [hj.2, List.getElem?_eq_getElem hk])
        rw [hsame j hjk, hj.2]
    omega
  obtain ⟨k0, hk0, hk0a, hne0⟩ := hother
  have h1 := hmis k hk hne
  have h2 := hmis k0 hk0a hne0
  rcases Nat.lt_or_gt_of_ne hk0 with hlt | hgt
  · have := transpositionLoop_two a b _ _ a.length 0 0 _ k0 k (by omega) hlt (by omega)
      h2 h1 hloop
    omega
  · have := transpositionLoop_two a b _ _ a.length 0 0 _ k k0 (by omega) hgt (by omega)
      h1 h2 hloop
    omega

theorem jaroValue_exact_eq_one (aLength bLength m t : Int) (hm : 0 < m) (ha : m ≤ aLength)
    (hb : m ≤ bLength) (ht0 : 0 ≤ t) (_ht1 : t ≤ m)
    (h : jaroValue exact aLength bLength m t = 1) :
    m = aLength ∧ m = bLength ∧ t.tdiv 2 = 0 := by
  have hh0 : 0 ≤ t.tdiv 2 := by rw [Int.tdiv_eq_ediv ht0 (by omega)]; omega
  have hmq : (0 : ℚ) < m := by exact_mod_cast hm
  have haq : (0 : ℚ) < aLength := by exact_mod_cast lt_of_lt_of_le hm ha
  have hbq : (0 : ℚ) < bLength := by exact_mod_cast lt_of_lt_of_le hm hb
  have hA1 : (m : ℚ) / aLength ≤ 1 := (div_le_one haq).2 (by exact_mod_cast ha)
  have hB1 : (m : ℚ) / bLength ≤ 1 := (div_le_one hbq).2 (by exact_mod_cast hb)
  have hT1 : ((m - t.tdiv 2 : Int) : ℚ) / m ≤ 1 :=
    (div_le_one hmq).2 (by exact_mod_cast (by omega : m - t.tdiv 2 ≤ m))
  have hval : jaroValue exact aLength bLength m t
      = 1 / 3 * ((m : ℚ) / aLength) + 1 / 3 * ((m : ℚ) / bLength)
        + 1 / 3 * (((m - t.tdiv 2 : Int) : ℚ) / m) := by
    unfold jaroValue JARO_WEIGHT_STRING_A JARO_WEIGHT_STRING_B JARO_WEIGHT_TRANSPOSITIONS
    simp only [exact, mul_div_assoc]
  rw [hval] at h
  have hA : (m : ℚ) / aLength = 1 := by linarith
  have hB : (m : ℚ) / bLength = 1 := by linarith
  have hT : ((m - t.tdiv 2 : Int) : ℚ) / m = 1 := by linarith
  rw [div_eq_one_iff_eq haq.ne'] at hA
  rw [div_eq_one_iff_eq hbq.ne'] at hB
  rw [div_eq_one_iff_eq hmq.ne'] at hT
  refine ⟨by exact_mod_cast hA, by exact_mod_cast hB, ?_⟩
  have : m - t.tdiv 2 = m := by exact_mod_cast hT
  omega

/-- A count `k < n` weighted by `1.0/3.0` and divided by `n` stays two doubles
below `1.0/3.0`, for every `n` that fits in an `int`. -/
theorem binary64_third_quot_lt (k n : Int) (hk0 : 0 ≤ k) (hkn : k < n) (hn : n < 2 ^ 31) :
    binary64 (binary64 (6004799503160661 / 2 ^ 54 * (k : ℚ)) / (n : ℚ))
      ≤ 6004799503160659 / 2 ^ 54 := by
  have hn0 : (0 : ℚ) < n := by exact_mod_cast (by omega : (0 : Int) < n)
  have hnq : (n : ℚ) < 2 ^ 31 := by exact_mod_cast hn
  rcases hk0.eq_or_lt with h0 | hpos
  · rw [← h0]
    simp only [Int.cast_zero, mul_zero, binary64_zero, zero_div]
    norm_num
  · have hk1 : 1 ≤ k := by omega
    have hkq : (k : ℚ) ≤ n - 1 := by exact_mod_cast (by omega : k ≤ n - 1)
    have hy := binary64_third_mul_lt k hk1 (by omega)
    have hypos : 0 < binary64 (6004799503160661 / 2 ^ 54 * (k : ℚ)) :=
      binary64_pos _ (by positivity)
    generalize binary64 (6004799503160661 / 2 ^ 54 * (k : ℚ)) = y at hy hypos
    have hq0 : 0 < y / n := div_pos hypos hn0
    have hqle : y / n ≤ 6004799503160659 / 2 ^ 54 := by
      rw [div_le_iff₀ hn0]
      have : (k : ℚ) * (6004799503160661 / 2 ^ 54 + 1 / 2 ^ 55)
          ≤ ((n : ℚ) - 1) * (6004799503160661 / 2 ^ 54 + 1 / 2 ^ 55) :=
        mul_le_mul_of_nonneg_right hkq (by norm_num)
      norm_num at this hy ⊢
      linarith
    have := binary64_le_grid (y / n) 6004799503160659 (-54) hq0
      (by norm_num; linarith) (by norm_num; linarith)
    norm_num at this ⊢
    exact this

/-- In binary64 arithmetic, for lengths that fit in an `int`, the value
`jaroDistance` computes is below `1` unless every position of both sequences
is matched and the halved transposition count is zero. -/
theorem jaroValue_binary64_lt_one (aLength bLength m t : Int) (hm : 0 < m)
    (ha : m ≤ aLength) (hb : m ≤ bLength) (ht0 : 0 ≤ t) (ht1 : t ≤ m)
    (hla : aLength < 2 ^ 31) (hlb : bLength < 2 ^ 31)
    (hdef : m < aLength ∨ m < bLength ∨ 1 ≤ t.tdiv 2) :
    jaroValue binary64 aLength bLength m t < 1 := by
  have hh0 : 0 ≤ t.tdiv 2 := by rw [Int.tdiv_eq_ediv ht0 (by omega)]; omega
  have hh1 : t.tdiv 2 ≤ m := by rw [Int.tdiv_eq_ediv ht0 (by omega)]; omega
  obtain ⟨hA0, hA1⟩ := binary64_third_quot m aLength (by omega) ha (by omega) hla
  obtain ⟨hB0, hB1⟩ := binary64_third_quot m bLength (by omega) hb (by omega) hlb
  obtain ⟨hT0, hT1⟩ := binary64_third_quot (m - t.tdiv 2) m (by omega) (by omega)
    (by omega) (by omega)
  have hA2 : m < aLength → binary64 (binary64 (6004799503160661 / 2 ^ 54 * (m : ℚ))
      / (aLength : ℚ)) ≤ 6004799503160659 / 2 ^ 54 :=
    fun h => binary64_third_quot_lt m aLength (by omega) h hla
  have hB2 : m < bLength → binary64 (binary64 (6004799503160661 / 2 ^ 54 * (m : ℚ))
      / (bLength : ℚ)) ≤ 6004799503160659 / 2 ^ 54 :=
    fun h => binary64_third_quot_lt m bLength (by omega) h hlb
  have hT2 : 1 ≤ t.tdiv 2 → binary64 (binary64 (6004799503160661 / 2 ^ 54
      * ((m - t.tdiv 2 : Int) : ℚ)) / (m : ℚ)) ≤ 6004799503160659 / 2 ^ 54 :=
    fun h => binary64_third_quot_lt (m - t.tdiv 2) m (by omega) (by omega) (by omega)
  unfold jaroValue JARO_WEIGHT_STRING_A JARO_WEIGHT_STRING_B JARO_WEIGHT_TRANSPOSITIONS
  rw [binary64_third]
  generalize binary64 (binary64 (6004799503160661 / 2 ^ 54 * (m : ℚ)) / (aLength : ℚ)) = x
    at hA0 hA1 hA2 ⊢
  generalize binary64 (binary64 (6004799503160661 / 2 ^ 54 * (m : ℚ)) / (bLength : ℚ)) = y
    at hB0 hB1 hB2 ⊢
  generalize binary64 (binary64 (6004799503160661 / 2 ^ 54 * ((m - t.tdiv 2 : Int) : ℚ))
    / (m : ℚ)) = z at hT0 hT1 hT2 ⊢
  have hs0 : 0 ≤ binary64 (x + y) := binary64_nonneg _ (by linarith)
  have hs1 : binary64 (x + y) ≤ 6004799503160661 / 2 ^ 53 := by
    have := binary64_le_grid_nonneg (x + y) 6004799503160661 (-53) (by linarith)
      (by norm_num; linarith) (by norm_num; linarith)
    norm_num at this ⊢
    exact this
  have hs2 : x + y ≤ 6004799503160660 / 2 ^ 53 →
      binary64 (x + y) ≤ 6004799503160660 / 2 ^ 53 := by
    intro h
    have := binary64_le_grid_nonneg (x + y) 6004799503160660 (-53) (by linarith)
      (by norm_num; linarith) (by norm_num; linarith)
    norm_num at this ⊢
    exact this
  have hsum : binary64 (x + y) + z ≤ 9007199254740991 / 2 ^ 53 := by
    rcases hdef with h | h | h
    · have := hs2 (by have := hA2 h; norm_num at this ⊢; linarith)
      norm_num at this hT1 ⊢
      linarith
    · have := hs2 (by have := hB2 h; norm_num at this ⊢; linarith)
      norm_num at this hT1 ⊢
      linarith
    · have := hT2 h
      norm_num at this hs1 ⊢
      linarith
  have := binary64_le_grid_nonneg (binary64 (x + y) + z) 9007199254740991 (-53)
    (by linarith) (by norm_num; linarith) (by norm_num; linarith)
  norm_num at this ⊢
  linarith

theorem jaroValue_binary64_one : jaroValue binary64 1 1 1 0 = 9007199254740992 / 2 ^ 53 := by
  have h1 : binary64 (6004799503160661 / 2 ^ 54 * 1) = 6004799503160661 / 2 ^ 54 := by
    rw [binary64_eq _ (-2) 6004799503160661 (by norm_num) (by norm_num) (by norm_num [abs_lt])]
    norm_num
  have h2 : binary64 (6004799503160661 / 2 ^ 54 / 1) = 6004799503160661 / 2 ^ 54 := by
    rw [binary64_eq _ (-2) 6004799503160661 (by norm_num) (by norm_num) (by norm_num [abs_lt])]
    norm_num
  have h3 : binary64 (6004799503160661 / 2 ^ 54 + 6004799503160661 / 2 ^ 54) = 6004799503160661 / 2 ^ 53 := by
    rw [binary64_eq _ (-1) 6004799503160661 (by norm_num) (by norm_num) (by norm_num [abs_lt])]
    norm_num
  have h4 : binary64 (6004799503160661 / 2 ^ 53 + 6004799503160661 / 2 ^ 54) = 9007199254740992 / 2 ^ 53 := by
    rw [binary64_tie_odd _ (-1) 9007199254740991 (by norm_num) (by norm_num) (by norm_num) (by decide)]
    norm_num
  have ht : ((1 : Int) - (0 : Int).tdiv 2) = 1 := by decide
  unfold jaroValue JARO_WEIGHT_STRING_A JARO_WEIGHT_STRING_B JARO_WEIGHT_TRANSPOSITIONS
  rw [ht]
  simp only [Int.cast_one, binary64_third, h1, h2, h3, h4]

theorem jaroValue_binary64_three : jaroValue binary64 3 3 3 0 = 9007199254740992 / 2 ^ 53 := by
  have h1 : binary64 (6004799503160661 / 2 ^ 54 * 3) = 9007199254740992 / 2 ^ 53 := by
    rw [binary64_tie_odd _ (-1) 9007199254740991 (by norm_num) (by norm_num) (by norm_num) (by decide)]
    norm_num
  have h2 : binary64 (9007199254740992 / 2 ^ 53 / 3) = 6004799503160661 / 2 ^ 54 := by
    rw [binary64_eq _ (-2) 6004799503160661 (by norm_num) (by norm_num) (by norm_num [abs_lt])]
    norm_num
  have h3 : binary64 (6004799503160661 / 2 ^ 54 + 6004799503160661 / 2 ^ 54) = 6004799503160661 / 2 ^ 53 := by
    rw [binary64_eq _ (-1) 6004799503160661 (by norm_num) (by norm_num) (by norm_num [abs_lt])]
    norm_num
  have h4 : binary64 (6004799503160661 / 2 ^ 53 + 6004799503160661 / 2 ^ 54) = 9007199254740992 / 2 ^ 53 := by
    rw [binary64_tie_odd _ (-1) 9007199254740991 (by norm_num) (by norm_num) (by norm_num) (by decide)]
    norm_num
  have ht : ((3 : Int) - (0 : Int).tdiv 2) = 3 := by decide
  unfold jaroValue JARO_WEIGHT_STRING_A JARO_WEIGHT_STRING_B JARO_WEIGHT_TRANSPOSITIONS
  rw [ht]
  simp only [Int.cast_ofNat, binary64_third, h1, h2, h3, h4]

/-- For sizes that fit in an `int`, `jaroDistance a b` is `1` only if `a` and
`b` are non-empty and equal element by element, in exact and in binary64
arithmetic. -/
theorem perfect_score_sound (a b : List α) (hla : a.length < 2147483648)
    (hlb : b.length < 2147483648) :
    (jaroDistance exact a b = some 1 → a ≠ [] ∧ b ≠ [] ∧ a = b) ∧
    (jaroDistance binary64 a b = some 1 → a ≠ [] ∧ b ≠ [] ∧ a = b) := by
  obtain ⟨s0, P, k, hs0, _, inv, _, _⟩ := matchScan_raw a b hla hlb
  constructor
  · intro h
    rcases jaroDistance_spec exact a b hla hlb with ⟨_, h0⟩ | ⟨_, _, s, _, _, h0⟩ |
      ⟨hna, hnb, s, t, hs, ht, hm, hma, hmb, ht0, ht1, hv⟩
    · rw [h0] at h; norm_num at h
    · rw [h0] at h; norm_num at h
    · rw [hv] at h
      obtain ⟨h1, h2, h3⟩ := jaroValue_exact_eq_one _ _ _ _ hm hma hmb ht0 ht1
        (Option.some.inj h)
      have hse : s0 = s := Option.some.inj (hs0.symm.trans hs)
      rw [hse] at inv
      have ht2 : t.transpositions ≤ 1 := by
        rw [Int.tdiv_eq_ediv ht0 (by omega)] at h3; omega
      exact ⟨hna, hnb, eq_of_perfect_scan a b _ s P inv hla hlb t ht h1 h2 ht2⟩
  · intro h
    have hla0 : (a.length : Int) < 2 ^ 31 := by norm_num; exact_mod_cast hla
    have hlb0 : (b.length : Int) < 2 ^ 31 := by norm_num; exact_mod_cast hlb
    rcases jaroDistance_spec binary64 a b hla hlb with ⟨_, h0⟩ | ⟨_, _, s, _, _, h0⟩ |
      ⟨hna, hnb, s, t, hs, ht, hm, hma, hmb, ht0, ht1, hv⟩
    · rw [h0] at h; norm_num at h
    · rw [h0] at h; norm_num at h
    · rw [hv] at h
      have hone : jaroValue binary64 a.length b.length s.matchingCharacters t.transpositions
          = 1 := Option.some.inj h
      have hh0 : 0 ≤ t.transpositions.tdiv 2 := by
        rw [Int.tdiv_eq_ediv ht0 (by omega)]; omega
      have hfull : ¬ (s.matchingCharacters < a.length ∨ s.matchingCharacters < b.length ∨
          1 ≤ t.transpositions.tdiv 2) := by
        intro hdef
        have := jaroValue_binary64_lt_one _ _ _ _ hm hma hmb ht0 ht1 hla0 hlb0 hdef
        rw [hone] at this
        exact lt_irrefl _ this
      push_neg at hfull
      obtain ⟨h1, h2, h3⟩ := hfull
      have hse : s0 = s := Option.some.inj (hs0.symm.trans hs)
      rw [hse] at inv
      have ht2 : t.transpositions ≤ 1 := by
        rw [Int.tdiv_eq_ediv ht0 (by omega)] at h3; omega
      exact ⟨hna, hnb, eq_of_perfect_scan a b _ s P inv hla hlb t ht (by omega) (by omega) ht2⟩

theorem castInt_two_pow_32_succ : castInt (4294967296 + 1) = 1 := by
  unfold castInt wrapInt
  norm_num

theorem jaroDistance_binary64_singleton (x : α) :
    jaroDistance binary64 [x] [x] = some 1 := by
  obtain ⟨s, t, _, _, _, _, h⟩ := jaroDistance_self_value binary64 [x] (by simp)
    (by unfold InRange windowRadius; simp)
  rw [h]
  simp only [List.length_cons, List.length_nil]
  norm_num
  rw [jaroValue_binary64_one]
  norm_num

/-- C17, the code at sizes beyond the `int` range: for `x` followed by `2^32`
copies of `y` (`2^32 + 1` symbols, which the cast of line 27 turns into the
length `1`) against the single symbol `x`, `jaroDistance` returns `1`, in exact
and in binary64 arithmetic, although the two sequences differ. -/
theorem perfect_score_at_wrapped_size :
    jaroDistance exact ('x' :: List.replicate 4294967296 'y') ['x'] = some 1 ∧
      jaroDistance binary64 ('x' :: List.replicate 4294967296 'y') ['x'] = some 1 ∧
      ('x' :: List.replicate 4294967296 'y') ≠ ['x'] := by
  have hA : castInt ('x' :: List.replicate 4294967296 'y').length = 1 := by
    rw [List.length_cons, List.length_replicate]
    exact castInt_two_pow_32_succ
  have hB : castInt (['x'] : List Char).length = 1 := castInt_one
  have htake : ∀ fl, jaroDistance fl ('x' :: List.replicate 4294967296 'y') ['x']
      = jaroDistance fl ['x'] ['x'] := by
    intro fl
    rw [jaroDistance_take fl _ _ (by rw [hA]; decide) (by rw [hB]; decide), hA, hB]
    rfl
  refine ⟨?_, ?_, ?_⟩
  · rw [htake]
    exact jaroDistance_exact_self _ (by decide) (by decide)
  · rw [htake]
    exact jaroDistance_binary64_singleton 'x'
  · intro h
    have := congrArg List.length h
    rw [List.length_cons, List.length_replicate] at this
    simp at this

/-! ## The greedy scan finds a largest pairing -/

theorem WindowPairing.near_nat {a b : List α} {R : Nat} {M : Finset (Nat × Nat)}
    (h : WindowPairing a b (R : Int) M) {i j : Nat} (hm : (i, j) ∈ M) :
    i ≤ j + R ∧ j ≤ i + R := by
  have := abs_le.1 (h.near i j hm)
  constructor <;> omega

theorem WindowPairing.erase {a b : List α} {r : Int} {M : Finset (Nat × Nat)}
    (h : WindowPairing a b r M) (p : Nat × Nat) : WindowPairing a b r (M.erase p) :=
  ⟨fun i j hm => h.same i j (Finset.mem_of_mem_erase hm),
   fun i j hm => h.near i j (Finset.mem_of_mem_erase hm),
   fun i j j0 h1 h2 =>
    h.functional i j j0 (Finset.mem_of_mem_erase h1) (Finset.mem_of_mem_erase h2),
   fun i i0 j h1 h2 =>
    h.injective i i0 j (Finset.mem_of_mem_erase h1) (Finset.mem_of_mem_erase h2)⟩

theorem WindowPairing.insert {a b : List α} {r : Int} {M : Finset (Nat × Nat)}
    (h : WindowPairing a b r M) (i j : Nat) (x : α) (ha : a[i]? = some x)
    (hb : b[j]? = some x) (hn : |(i : Int) - (j : Int)| ≤ r) (hrow : ∀ j0, (i, j0) ∉ M)
    (hcol : ∀ i0, (i0, j) ∉ M) : WindowPairing a b r (insert (i, j) M) := by
  refine ⟨?_, ?_, ?_, ?_⟩
  · intro i1 j1 hm
    rcases Finset.mem_insert.1 hm with h1 | h1
    · simp only [Prod.mk.injEq] at h1
      rw [h1.1, h1.2]
      exact ⟨x, ha, hb⟩
    · exact h.same _ _ h1
  · intro i1 j1 hm
    rcases Finset.mem_insert.1 hm with h1 | h1
    · simp only [Prod.mk.injEq] at h1
      rw [h1.1, h1.2]
      exact hn
    · exact h.near _ _ h1
  · intro i1 j1 j2 h1 h2
    rcases Finset.mem_insert.1 h1 with e1 | e1 <;> rcases Finset.mem_insert.1 h2 with e2 | e2
    · simp only [Prod.mk.injEq] at e1 e2
      omega
    · simp only [Prod.mk.injEq] at e1
      rw [e1.1] at e2
      exact absurd e2 (hrow _)
    · simp only [Prod.mk.injEq] at e2
      rw [e2.1] at e1
      exact absurd e1 (hrow _)
    · exact h.functional _ _ _ e1 e2
  · intro i1 i2 j1 h1 h2
    rcases Finset.mem_insert.1 h1 with e1 | e1 <;> rcases Finset.mem_insert.1 h2 with e2 | e2
    · simp only [Prod.mk.injEq] at e1 e2
      omega
    · simp only [Prod.mk.injEq] at e1
      rw [e1.2] at e2
      exact absurd e2 (hcol _)
    · simp only [Prod.mk.injEq] at e2
      rw [e2.2] at e1
      exact absurd e1 (hcol _)
    · exact h.injective _ _ _ e1 e2

/-- One row of the exchange argument: a pairing that agrees with the scan on
the rows below `k` can be changed, without losing a pair, into one that agrees
with the scan on row `k` as well. -/
theorem pairing_step {a b : List α} {R n : Nat} {P : Nat → Nat → Prop}
    (G : Greedy a b R n P) (k : Nat) (hk : k < n) (M : Finset (Nat × Nat))
    (hM : WindowPairing a b (R : Int) M)
    (hag : ∀ i j, i < k → ((i, j) ∈ M ↔ P i j)) :
    ∃ M0, WindowPairing a b (R : Int) M0 ∧
      (∀ i j, i < k + 1 → ((i, j) ∈ M0 ↔ P i j)) ∧ M.card ≤ M0.card := by
  by_cases hP : ∃ j, P k j
  · obtain ⟨j, hj⟩ := hP
    obtain ⟨x, hax, hbx⟩ := G.same k j hj
    obtain ⟨hn1, hn2⟩ := G.near k j hj
    have hPk : ∀ j2, P k j2 ↔ j2 = j := fun j2 =>
      ⟨fun h => G.functional k j2 j h hj, fun h => h ▸ hj⟩
    have hcolk : ∀ i, (i, j) ∈ M → k ≤ i := by
      intro i hi
      by_contra hlt
      have := G.injective i k j ((hag i j (by omega)).1 hi) hj
      omega
    have hrowk : ∀ j2, (k, j2) ∈ M → j ≤ j2 := by
      intro j2 h2
      by_contra hlt
      obtain ⟨y, hay, hby⟩ := hM.same k j2 h2
      obtain ⟨m1, m2⟩ := hM.near_nat h2
      obtain ⟨i0, hi0, hp0⟩ := G.first k j2 y hk hay hby m1 m2
        (fun j0 h0 => by rw [(hPk j0).1 h0]; omega)
      have := hM.injective i0 k j2 ((hag i0 j2 hi0).2 hp0) h2
      omega
    have close : ∀ M0 : Finset (Nat × Nat), WindowPairing a b (R : Int) M0 →
        (∀ i j2, i < k → ((i, j2) ∈ M0 ↔ (i, j2) ∈ M)) → (∀ j2, (k, j2) ∈ M0 ↔ j2 = j) →
        M.card ≤ M0.card →
        ∃ M0, WindowPairing a b (R : Int) M0 ∧
          (∀ i j, i < k + 1 → ((i, j) ∈ M0 ↔ P i j)) ∧ M.card ≤ M0.card := by
      intro M0 h1 h2 h3 h4
      refine ⟨M0, h1, ?_, h4⟩
      intro i j2 hi
      rcases Nat.lt_succ_iff_lt_or_eq.1 hi with h | h
      · rw [h2 i j2 h]
        exact hag i j2 h
      · rw [h, h3, hPk]
    have hnear : |(k : Int) - (j : Int)| ≤ (R : Int) := by
      rw [abs_le]
      constructor <;> omega
    by_cases hkj : (k, j) ∈ M
    · exact close M hM (fun _ _ _ => Iff.rfl)
        (fun j2 => ⟨fun h => hM.functional k j2 j h hkj, fun h => h ▸ hkj⟩) le_rfl
    · by_cases hr : ∃ j1, (k, j1) ∈ M <;> by_cases hc : ∃ i1, (i1, j) ∈ M
      · obtain ⟨j1, hj1⟩ := hr
        obtain ⟨i1, hi1⟩ := hc
        have hjj : j < j1 :=
          lt_of_le_of_ne (hrowk j1 hj1) (fun e => hkj (by rw [e]; exact hj1))
        have hki : k < i1 :=
          lt_of_le_of_ne (hcolk i1 hi1) (fun e => hkj (by rw [e]; exact hi1))
        have hM2 := (hM.erase (k, j1)).erase (i1, j)
        have hrow2 : ∀ j0, (k, j0) ∉ (M.erase (k, j1)).erase (i1, j) := by
          intro j0 h0
          simp only [Finset.mem_erase, ne_eq, Prod.mk.injEq, not_and] at h0
          exact h0.2.1 trivial (hM.functional k j0 j1 h0.2.2 hj1)
        have hcol2 : ∀ i0, (i0, j) ∉ (M.erase (k, j1)).erase (i1, j) := by
          intro i0 h0
          simp only [Finset.mem_erase, ne_eq, Prod.mk.injEq, not_and] at h0
          exact h0.1 (hM.injective i0 i1 j h0.2.2 hi1) trivial
        have hM3 := hM2.insert k j x hax hbx hnear hrow2 hcol2
        have hrow3 : ∀ j0, (i1, j0) ∉ insert (k, j) ((M.erase (k, j1)).erase (i1, j)) := by
          intro j0 h0
          simp only [Finset.mem_insert, Finset.mem_erase, ne_eq, Prod.mk.injEq,
            not_and] at h0
          rcases h0 with ⟨h, _⟩ | ⟨h, _, hmem⟩
          · omega
          · exact h trivial (hM.functional i1 j0 j hmem hi1)
        have hcol3 : ∀ i0, (i0, j1) ∉ insert (k, j) ((M.erase (k, j1)).erase (i1, j)) := by
          intro i0 h0
          simp only [Finset.mem_insert, Finset.mem_erase, ne_eq, Prod.mk.injEq,
            not_and] at h0
          rcases h0 with ⟨_, h⟩ | ⟨_, h, hmem⟩
          · omega
          · exact h (hM.injective i0 k j1 hmem hj1) trivial
        obtain ⟨y, hay, hby⟩ := hM.same i1 j hi1
        obtain ⟨z, haz, hbz⟩ := hM.same k j1 hj1
        have hyx : y = x := Option.some.inj (hby.symm.trans hbx)
        have hzx : z = x := Option.some.inj (haz.symm.trans hax)
        rw [hyx] at hay
        rw [hzx] at hbz
        obtain ⟨n1, n2⟩ := hM.near_nat hi1
        obtain ⟨n3, n4⟩ := hM.near_nat hj1
        have hnear4 : |(i1 : Int) - (j1 : Int)| ≤ (R : Int) := by
          rw [abs_le]
          constructor <;> omega
        have hM4 := hM3.insert i1 j1 x hay hbz hnear4 hrow3 hcol3
        refine close _ hM4 ?_ ?_ ?_
        · intro i j2 hi
          have e1 : i ≠ k := by omega
          have e2 : i ≠ i1 := by omega
          simp [Finset.mem_insert, Finset.mem_erase, e1, e2]
        · intro j2
          constructor
          · intro h
            rcases Finset.mem_insert.1 h with e | e
            · simp only [Prod.mk.injEq] at e
              omega
            · rcases Finset.mem_insert.1 e with e | e
              · simp only [Prod.mk.injEq] at e
                exact e.2
              · exact absurd e (hrow2 _)
          · intro h
            rw [h]
            exact Finset.mem_insert_of_mem (Finset.mem_insert_self _ _)
        · rw [Finset.card_insert_of_not_mem (hrow3 _), Finset.card_insert_of_not_mem (hrow2 _)]
          have c1 := Finset.card_erase_add_one hj1
          have hmem : (i1, j) ∈ M.erase (k, j1) :=
            Finset.mem_erase.2 ⟨by simp only [ne_eq, Prod.mk.injEq, not_and]; omega, hi1⟩
          have c2 := Finset.card_erase_add_one hmem
          omega
      · obtain ⟨j1, hj1⟩ := hr
        have hM2 := hM.erase (k, j1)
        have hrow2 : ∀ j0, (k, j0) ∉ M.erase (k, j1) := by
          intro j0 h0
          simp only [Finset.mem_erase, ne_eq, Prod.mk.injEq, not_and] at h0
          exact h0.1 trivial (hM.functional k j0 j1 h0.2 hj1)
        have hcol2 : ∀ i0, (i0, j) ∉ M.erase (k, j1) :=
          fun i0 h0 => hc ⟨i0, Finset.mem_of_mem_erase h0⟩
        refine close _ (hM2.insert k j x hax hbx hnear hrow2 hcol2) ?_ ?_ ?_
        · intro i j2 hi
          have e1 : i ≠ k := by omega
          simp [Finset.mem_insert, Finset.mem_erase, e1]
        · intro j2
          constructor
          · intro h
            rcases Finset.mem_insert.1 h with e | e
            · simp only [Prod.mk.injEq] at e
              exact e.2
            · exact absurd e (hrow2 _)
          · intro h
            rw [h]
            exact Finset.mem_insert_self _ _
        · rw [Finset.card_insert_of_not_mem (hrow2 _)]
          have c1 := Finset.card_erase_add_one hj1
          omega
      · obtain ⟨i1, hi1⟩ := hc
        have hki : k < i1 :=
          lt_of_le_of_ne (hcolk i1 hi1) (fun e => hkj (by rw [e]; exact hi1))
        have hM2 := hM.erase (i1, j)
        have hrow2 : ∀ j0, (k, j0) ∉ M.erase (i1, j) :=
          fun j0 h0 => hr ⟨j0, Finset.mem_of_mem_erase h0⟩
        have hcol2 : ∀ i0, (i0, j) ∉ M.erase (i1, j) := by
          intro i0 h0
          simp only [Finset.mem_erase, ne_eq, Prod.mk.injEq, not_and] at h0
          exact h0.1 (hM.injective i0 i1 j h0.2 hi1) trivial
        refine close _ (hM2.insert k j x hax hbx hnear hrow2 hcol2) ?_ ?_ ?_
        · intro i j2 hi
          have e1 : i ≠ k := by omega
          have e2 : i ≠ i1 := by omega
          simp [Finset.mem_insert, Finset.mem_erase, e1, e2]
        · intro j2
          constructor
          · intro h
            rcases Finset.mem_insert.1 h with e | e
            · simp only [Prod.mk.injEq] at e
              exact e.2
            · exact absurd e (hrow2 _)
          · intro h
            rw [h]
            exact Finset.mem_insert_self _ _
        · rw [Finset.card_insert_of_not_mem (hrow2 _)]
          have c1 := Finset.card_erase_add_one hi1
          omega
      · have hrow2 : ∀ j0, (k, j0) ∉ M := fun j0 h0 => hr ⟨j0, h0⟩
        have hcol2 : ∀ i0, (i0, j) ∉ M := fun i0 h0 => hc ⟨i0, h0⟩
        refine close _ (hM.insert k j x hax hbx hnear hrow2 hcol2) ?_ ?_ ?_
        · intro i j2 hi
          have e1 : i ≠ k := by omega
          simp [Finset.mem_insert, e1]
        · intro j2
          constructor
          · intro h
            rcases Finset.mem_insert.1 h with e | e
            · simp only [Prod.mk.injEq] at e
              exact e.2
            · exact absurd e (hrow2 _)
          · intro h
            rw [h]
            exact Finset.mem_insert_self _ _
        · rw [Finset.card_insert_of_not_mem (hrow2 _)]
          omega
  · refine ⟨M, hM, ?_, le_rfl⟩
    intro i j2 hi
    rcases Nat.lt_succ_iff_lt_or_eq.1 hi with h | h
    · exact hag i j2 h
    · rw [h]
      constructor
      · intro h2
        exfalso
        obtain ⟨y, hay, hby⟩ := hM.same k j2 h2
        obtain ⟨m1, m2⟩ := hM.near_nat h2
        obtain ⟨i0, hi0, hp0⟩ := G.first k j2 y hk hay hby m1 m2
          (fun j0 h0 => absurd ⟨j0, h0⟩ hP)
        have := hM.injective i0 k j2 ((hag i0 j2 hi0).2 hp0) h2
        omega
      · intro h2
        exact absurd ⟨j2, h2⟩ hP

theorem pairing_extend {a b : List α} {R n : Nat} {P : Nat → Nat → Prop}
    (G : Greedy a b R n P) (M : Finset (Nat × Nat)) (hM : WindowPairing a b (R : Int) M) :
    ∀ k, k ≤ n → ∃ M0, WindowPairing a b (R : Int) M0 ∧
      (∀ i j, i < k → ((i, j) ∈ M0 ↔ P i j)) ∧ M.card ≤ M0.card := by
  intro k
  induction k with
  | zero =>
    intro _
    exact ⟨M, hM, fun i j hi => absurd hi (Nat.not_lt_zero i), le_rfl⟩
  | succ k ih =>
    intro hk
    obtain ⟨M1, h1, h2, h3⟩ := ih (by omega)
    obtain ⟨M2, h4, h5, h6⟩ := pairing_step G k (by omega) M1 h1 h2
    exact ⟨M2, h4, h5, le_trans h3 h6⟩

/-- A pairing inside the scan's own matching has at most `matchingCharacters`
pairs. -/
theorem pairing_card_le {a b : List α} {R : Nat} {s : MatchState} {P : Nat → Nat → Prop}
    (inv : ScanInv a b R a.length s P) (M : Finset (Nat × Nat))
    (hM : WindowPairing a b (R : Int) M) (hsub : ∀ i j, (i, j) ∈ M → P i j) :
    (M.card : Int) ≤ s.matchingCharacters := by
  have hinj : Set.InjOn (fun p : Nat × Nat => (p.1 : Int)) (M : Set (Nat × Nat)) := by
    rintro ⟨i1, j1⟩ h1 ⟨i2, j2⟩ h2 he
    simp only [Nat.cast_inj] at he
    subst he
    rw [hM.functional _ _ _ h1 h2]
  have himg : M.image (fun p : Nat × Nat => (p.1 : Int))
      ⊆ (maskPositions s.aMatch 0).toFinset := by
    intro q hq
    obtain ⟨⟨i, j⟩, hp, rfl⟩ := Finset.mem_image.1 hq
    rw [List.mem_toFinset, maskPositions_mem_zero]
    exact (inv.aMask i).2 ⟨j, hsub i j hp⟩
  have h1 := Finset.card_le_card himg
  rw [Finset.card_image_of_injOn hinj] at h1
  have h2 := List.toFinset_card_le (maskPositions s.aMatch 0)
  rw [maskPositions_length] at h2
  rw [inv.aCount]
  exact_mod_cast le_trans h1 h2

/-- The scan's own matching is a pairing with `matchingCharacters` pairs. -/
theorem greedy_pairing {a b : List α} {R : Nat} {s : MatchState} {P : Nat → Nat → Prop}
    (inv : ScanInv a b R a.length s P) :
    ∃ M, WindowPairing a b (R : Int) M ∧ (∀ i j, (i, j) ∈ M ↔ P i j) ∧
      (M.card : Int) = s.matchingCharacters := by
  classical
  have hmem : ∀ i j, (i, j) ∈ (Finset.range a.length ×ˢ Finset.range b.length).filter
      (fun p => P p.1 p.2) ↔ P i j := by
    intro i j
    simp only [Finset.mem_filter, Finset.mem_product, Finset.mem_range]
    constructor
    · exact fun h => h.2
    · intro h
      obtain ⟨x, hax, hbx⟩ := inv.greedy.same i j h
      exact ⟨⟨lt_length_of_getElem? hax, lt_length_of_getElem? hbx⟩, h⟩
  have hM : WindowPairing a b (R : Int) ((Finset.range a.length ×ˢ Finset.range b.length).filter
      (fun p => P p.1 p.2)) := by
    refine ⟨?_, ?_, ?_, ?_⟩
    · exact fun i j h => inv.greedy.same i j ((hmem i j).1 h)
    · intro i j h
      have := inv.greedy.near i j ((hmem i j).1 h)
      rw [abs_le]
      constructor <;> omega
    · exact fun i j j0 h1 h2 => inv.greedy.functional i j j0 ((hmem _ _).1 h1) ((hmem _ _).1 h2)
    · exact fun i i0 j h1 h2 => inv.greedy.injective i i0 j ((hmem _ _).1 h1) ((hmem _ _).1 h2)
  refine ⟨_, hM, hmem, ?_⟩
  have hinj : Set.InjOn (fun p : Nat × Nat => (p.1 : Int))
      (((Finset.range a.length ×ˢ Finset.range b.length).filter
        (fun p => P p.1 p.2) : Finset (Nat × Nat)) : Set (Nat × Nat)) := by
    rintro ⟨i1, j1⟩ h1 ⟨i2, j2⟩ h2 he
    simp only [Nat.cast_inj] at he
    subst he
    rw [hM.functional _ _ _ h1 h2]
  have himg : ((Finset.range a.length ×ˢ Finset.range b.length).filter
      (fun p => P p.1 p.2)).image (fun p : Nat × Nat => (p.1 : Int))
      = (maskPositions s.aMatch 0).toFinset := by
    ext q
    rw [List.mem_toFinset, Finset.mem_image]
    constructor
    · rintro ⟨⟨i, j⟩, hp, rfl⟩
      rw [maskPositions_mem_zero]
      exact (inv.aMask i).2 ⟨j, (hmem i j).1 hp⟩
    · intro hq
      have hb := (maskPositions_bounds s.aMatch 0 q hq).1
      obtain ⟨i, rfl⟩ := Int.eq_ofNat_of_zero_le hb
      rw [maskPositions_mem_zero] at hq
      obtain ⟨j, hj⟩ := (inv.aMask i).1 hq
      exact ⟨(i, j), (hmem i j).2 hj, rfl⟩
  rw [← Finset.card_image_of_injOn hinj, himg,
    List.toFinset_card_of_nodup ((maskPositions_sorted s.aMatch 0).imp (fun h => ne_of_lt h)),
    maskPositions_length, inv.aCount]

/-- When no `int` of the scan leaves its range, the count `matchingCharacters`
of the single-pass first-free scan is the size of a largest one-to-one pairing
of positions `(i, j)` with `a[i] = b[j]` and `|i - j| ≤ maxRange`: some such
pairing has that many pairs and none has more. -/
theorem greedy_maximum_in_range (a b : List α) (h : InRange a b) :
    ∃ s, matchScan a b = some s ∧
      (∃ M, WindowPairing a b (maxRange a b) M ∧ (M.card : Int) = s.matchingCharacters) ∧
      ∀ M, WindowPairing a b (maxRange a b) M → (M.card : Int) ≤ s.matchingCharacters := by
  obtain ⟨s, P, hs, inv⟩ := matchScan_spec a b h
  rw [maxRange_eq a b h.1 h.2.1]
  refine ⟨s, hs, ?_, ?_⟩
  · obtain ⟨M, hM, _, hc⟩ := greedy_pairing inv
    exact ⟨M, hM, hc⟩
  · intro M hM
    obtain ⟨M0, h1, h2, h3⟩ := pairing_extend inv.greedy M hM a.length le_rfl
    have h4 := pairing_card_le inv M0 h1 (fun i j h => by
      obtain ⟨x, hax, _⟩ := h1.same i j h
      exact (h2 i j (lt_length_of_getElem? hax)).1 h)
    have : (M.card : Int) ≤ M0.card := by exact_mod_cast h3
    omega

/-! ## The sum of line 49 beyond the `int` range -/

theorem jaroValue_pos (fl : ℚ → ℚ) (hfl : ∀ x, 0 < x → 0 < fl x) (aLength bLength m t : Int)
    (hm : 0 < m) (ha : m ≤ aLength) (hb : m ≤ bLength) (ht0 : 0 ≤ t) (ht1 : t ≤ m) :
    0 < jaroValue fl aLength bLength m t := by
  have hh : t.tdiv 2 < m := by rw [Int.tdiv_eq_ediv ht0 (by omega)]; omega
  have hmq : (0 : ℚ) < m := by exact_mod_cast hm
  have haq : (0 : ℚ) < aLength := by exact_mod_cast lt_of_lt_of_le hm ha
  have hbq : (0 : ℚ) < bLength := by exact_mod_cast lt_of_lt_of_le hm hb
  have hdq : (0 : ℚ) < ((m - t.tdiv 2 : Int) : ℚ) := by
    exact_mod_cast (by omega : 0 < m - t.tdiv 2)
  have hwA : (0 : ℚ) < fl JARO_WEIGHT_STRING_A :=
    hfl _ (by unfold JARO_WEIGHT_STRING_A; norm_num)
  have hwB : (0 : ℚ) < fl JARO_WEIGHT_STRING_B :=
    hfl _ (by unfold JARO_WEIGHT_STRING_B; norm_num)
  have hwT : (0 : ℚ) < fl JARO_WEIGHT_TRANSPOSITIONS :=
    hfl _ (by unfold JARO_WEIGHT_TRANSPOSITIONS; norm_num)
  unfold jaroValue
  exact hfl _ (add_pos
    (hfl _ (add_pos (hfl _ (div_pos (hfl _ (mul_pos hwA hmq)) haq))
      (hfl _ (div_pos (hfl _ (mul_pos hwB hmq)) hbq))))
    (hfl _ (div_pos (hfl _ (mul_pos hwT hdq)) hmq)))

/-- For sizes that fit in an `int`: when no row whose sum of line 49 stays in
range holds a symbol of `b`, the scan matches nothing. -/
theorem matchScan_zero_of_overflow (a b : List α) (hla : a.length < 2147483648)
    (hlb : b.length < 2147483648)
    (h : ∀ (i j : Nat) (x : α), i + windowRadius a b + 1 < 2147483648 → a[i]? = some x →
      b[j]? = some x → False) :
    ∃ s, matchScan a b = some s ∧ s.matchingCharacters = 0 := by
  obtain ⟨s, P, k, hs, _, inv, hrows, _⟩ := matchScan_raw a b hla hlb
  refine ⟨s, hs, ?_⟩
  have hno : ∀ i j, ¬ P i j := by
    intro i j hp
    obtain ⟨x, hax, hbx⟩ := inv.greedy.same i j hp
    exact h i j x (hrows i (inv.greedy.row_lt i j hp)).2 hax hbx
  rw [inv.aCount, count_true_eq_zero]
  · rfl
  · intro k0 hk
    obtain ⟨j, hj⟩ := (inv.aMask k0).1 hk
    exact hno k0 j hj

/-- When no `int` of the scan leaves its range and some position of `a` holds
the symbol of a position of `b` inside its window, the score is positive. -/
theorem jaroDistance_pos_of_pair (fl : ℚ → ℚ) (hfl : ∀ x, 0 < x → 0 < fl x) (a b : List α)
    (h : InRange a b) (i j : Nat) (x : α) (hax : a[i]? = some x) (hbx : b[j]? = some x)
    (h1 : i ≤ j + windowRadius a b) (h2 : j ≤ i + windowRadius a b) :
    ∃ d, jaroDistance fl a b = some d ∧ 0 < d := by
  obtain ⟨s0, P, hs0, inv⟩ := matchScan_spec a b h
  have hm0 : s0.matchingCharacters ≠ 0 := by
    intro hm
    have hcount : s0.aMatch.count true = 0 := by
      have := inv.aCount
      rw [hm] at this
      exact_mod_cast this.symm
    have hno : ∀ i0 j0, ¬ P i0 j0 := by
      intro i0 j0 hp
      have hmem := List.getElem?_mem ((inv.aMask i0).2 ⟨j0, hp⟩)
      exact (List.count_eq_zero.1 hcount) hmem
    obtain ⟨i0, _, hp⟩ := inv.greedy.first i j x (lt_length_of_getElem? hax) hax hbx h1 h2
      (fun j0 hp => absurd hp (hno i j0))
    exact hno i0 j hp
  rcases jaroDistance_spec fl a b h.1 h.2.1 with ⟨hab, _⟩ | ⟨_, _, s, hs, hm, _⟩ |
    ⟨_, _, s, t, hs, _, hm, hma, hmb, ht0, ht1, hv⟩
  · exfalso
    rcases hab with e | e
    · rw [e] at hax; simp at hax
    · rw [e] at hbx; simp at hbx
  · exfalso
    have hse : s0 = s := Option.some.inj (hs0.symm.trans hs)
    rw [hse] at hm0
    exact hm0 hm
  · exact ⟨_, hv, jaroValue_pos fl hfl _ _ _ _ hm hma hmb ht0 ht1⟩

theorem length_overflow_input (n m : Nat) :
    (List.replicate n 'y' ++ 'x' :: List.replicate m 'y').length = n + m + 1 := by
  rw [List.length_append, List.length_cons, List.length_replicate, List.length_replicate]
  omega

theorem getElem?_overflow_input (n m : Nat) :
    (List.replicate n 'y' ++ 'x' :: List.replicate m 'y')[n]? = some 'x' := by
  rw [List.getElem?_append_right (by rw [List.length_replicate]), List.length_replicate,
    Nat.sub_self, List.getElem?_cons_zero]

theorem getElem?_overflow_input_lt (n m i : Nat) (hi : i < n) (x : Char)
    (h : (List.replicate n 'y' ++ 'x' :: List.replicate m 'y')[i]? = some x) : x = 'y' := by
  rw [List.getElem?_append_left (by rw [List.length_replicate]; exact hi),
    List.getElem?_replicate, if_pos hi] at h
  exact (Option.some.inj h).symm

theorem windowRadius_of_length (n m : Nat) (b : List Char) (R : Nat)
    (h : max (n + m + 1) b.length / 2 - 1 = R) :
    windowRadius (List.replicate n 'y' ++ 'x' :: List.replicate m 'y') b = R := by
  unfold windowRadius
  rw [length_overflow_input]
  exact h

theorem windowRadius_overflow_input :
    windowRadius (List.replicate 1073741825 'y' ++ 'x' :: List.replicate 1073741821 'y')
      ['z', 'z', 'z', 'x'] = 1073741822 :=
  windowRadius_of_length 1073741825 1073741821 ['z', 'z', 'z', 'x'] 1073741822 (by decide)

/-- The scores of the two orders at a sequence of `2^31 - 1` symbols, with `x`
at index `2^30 + 1` among `y`s, against `z, z, z, x`.  With `a` the long
sequence the sum `aIndex + maxRange + 1` of line 49 leaves the `int` range at
row `2^30 + 1`, the only row that holds a symbol of `b`: the scan stops there
and the score is `0`.  With `a` the short sequence no sum leaves the range, the
`x` of row `3` finds the `x` of the long sequence at the edge of its window,
and the score is positive. -/
theorem scores_overflow_input (fl : ℚ → ℚ) (hfl : ∀ x, 0 < x → 0 < fl x) :
    jaroDistance fl (List.replicate 1073741825 'y' ++ 'x' :: List.replicate 1073741821 'y')
        ['z', 'z', 'z', 'x'] = some 0 ∧
      ∃ d, jaroDistance fl ['z', 'z', 'z', 'x']
        (List.replicate 1073741825 'y' ++ 'x' :: List.replicate 1073741821 'y') = some d ∧
        0 < d := by
  have hlen := length_overflow_input 1073741825 1073741821
  have hR := windowRadius_overflow_input
  constructor
  · obtain ⟨s, hs, hm⟩ := matchScan_zero_of_overflow
      (List.replicate 1073741825 'y' ++ 'x' :: List.replicate 1073741821 'y')
      ['z', 'z', 'z', 'x'] (by rw [hlen]; omega) (by simp)
      (by
        intro i j x hi hax hbx
        rw [hR] at hi
        have hxy := getElem?_overflow_input_lt 1073741825 1073741821 i (by omega) x hax
        rw [hxy] at hbx
        have hmem := List.getElem?_mem hbx
        revert hmem
        decide)
    exact jaroDistance_of_scan_zero fl _ _ s hs hm
  · have hR2 : windowRadius ['z', 'z', 'z', 'x']
        (List.replicate 1073741825 'y' ++ 'x' :: List.replicate 1073741821 'y')
        = 1073741822 := by
      rw [windowRadius_comm]
      exact hR
    refine jaroDistance_pos_of_pair fl hfl _ _ ?_ 3 1073741825 'x' rfl
      (getElem?_overflow_input 1073741825 1073741821) (by omega) (by rw [hR2])
    unfold InRange
    rw [hR2, hlen]
    simp only [List.length_cons, List.length_nil]
    omega

theorem exact_pos (x : ℚ) (h : 0 < x) : 0 < exact x := h

/-- C1, the code at a size where the sum of line 49 leaves the `int` range: for
the sequence of `2^31 - 1` symbols with `x` at index `2^30 + 1` among `y`s
against `z, z, z, x`, `jaroDistance` returns `0` with the long sequence first
and a positive value with the short sequence first, in exact and in binary64
arithmetic. -/
theorem jaroDistance_asymmetric_at_overflow :
    jaroDistance exact (List.replicate 1073741825 'y' ++ 'x' :: List.replicate 1073741821 'y')
        ['z', 'z', 'z', 'x'] = some 0 ∧
      (∃ d, jaroDistance exact ['z', 'z', 'z', 'x']
        (List.replicate 1073741825 'y' ++ 'x' :: List.replicate 1073741821 'y') = some d ∧
        0 < d) ∧
      jaroDistance binary64
        (List.replicate 1073741825 'y' ++ 'x' :: List.replicate 1073741821 'y')
        ['z', 'z', 'z', 'x'] = some 0 ∧
      ∃ d, jaroDistance binary64 ['z', 'z', 'z', 'x']
        (List.replicate 1073741825 'y' ++ 'x' :: List.replicate 1073741821 'y') = some d ∧
        0 < d :=
  ⟨(scores_overflow_input exact exact_pos).1, (scores_overflow_input exact exact_pos).2,
    (scores_overflow_input binary64 binary64_pos).1,
    (scores_overflow_input binary64 binary64_pos).2⟩

/-- C18, the code at a size where the sum of line 49 leaves the `int` range: for
the sequence of `2^31 - 1` symbols with `x` at index `2^30 + 1` among `y`s
against `z, z, z, x`, `jaroWinklerDistance` returns `0` with the long sequence
first and a positive value with the short sequence first, in exact and in
binary64 arithmetic. -/
theorem jaroWinklerDistance_asymmetric_at_overflow :
    jaroWinklerDistance exact
        (List.replicate 1073741825 'y' ++ 'x' :: List.replicate 1073741821 'y')
        ['z', 'z', 'z', 'x'] = some 0 ∧
      (∃ e, jaroWinklerDistance exact ['z', 'z', 'z', 'x']
        (List.replicate 1073741825 'y' ++ 'x' :: List.replicate 1073741821 'y') = some e ∧
        0 < e) ∧
      jaroWinklerDistance binary64
        (List.replicate 1073741825 'y' ++ 'x' :: List.replicate 1073741821 'y')
        ['z', 'z', 'z', 'x'] = some 0 ∧
      ∃ e, jaroWinklerDistance binary64 ['z', 'z', 'z', 'x']
        (List.replicate 1073741825 'y' ++ 'x' :: List.replicate 1073741821 'y') = some e ∧
        0 < e := by
  obtain ⟨h1, d1, h2, hd1⟩ := scores_overflow_input exact exact_pos
  obtain ⟨h3, d2, h4, hd2⟩ := scores_overflow_input binary64 binary64_pos
  refine ⟨?_, ?_, ?_, ?_⟩
  · rw [jaroWinklerDistance_eq exact _ _ 0 h1, if_neg threshold_nonneg_exact]
  · obtain ⟨e, he, _, hle, _⟩ := scores_exact _ _ d1 h2
    exact ⟨e, he, lt_of_lt_of_le hd1 hle⟩
  · rw [jaroWinklerDistance_eq binary64 _ _ 0 h3, if_neg threshold_nonneg_binary64]
  · obtain ⟨e, he, _, hle, _⟩ := scores_binary64 _ _ d2 h4
    exact ⟨e, he, lt_of_lt_of_le hd2 hle⟩

/-- C20, the code at a size where the sum of line 49 leaves the `int` range: for
the sequence of `2^31 - 1` symbols with `x` at index `2^30 + 1` among `y`s
against `z, z, z, x`, the scan returns with `matchingCharacters = 0`, although
the single pair `(2^30 + 1, 3)` is a one-to-one pairing of equal symbols at most
`maxRange` apart. -/
theorem greedy_not_maximum_at_overflow :
    (∃ s, matchScan (List.replicate 1073741825 'y' ++ 'x' :: List.replicate 1073741821 'y')
        ['z', 'z', 'z', 'x'] = some s ∧ s.matchingCharacters = 0) ∧
      WindowPairing (List.replicate 1073741825 'y' ++ 'x' :: List.replicate 1073741821 'y')
        ['z', 'z', 'z', 'x']
        (maxRange (List.replicate 1073741825 'y' ++ 'x' :: List.replicate 1073741821 'y')
          ['z', 'z', 'z', 'x']) {(1073741825, 3)} ∧
      ({(1073741825, 3)} : Finset (Nat × Nat)).card = 1 := by
  have hlen := length_overflow_input 1073741825 1073741821
  have hR := windowRadius_overflow_input
  have hla : (List.replicate 1073741825 'y' ++ 'x' :: List.replicate 1073741821 'y').length
      < 2147483648 := by rw [hlen]; omega
  refine ⟨?_, ?_, Finset.card_singleton _⟩
  · exact matchScan_zero_of_overflow _ _ hla (by simp)
      (by
        intro i j x hi hax hbx
        rw [hR] at hi
        have hxy := getElem?_overflow_input_lt 1073741825 1073741821 i (by omega) x hax
        rw [hxy] at hbx
        have hmem := List.getElem?_mem hbx
        revert hmem
        decide)
  · rw [maxRange_eq _ _ hla (by simp), hR]
    refine ⟨?_, ?_, ?_, ?_⟩
    · intro i j h
      rw [Finset.mem_singleton, Prod.mk.injEq] at h
      rw [h.1, h.2]
      exact ⟨'x', getElem?_overflow_input 1073741825 1073741821, rfl⟩
    · intro i j h
      rw [Finset.mem_singleton, Prod.mk.injEq] at h
      rw [h.1, h.2, abs_le]
      constructor <;> omega
    · intro i j j0 h h0
      rw [Finset.mem_singleton, Prod.mk.injEq] at h h0
      rw [h.2, h0.2]
    · intro i i0 j h h0
      rw [Finset.mem_singleton, Prod.mk.injEq] at h h0
      rw [h.1, h0.1]

end JaroWinkler
